import Mathlib

/-!
RevBayes: the element-rescale proposal on a simplex with an optional bound scalar, and the
parts of the rate matrix `RateMatrix_revPoMoTwo2N`, of the simulators
`CoalescentSFSSimulator` and `AlleleFrequencySimulator`, of the adaptive reversible-jump
proposal and of the node graph that the properties below are about.

A shallow embedding of `SingleElementScaleSimplexSingleScalarProposal.cpp`,
`RateMatrix_revPoMoTwo2N.cpp`, `CoalescentSFSSimulator.cpp` and
`AlleleFrequencySimulator.cpp`.

* `double` is idealised as a linearly ordered field `K` with a floor function.  The
  definitions are generic in `K` (and evaluate on `ℚ`); the theorems are stated for
  `K = ℝ` with `std::exp = Real.exp` and `log = Real.log`.
* In the idealisation no sum is rounded.  `doProposal` is therefore given a second time,
  as `doProposalDouble`, operation by operation in binary64 arithmetic (`Double`: round to
  nearest, ties to even, with signed zeros, infinities and NaN).  The properties that the
  rounding of `value_new - value_current + 1.0` breaks are settled on that evaluation.
* The global random number generator is replaced by the draws it hands out: `v` is the
  draw used for the index (when one is used) and `u` the draw used for the scaling factor;
  the simulators take their draws from a `RandomDraws` and count the draws made.
* A loop or recursion without a bound that shows in its text takes fuel and gives `none`
  when the fuel runs out; the theorems give the fuel that is enough.
* `long` and `size_t` are integers and naturals, with `% 2 ^ 64` where the source does
  arithmetic on a `size_t` that can wrap.
* The graph is an arena of nodes addressed by `NodeId`; the values of
  `StochasticNode<Simplex>` and of `StochasticNode<double>` nodes live in two typed stores.
* Reading a vector out of range is undefined behaviour in the source; the model returns
  `none` there.
* Functions of libraries outside the sources (`boost::math::digamma`, the assignment of a
  base class) are passed in as arguments.
* The adaptive reversible-jump proposal and the touch/keep/restore operations of the node
  graph have no implementation among the sources; their definitions follow the
  specification and say so.
-/

set_option autoImplicit false

namespace RevBayesCore

/-- Nodes are addressed by stable integer indices (`DagNode*` in the source). -/
abbrev NodeId := Nat

/-- The node kinds of `DagNode::getDagNodeType()`. -/
inductive DagNodeType where
  | CONSTANT
  | STOCHASTIC
  | DETERMINISTIC
  deriving DecidableEq, Repr

/-- The part of a `DagNode` that the proposal reads or writes through the base class. -/
structure DagNode where
  /-- Result of `getDagNodeType()`. -/
  type : DagNodeType
  /-- Result of `getNumberOfElements()`. -/
  numberOfElements : Nat
  /-- The set of touched element indices. -/
  touched_elements : Finset Nat

/-- Modelled from the spec: `DagNode::addTouchedElementIndex` is declared outside the
sources at hand; it records which element index changed. -/
def DagNode.addTouchedElementIndex (n : DagNode) (i : Nat) : DagNode :=
  { n with touched_elements := insert i n.touched_elements }

/-- Modelled from the spec: `DagNode::clearTouchedElementIndices` is declared outside the
sources at hand; it clears the touched-index markers of the node. -/
def DagNode.clearTouchedElementIndices (n : DagNode) : DagNode :=
  { n with touched_elements := ∅ }

/-- The graph state the proposal can observe. -/
structure Graph (K : Type) where
  /-- Base-class state of every node. -/
  dag : NodeId → DagNode
  /-- Value held by a `StochasticNode<Simplex>`. -/
  simplexValue : NodeId → List K
  /-- Value held by a `StochasticNode<double>`. -/
  doubleValue : NodeId → K
  /-- The set filled by `initiatefindUniqueDescendants`, in iteration order. -/
  descendants : NodeId → List NodeId

/-- `StochasticNode<Simplex>::setValue(new Simplex(v), false)`: assigns the value and
touches nothing. -/
def Graph.setSimplexValue {K : Type} (g : Graph K) (n : NodeId) (v : List K) : Graph K :=
  { g with simplexValue := Function.update g.simplexValue n v }

/-- `StochasticNode<double>::setValue(new double(x), false)`. -/
def Graph.setDoubleValue {K : Type} (g : Graph K) (n : NodeId) (x : K) : Graph K :=
  { g with doubleValue := Function.update g.doubleValue n x }

/-- Body of the loop over `affected` in `doProposal`. -/
def Graph.touchStep {K : Type} (size chosen_index : Nat) (g : Graph K) (it : NodeId) :
    Graph K :=
  if (g.dag it).type = DagNodeType.DETERMINISTIC ∧ (g.dag it).numberOfElements = size then
    { g with dag := Function.update g.dag it ((g.dag it).addTouchedElementIndex chosen_index) }
  else g

/-- Body of the loop over `affected` in `undoProposal` and `cleanProposal`. -/
def Graph.clearStep {K : Type} (size : Nat) (g : Graph K) (it : NodeId) : Graph K :=
  if (g.dag it).type = DagNodeType.DETERMINISTIC ∧ (g.dag it).numberOfElements = size then
    { g with dag := Function.update g.dag it (g.dag it).clearTouchedElementIndices }
  else g

/-- The value returned by `doProposal` in exact arithmetic:
`RbConstants::Double::neginf` or a finite number.  The evaluation in binary64,
`doProposalDouble`, returns a `Double`, which can also be `+inf` or a NaN. -/
inductive LnHastings (K : Type) where
  | neginf
  | finite (x : K)

/-- The fields of `SingleElementScaleSimplexSingleScalarProposal` and of its base class
`Proposal`. -/
structure SingleElementScaleSimplexSingleScalarProposal (K : Type) where
  /-- Base class: the nodes the proposal works on. -/
  nodes : List NodeId
  /-- Base class: target acceptance rate (0.44 by default). -/
  targetAcceptanceRate : K
  simplex : NodeId
  /-- Meaningful only when `scalar_added`. -/
  scalar : NodeId
  scalar_added : Bool
  lambda : K
  /-- The restricted candidate indices, a `std::set<size_t>`. -/
  indices : Finset Nat
  failed : Bool
  stored_simplex : List K
  stored_scalar : K

/-- What a call of `doProposal` leaves behind: the returned value, the proposal and the graph. -/
structure Outcome (K : Type) where
  ret : LnHastings K
  proposal : SingleElementScaleSimplexSingleScalarProposal K
  graph : Graph K

namespace SingleElementScaleSimplexSingleScalarProposal

variable {K : Type} [LinearOrderedField K]

/-- Lines 130-144 of `doProposal`: the chosen index.  `std::advance` past the end of the
set is undefined and gives `none`. -/
def chooseIndex [FloorRing K] (indices : Finset Nat) (size : Nat) (v : K) : Option Nat :=
  if 0 < indices.card then
    (indices.sort (· ≤ ·))[if 1 < indices.card then ⌊v * (indices.card : K)⌋₊ else 0]?
  else
    some ⌊v * (size : K)⌋₊

/-- The renormalising loop of `doProposal` (lines 155-163) from position `i` on: every
coordinate is divided by `sum`, and the first quotient below `1E-100` ends the loop with
failure (`none`).  In exact arithmetic the sum of a simplex is not 0; a field has
`x / 0 = 0` where the `double` of the source has an infinity or a NaN, which is what
`renormalizeDouble` computes. -/
def renormalize (sum : K) : List K → Option (List K)
  | [] => some []
  | x :: xs =>
    if x / sum < 1 / 10 ^ 100 then none
    else (renormalize sum xs).map (fun ys => x / sum :: ys)

/-- `doProposal`, with the two uniform draws and `exp`, `log` passed in. -/
def doProposal [FloorRing K] (exp log : K → K) (p : SingleElementScaleSimplexSingleScalarProposal K)
    (g : Graph K) (v u : K) : Option (Outcome K) :=
  let p := { p with failed := false }
  let p := { p with stored_simplex := g.simplexValue p.simplex }
  let simplex_current := g.simplexValue p.simplex
  match chooseIndex p.indices simplex_current.length v with
  | none => none
  | some chosen_index =>
    match simplex_current[chosen_index]? with
    | none => none
    | some value_current =>
      let scaling_factor := exp (p.lambda * (u - 1 / 2))
      let value_new := value_current * scaling_factor
      let simplex_sum_new := value_new - value_current + 1
      match renormalize simplex_sum_new (simplex_current.set chosen_index value_new) with
      | none => some { ret := LnHastings.neginf, proposal := { p with failed := true }, graph := g }
      | some simplex_new =>
        let g := g.setSimplexValue p.simplex simplex_new
        let lnHastings := log scaling_factor - log simplex_sum_new * (simplex_new.length : K)
        if p.scalar_added = true then
          let p := { p with stored_scalar := g.doubleValue p.scalar }
          let scalar_new := g.doubleValue p.scalar * simplex_sum_new
          let lnHastings := lnHastings + log simplex_sum_new
          let g := g.setDoubleValue p.scalar scalar_new
          let g := (g.descendants p.simplex).foldl
            (Graph.touchStep simplex_new.length chosen_index) g
          some { ret := LnHastings.finite lnHastings, proposal := p, graph := g }
        else
          some { ret := LnHastings.finite lnHastings, proposal := p, graph := g }

/-- `undoProposal`. -/
def undoProposal (p : SingleElementScaleSimplexSingleScalarProposal K) (g : Graph K) :
    SingleElementScaleSimplexSingleScalarProposal K × Graph K :=
  if p.failed = false then
    let g := g.setSimplexValue p.simplex p.stored_simplex
    if p.scalar_added = true then
      let g := g.setDoubleValue p.scalar p.stored_scalar
      let g := (g.descendants p.simplex).foldl (Graph.clearStep p.stored_simplex.length) g
      (p, g)
    else (p, g)
  else (p, g)

/-- `tune`. -/
def tune (p : SingleElementScaleSimplexSingleScalarProposal K) (rate : K) :
    SingleElementScaleSimplexSingleScalarProposal K :=
  if rate > p.targetAcceptanceRate then
    { p with lambda := p.lambda / (1 + (rate - p.targetAcceptanceRate) / (1 - p.targetAcceptanceRate)) }
  else
    { p with lambda := p.lambda * (2 - rate / p.targetAcceptanceRate) }

/-- `addIndex`: the index is inserted only when it is below the current size of the
simplex. -/
def addIndex (p : SingleElementScaleSimplexSingleScalarProposal K) (g : Graph K) (v : Nat) :
    SingleElementScaleSimplexSingleScalarProposal K :=
  if v < (g.simplexValue p.simplex).length then
    { p with indices := insert v p.indices }
  else p

/-- `cleanProposal`. -/
def cleanProposal (p : SingleElementScaleSimplexSingleScalarProposal K) (g : Graph K) :
    SingleElementScaleSimplexSingleScalarProposal K × Graph K :=
  if p.scalar_added = true ∧ p.failed = false then
    (p, (g.descendants p.simplex).foldl (Graph.clearStep p.stored_simplex.length) g)
  else (p, g)

/-- `prepareProposal`: the body is empty. -/
def prepareProposal (p : SingleElementScaleSimplexSingleScalarProposal K) (g : Graph K) :
    SingleElementScaleSimplexSingleScalarProposal K × Graph K :=
  (p, g)

/-- `swapNodeInternal`: the `static_cast` of the replacement is unchecked, so the
replacement is taken whatever node it is. -/
def swapNodeInternal (p : SingleElementScaleSimplexSingleScalarProposal K)
    (oldN newN : NodeId) : SingleElementScaleSimplexSingleScalarProposal K :=
  if oldN = p.simplex then
    { p with simplex := newN }
  else if p.scalar_added = true ∧ oldN = p.scalar then
    { p with scalar := newN }
  else p

/-- A graph used to evaluate the definitions: every simplex node holds `xs`, every scalar
node holds `5`, and nodes 1 and 2 are deterministic descendants of node 0 with two elements
each and nothing touched. -/
def exampleGraph {K : Type} [LinearOrderedField K] (xs : List K) : Graph K :=
  { dag := fun _ => { type := DagNodeType.DETERMINISTIC, numberOfElements := 2,
                      touched_elements := ∅ },
    simplexValue := fun _ => xs,
    doubleValue := fun _ => 5,
    descendants := fun n => if n = 0 then [1, 2] else [] }

/-- A proposal on node 0 with tuning parameter `l`, target rate `0.44`, the candidate set
`{0}`, a scalar (node 7) bound or not, and the `failed` flag left set by an earlier call. -/
def exampleProposal {K : Type} [LinearOrderedField K] (l : K) (bound : Bool) :
    SingleElementScaleSimplexSingleScalarProposal K :=
  { nodes := if bound then [0, 7] else [0], targetAcceptanceRate := 44 / 100, simplex := 0,
    scalar := 7, scalar_added := bound, lambda := l, indices := {0}, failed := true,
    stored_simplex := [], stored_scalar := 0 }

/-- The graph `exampleGraph xs` entered with index 1 already in the touched-index set of
every node. -/
def exampleTouchedGraph {K : Type} [LinearOrderedField K] (xs : List K) : Graph K :=
  { exampleGraph xs with
    dag := fun _ => { type := DagNodeType.DETERMINISTIC, numberOfElements := 2,
                      touched_elements := {1} } }

end SingleElementScaleSimplexSingleScalarProposal

namespace CoalescentSFSSimulator

/-- Lines 248-254 (left child) and 264-270 (right child) of `simulateMutations`: the state
handed to a child, computed from the state of the parent (`long current_state`) and the
number of mutations drawn on the branch of the child. -/
def childState (current_state : Int) (num_mutations : Nat) : Int :=
  if num_mutations % 2 = 1 then
    (if current_state = 0 then 1 else 1)
  else current_state

end CoalescentSFSSimulator

/-- The objects `RateMatrix_revPoMoTwo2N::assign` can be handed: a
`RateMatrix_revPoMoTwo2N`, for which the `dynamic_cast` succeeds, or an `Assignable` of
another class. -/
inductive Assignable (R : Type) where
  | revPoMoTwo2N (rm : R)
  | other (tag : Nat)

/-- The fields of `RateMatrix_revPoMoTwo2N` that the functions below read or write, those
inherited from `TimeReversibleRateMatrix` included.  `E` is the state of the eigen
system. -/
structure RateMatrix_revPoMoTwo2N (K E : Type) where
  /-- Base class: the 3 x 3 rate matrix. -/
  the_rate_matrix : Fin 3 → Fin 3 → K
  /-- Base class: the update flag. -/
  needs_update : Bool
  N : K
  mu : List K
  eigen_system : E
  c_ijk : List K
  /-- The complex table, as pairs of real and imaginary part. -/
  cc_ijk : List (K × K)

namespace RateMatrix_revPoMoTwo2N

variable {K E : Type} [LinearOrderedField K]

/-- The text of the exception thrown by `assign`. -/
def couldNotAssign : String := "Could not assign rate matrix."

/-- The assignment operator `operator=`.  The assignment of the base class
`TimeReversibleRateMatrix` is outside the sources and is passed in as `baseAssign`.  The
guard `this != &r` skips a self-assignment, which would copy every field onto itself. -/
def assignOp (baseAssign : RateMatrix_revPoMoTwo2N K E → RateMatrix_revPoMoTwo2N K E →
      RateMatrix_revPoMoTwo2N K E)
    (self r : RateMatrix_revPoMoTwo2N K E) : RateMatrix_revPoMoTwo2N K E :=
  { baseAssign self r with
    eigen_system := r.eigen_system, c_ijk := r.c_ijk, cc_ijk := r.cc_ijk, N := r.N,
    mu := r.mu }

/-- `assign`: the receiver after the call, and the error raised, if any. -/
def assign (baseAssign : RateMatrix_revPoMoTwo2N K E → RateMatrix_revPoMoTwo2N K E →
      RateMatrix_revPoMoTwo2N K E)
    (self : RateMatrix_revPoMoTwo2N K E) (m : Assignable (RateMatrix_revPoMoTwo2N K E)) :
    RateMatrix_revPoMoTwo2N K E × Except String Unit :=
  match m with
  | Assignable.revPoMoTwo2N rm => (assignOp baseAssign self rm, Except.ok ())
  | Assignable.other _ => (self, Except.error couldNotAssign)

/-- `computeOffDiagonal`, with `boost::math::digamma` passed in.  Reading `mu[0]` or `mu[1]`
out of range is undefined and gives `none`. -/
def computeOffDiagonal (digamma : K → K) (self : RateMatrix_revPoMoTwo2N K E) :
    Option (RateMatrix_revPoMoTwo2N K E) :=
  match self.mu[0]?, self.mu[1]? with
  | some mu0, some mu1 =>
    let harmonic_number := digamma self.N - digamma 1
    let r := self.N * harmonic_number / 2
    let value := 4 * mu0 * mu1 * self.N * harmonic_number
    let nc := mu0 + mu1 + 2 * mu0 * mu1 * self.N * harmonic_number
    let rRate := nc / value
    let m : Fin 3 → Fin 3 → K := fun i j =>
      if i = 0 ∧ j = 2 then 2 * mu0 * r * rRate
      else if i = 1 ∧ j = 2 then 2 * mu1 * r * rRate
      else if i = 2 ∧ j = 0 then 1 / 2 * rRate
      else if i = 2 ∧ j = 1 then 1 / 2 * rRate
      else 0
    some { self with the_rate_matrix := m, needs_update := true }
  | _, _ => none

/-- `getStationaryFrequencies`, with `boost::math::digamma` passed in. -/
def getStationaryFrequencies (digamma : K → K) (self : RateMatrix_revPoMoTwo2N K E) :
    Option (List K) :=
  match self.mu[0]?, self.mu[1]? with
  | some mu0, some mu1 =>
    let harmonic_number := digamma self.N - digamma 1
    let nc := mu0 + mu1 + 2 * mu0 * mu1 * self.N * harmonic_number
    let rnc := 1 / nc
    some [mu1 * rnc, mu0 * rnc, mu0 * mu1 * self.N * 2 * harmonic_number * rnc]
  | _, _ => none

/-- The rate matrix of the default constructor before its first update: `N = 2`,
`mu = (0.01, 0.01)`, with a zero matrix and empty tables. -/
def exampleRateMatrix (K : Type) [LinearOrderedField K] : RateMatrix_revPoMoTwo2N K Unit :=
  { the_rate_matrix := fun _ _ => 0, needs_update := true, N := 2, mu := [1 / 100, 1 / 100],
    eigen_system := (), c_ijk := [], cc_ijk := [] }

/-- A second rate matrix, with `N = 10`, `mu = (0.02, 0.03)` and filled tables. -/
def otherRateMatrix (K : Type) [LinearOrderedField K] : RateMatrix_revPoMoTwo2N K Unit :=
  { the_rate_matrix := fun _ _ => 1, needs_update := false, N := 10,
    mu := [2 / 100, 3 / 100], eigen_system := (), c_ijk := [1, 2, 3], cc_ijk := [(1, 0)] }

end RateMatrix_revPoMoTwo2N

namespace AdaptiveReversibleJumpProposal

/-- Modelled from the spec: the phases of the adaptive reversible-jump proposal, whose
implementation is outside the sources.  Cold while `updates < wait_before_learning`,
Learning while `updates < wait_before_learning + wait_before_using`, Adapted until `updates`
reaches `max_updates`, and frozen thereafter. -/
inductive Phase where
  | Cold
  | Learning
  | Adapted
  | Frozen
  deriving DecidableEq, Repr

/-- Modelled from the spec: the state of the proposal, whose implementation is outside the
sources: the fields declared in `AdaptiveReversibleJumpProposal.h` and the per-slot
empirical statistics, kept as the list of the (slot, value) observations accumulated so
far. -/
structure State (K : Type) where
  stored_value : K
  stored_index : Nat
  wait_before_learning : Nat
  wait_before_using : Nat
  num_tried : Nat
  updates : Nat
  max_updates : Nat
  statistics : List (Nat × K)

/-- Modelled from the spec: the variable the proposal works on, which is not in the
sources: its value and the slot the value occupies. -/
structure Variable (K : Type) where
  value : K
  index : Nat

/-- Modelled from the spec: the phase in effect, read off the running counter `updates`;
the code that computes it is outside the sources. -/
def phase {K : Type} (p : State K) : Phase :=
  if p.updates < p.wait_before_learning then Phase.Cold
  else if p.updates < p.wait_before_learning + p.wait_before_using then Phase.Learning
  else if p.updates < p.max_updates then Phase.Adapted
  else Phase.Frozen

/-- Modelled from the spec: `doProposal` of the adaptive reversible-jump proposal, which is
outside the sources.  It stores the previous value and slot, accumulates an observation
into the statistics in the Learning and Adapted phases only, advances the counters, and
moves the variable to the proposed slot and value, which the random kernel in effect
supplies.  The returned ln Hastings ratio depends on distributions outside this core and is
left out. -/
def doProposal {K : Type} (p : State K) (x : Variable K) (newIndex : Nat) (newValue : K) :
    State K × Variable K :=
  let learned :=
    match phase p with
    | Phase.Learning => p.statistics ++ [(x.index, x.value)]
    | Phase.Adapted => p.statistics ++ [(x.index, x.value)]
    | _ => p.statistics
  ({ p with stored_value := x.value, stored_index := x.index, statistics := learned,
            num_tried := p.num_tried + 1, updates := p.updates + 1 },
   { value := newValue, index := newIndex })

/-- Modelled from the spec: `undoProposal` of the adaptive reversible-jump proposal, which
is outside the sources; it restores the previous value and the previous slot. -/
def undoProposal {K : Type} (p : State K) (_x : Variable K) : State K × Variable K :=
  (p, { value := p.stored_value, index := p.stored_index })

/-- One iteration of the move: `doProposal` with the proposed slot and value, followed by
`undoProposal` when the proposal is rejected. -/
def iterate {K : Type} (s : State K × Variable K) (d : Nat × K × Bool) :
    State K × Variable K :=
  let s1 := doProposal s.1 s.2 d.1 d.2.1
  if d.2.2 = true then s1 else undoProposal s1.1 s1.2

/-- A sequence of iterations. -/
def run {K : Type} (p : State K) (x : Variable K) (ds : List (Nat × K × Bool)) :
    State K × Variable K :=
  ds.foldl iterate (p, x)

/-- A new proposal with `wait_before_learning = 2`, `wait_before_using = 1` and
`max_updates = 10`, and no statistics yet. -/
def exampleState (K : Type) [LinearOrderedField K] : State K :=
  { stored_value := 0, stored_index := 0, wait_before_learning := 2, wait_before_using := 1,
    num_tried := 0, updates := 0, max_updates := 10, statistics := [] }

end AdaptiveReversibleJumpProposal

namespace NodeGraph

/-- Modelled from the spec: a node of the graph with its caches; the node classes are
outside the sources.  `cached` is the cached log-probability of a stochastic node or the
cached value of a deterministic node, and `stored_cached` the copy of it taken at the first
touch, which is what `restore` rolls back to. -/
structure Node (K : Type) where
  type : DagNodeType
  value : K
  cached : K
  dirty : Bool
  touched_elements : Finset Nat
  stored_cached : K

/-- What can be observed of a node: everything but the stored copy. -/
def Node.observable {K : Type} (n : Node K) :
    DagNodeType × K × K × Bool × Finset Nat :=
  (n.type, n.value, n.cached, n.dirty, n.touched_elements)

/-- Modelled from the spec: the node graph as an arena of nodes with the result of
`findUniqueDescendants` for each node. -/
structure State (K : Type) where
  node : NodeId → Node K
  descendants : NodeId → List NodeId

/-- Modelled from the spec: `touch` on one node, outside the sources: it marks the node
dirty, keeps a copy of the cached value or log-probability if the node was not dirty yet,
and records the changed element index when one is given.  Propagation to descendants is
left to the caller. -/
def touchNode {K : Type} (n : Node K) (idx : Option Nat) : Node K :=
  { n with
    stored_cached := if n.dirty = true then n.stored_cached else n.cached,
    dirty := true,
    touched_elements :=
      match idx with
      | some i => insert i n.touched_elements
      | none => n.touched_elements }

/-- Modelled from the spec: `restore` on one node, outside the sources: a dirty node is
rolled back to its pre-touch cached value or log-probability and its dirty flag and
touched-index markers are cleared. -/
def restoreNode {K : Type} (n : Node K) : Node K :=
  if n.dirty = true then
    { n with cached := n.stored_cached, dirty := false, touched_elements := ∅ }
  else n

/-- Modelled from the spec: `keep` on one node, outside the sources: the current state is
committed; the dirty flag and the touched-index markers are cleared. -/
def keepNode {K : Type} (n : Node K) : Node K :=
  { n with dirty := false, touched_elements := ∅ }

/-- Modelled from the spec: a dirty node may have its cached value or log-probability
recomputed; a node that is not dirty keeps its cache, which is trustworthy. -/
def refreshNode {K : Type} (n : Node K) (c : K) : Node K :=
  if n.dirty = true then { n with cached := c } else n

/-- Modelled from the spec: `setValue` on one node, outside the sources: it assigns the
value and does nothing else; touching, keeping and restoring are left to the caller. -/
def setValueNode {K : Type} (n : Node K) (x : K) : Node K :=
  { n with value := x }

/-- Modelled from the spec: `touch(node)`. -/
def touch {K : Type} (g : State K) (n : NodeId) (idx : Option Nat) : State K :=
  { g with node := Function.update g.node n (touchNode (g.node n) idx) }

/-- Modelled from the spec: recomputation of the cache of one node. -/
def refresh {K : Type} (g : State K) (n : NodeId) (c : K) : State K :=
  { g with node := Function.update g.node n (refreshNode (g.node n) c) }

/-- Modelled from the spec: `setValue(node, newValue)`. -/
def setValue {K : Type} (g : State K) (n : NodeId) (x : K) : State K :=
  { g with node := Function.update g.node n (setValueNode (g.node n) x) }

/-- Modelled from the spec: `restore(node)`, on the node and its descendants. -/
def restore {K : Type} (g : State K) (n : NodeId) : State K :=
  (n :: g.descendants n).foldl
    (fun s m => { s with node := Function.update s.node m (restoreNode (s.node m)) }) g

/-- Modelled from the spec: `keep(node)`, on the node and its descendants. -/
def keep {K : Type} (g : State K) (n : NodeId) : State K :=
  (n :: g.descendants n).foldl
    (fun s m => { s with node := Function.update s.node m (keepNode (s.node m)) }) g

/-- What may happen between a touch and the following restore: further touches,
recomputations of caches and assignments of values. -/
inductive Op (K : Type) where
  | touch (m : NodeId) (idx : Option Nat)
  | refresh (m : NodeId) (c : K)
  | setValue (m : NodeId) (x : K)

/-- The node an operation works on. -/
def Op.target {K : Type} : Op K → NodeId
  | Op.touch m _ => m
  | Op.refresh m _ => m
  | Op.setValue m _ => m

/-- One operation. -/
def applyOp {K : Type} (g : State K) : Op K → State K
  | Op.touch m idx => touch g m idx
  | Op.refresh m c => refresh g m c
  | Op.setValue m x => setValue g m x

/-- The relation of a node `n`, between a touch and the following restore, to the node
`n0` it was before the touch: of the same kind, and either not dirty with the cache and
the touched indices of `n0`, or dirty with the cache of `n0` as its stored copy. -/
def Tracked {K : Type} (n0 n : Node K) : Prop :=
  n.type = n0.type ∧
    ((n.dirty = false ∧ n.cached = n0.cached ∧ n.touched_elements = n0.touched_elements) ∨
      (n.dirty = true ∧ n.stored_cached = n0.cached))

/-- A graph of clean nodes in which nodes 1 and 2 descend from node 0. -/
def exampleState (K : Type) [LinearOrderedField K] : State K :=
  { node := fun _ => { type := DagNodeType.STOCHASTIC, value := 1, cached := 2,
                       dirty := false, touched_elements := ∅, stored_cached := 0 },
    descendants := fun n => if n = 0 then [1, 2] else [] }

/-- The graph `exampleState` with node 0 as an earlier touch with index 1 left it: dirty,
with index 1 touched and the cache of before that touch, 0, stored. -/
def exampleDirtyState (K : Type) [LinearOrderedField K] : State K :=
  { node := fun m =>
      if m = 0 then
        { type := DagNodeType.STOCHASTIC, value := 1, cached := 2, dirty := true,
          touched_elements := {1}, stored_cached := 0 }
      else
        { type := DagNodeType.STOCHASTIC, value := 1, cached := 2, dirty := false,
          touched_elements := ∅, stored_cached := 0 },
    descendants := fun n => if n = 0 then [1, 2] else [] }

end NodeGraph

/-! The simulators -/

/-- The random numbers.  `GLOBAL_RNG` and the samplers of `RbStatistics` are outside the
sources.  A run of a simulator is determined by the values the samplers hand back, so each
sampler is a function of its parameter and of the number of draws made before it (the
state of the generator), and the simulators pass that number along. -/
structure RandomDraws (K : Type) where
  /-- The draw `rng->uniform01()`. -/
  uniform01 : Nat → K
  /-- The draw `RbStatistics::Exponential::rv(lambda, *rng)`. -/
  exponential : K → Nat → K
  /-- The draw `RbStatistics::Poisson::rv(rate, *rng)`. -/
  poisson : K → Nat → Nat
  /-- The draw `RbStatistics::Geometric::rv(p, *rng)`. -/
  geometric : K → Nat → Int

/-- The conversion of a `double` to `size_t`: truncation towards zero; undefined, hence
`none`, when the truncated value is not a `size_t`. -/
def toSizeT {K : Type} [LinearOrderedField K] [FloorRing K] (x : K) : Option Nat :=
  if -1 < x ∧ x < 2 ^ 64 then some (Int.toNat ⌊x⌋) else none

/-- The conversion of a `double` to `long`: truncation towards zero. -/
def toLong {K : Type} [LinearOrderedField K] [FloorRing K] (x : K) : Int :=
  if 0 ≤ x then ⌊x⌋ else ⌈x⌉

/-- The members of `AlleleFrequencySimulator` that `simulateAlongBranch` reads. -/
structure AlleleFrequencySimulator (K : Type) where
  generation_time : K
  mutation_rates : List K
  moran_generations : Bool

namespace AlleleFrequencySimulator

variable {K : Type} [LinearOrderedField K]

/-- The loop of `isVariable` over the entries after the first one, with its early
`return true`. -/
def isVariableLoop (ref : Int) : List Int → Bool
  | [] => false
  | x :: rest => if ref ≠ x then true else isVariableLoop ref rest

/-- `isVariable`.  Reading `site_pattern[0]` of an empty pattern is undefined and gives
`none`. -/
def isVariable (site_pattern : List Int) : Option Bool :=
  match site_pattern[0]? with
  | none => none
  | some ref => some (isVariableLoop ref (site_pattern.drop 1))

/-- The variables of the loop of `simulateAlongBranch`, and the number of draws made. -/
structure BranchState (K : Type) where
  current_time : K
  current_state : Int
  rng : Nat

/-- One pass through the body of the `while` loop of `simulateAlongBranch` (lines
339-411).  The `long current_state` is compared with and divided by the `double`
population size after conversion to `double`. -/
def simulateAlongBranchStep [FloorRing K] (d : RandomDraws K)
    (this_populuation_size this_generation_time branch_length
      per_generation_mutation_rate_0 per_generation_mutation_rate_1 : K)
    (st : BranchState K) : BranchState K :=
  let current_time := st.current_time + this_generation_time
  if 0 < st.current_state ∧ (st.current_state : K) < this_populuation_size then
    let u := d.uniform01 st.rng
    if (st.current_state : K) / this_populuation_size > u then
      let v := d.uniform01 (st.rng + 1)
      if (st.current_state : K) / this_populuation_size < v then
        { current_time := current_time, current_state := st.current_state + 1,
          rng := st.rng + 2 }
      else
        { current_time := current_time, current_state := st.current_state,
          rng := st.rng + 2 }
    else
      let v := d.uniform01 (st.rng + 1)
      if (st.current_state : K) / this_populuation_size > v then
        { current_time := current_time, current_state := st.current_state - 1,
          rng := st.rng + 2 }
      else
        { current_time := current_time, current_state := st.current_state,
          rng := st.rng + 2 }
  else if st.current_state = 0 then
    let mutation_wait_generations := d.geometric per_generation_mutation_rate_0 st.rng
    let current_time := current_time + (mutation_wait_generations : K) * this_generation_time
    if current_time ≤ branch_length then
      { current_time := current_time, current_state := 1, rng := st.rng + 1 }
    else
      { current_time := current_time, current_state := st.current_state, rng := st.rng + 1 }
  else if (st.current_state : K) = this_populuation_size then
    let mutation_wait_generations := d.geometric per_generation_mutation_rate_1 st.rng
    let current_time := current_time + (mutation_wait_generations : K) * this_generation_time
    if current_time ≤ branch_length then
      { current_time := current_time, current_state := toLong (this_populuation_size - 1),
        rng := st.rng + 1 }
    else
      { current_time := current_time, current_state := st.current_state, rng := st.rng + 1 }
  else
    { current_time := current_time, current_state := st.current_state, rng := st.rng }

/-- The `while` loop of `simulateAlongBranch`; `none` when the fuel runs out before the
loop condition fails. -/
def simulateAlongBranchLoop [FloorRing K] (d : RandomDraws K)
    (this_populuation_size this_generation_time branch_length
      per_generation_mutation_rate_0 per_generation_mutation_rate_1 : K) :
    Nat → BranchState K → Option (BranchState K)
  | 0, _ => none
  | fuel + 1, st =>
    if st.current_time < branch_length then
      simulateAlongBranchLoop d this_populuation_size this_generation_time branch_length
        per_generation_mutation_rate_0 per_generation_mutation_rate_1 fuel
        (simulateAlongBranchStep d this_populuation_size this_generation_time branch_length
          per_generation_mutation_rate_0 per_generation_mutation_rate_1 st)
    else some st

/-- `simulateAlongBranch`: the returned state and the number of draws made.  Reading
`mutation_rates[0]` or `mutation_rates[1]` out of range is undefined and gives `none`, as
does running out of fuel.  `rng` is the number of draws made before the call. -/
def simulateAlongBranch [FloorRing K] (sim : AlleleFrequencySimulator K) (d : RandomDraws K)
    (fuel : Nat) (this_populuation_size : K) (root_start_state : Int) (branch_length : K)
    (rng : Nat) : Option (Int × Nat) :=
  match sim.mutation_rates[0]?, sim.mutation_rates[1]? with
  | some mutation_rate_0, some mutation_rate_1 =>
    let this_generation_time :=
      if sim.moran_generations then sim.generation_time / this_populuation_size
      else sim.generation_time
    let per_generation_mutation_rate_0 := mutation_rate_0 / sim.generation_time
    let per_generation_mutation_rate_1 := mutation_rate_1 / sim.generation_time
    (simulateAlongBranchLoop d this_populuation_size this_generation_time branch_length
      per_generation_mutation_rate_0 per_generation_mutation_rate_1 fuel
      { current_time := 0, current_state := root_start_state, rng := rng }).map
      (fun st => (st.current_state, st.rng))
  | _, _ => none

/-- A simulator with generation time 1, mutation rates `(0.01, 0.01)` and generations not
scaled by the population size. -/
def exampleSimulator (K : Type) [LinearOrderedField K] : AlleleFrequencySimulator K :=
  { generation_time := 1, mutation_rates := [1 / 100, 1 / 100], moran_generations := false }

end AlleleFrequencySimulator

/-- Draws that are all equal: every uniform draw is `1 / 2`, every exponential waiting time
is 1, every Poisson count is 1 and every geometric waiting time is 0. -/
def exampleDraws (K : Type) [LinearOrderedField K] : RandomDraws K :=
  { uniform01 := fun _ => 1 / 2, exponential := fun _ _ => 1, poisson := fun _ _ => 1,
    geometric := fun _ _ => 0 }

/-- The members of `CoalescentSFSSimulator`. -/
structure CoalescentSFSSimulator (K : Type) where
  population_sizes : List K
  change_points : List K
  generation_time : K
  mutation_rate : K
  ploidy_factor : K

namespace CoalescentSFSSimulator

variable {K : Type} [LinearOrderedField K]

/-- The first loop of `simulateCoalescentTime` (lines 200-204), which moves
`current_interval` past the change points before `current_age`; `none` when the fuel runs
out.  The test `current_interval < num_intervals` is the test that `change_points` has an
entry at `current_interval`. -/
def findInterval (sim : CoalescentSFSSimulator K) (current_age : K) : Nat → Nat → Option Nat
  | 0, _ => none
  | fuel + 1, current_interval =>
    match sim.change_points[current_interval]? with
    | none => some current_interval
    | some change_point =>
      if current_age > change_point then findInterval sim current_age fuel (current_interval + 1)
      else some current_interval

/-- The `do ... while` loop of `simulateCoalescentTime` (lines 207-224): the coalescent
time and the number of draws made; `none` when the fuel runs out or a vector is read out
of range.  `num_active * (num_active-1)` is a product of `size_t`. -/
def coalescentTimeLoop (sim : CoalescentSFSSimulator K) (d : RandomDraws K) (num_active : Nat) :
    Nat → Nat → K → Nat → Option (K × Nat)
  | 0, _, _, _ => none
  | fuel + 1, current_interval, coalescent_time, rng =>
    match sim.population_sizes[current_interval]? with
    | none => none
    | some population_size =>
      let num_pairs : K :=
        ((num_active * ((num_active + (2 ^ 64 - 1)) % 2 ^ 64) % 2 ^ 64 : Nat) : K) / 2
      let theta := population_size * sim.ploidy_factor
      let lambda := num_pairs / theta
      let u := d.exponential lambda rng
      let coalescent_time := coalescent_time + u
      if current_interval = sim.change_points.length then some (coalescent_time, rng + 1)
      else
        match sim.change_points[current_interval]? with
        | none => none
        | some change_point =>
          if coalescent_time < change_point then some (coalescent_time, rng + 1)
          else coalescentTimeLoop sim d num_active fuel (current_interval + 1) change_point
            (rng + 1)

/-- `simulateCoalescentTime`: the coalescent time and the number of draws made, with `rng`
the number of draws made before the call. -/
def simulateCoalescentTime (sim : CoalescentSFSSimulator K) (d : RandomDraws K) (fuel : Nat)
    (current_age : K) (num_active : Nat) (rng : Nat) : Option (K × Nat) :=
  match findInterval sim current_age fuel 0 with
  | none => none
  | some current_interval =>
    coalescentTimeLoop sim d num_active fuel current_interval current_age rng

/-- `simulateMutations`: the tip states, the returned number of mutations and the number of
draws made; `none` when the fuel runs out or a vector is read out of range.  An inner
vector of `children` has two entries throughout and is a pair here. -/
def simulateMutations (sim : CoalescentSFSSimulator K) (d : RandomDraws K)
    (children : List (Nat × Nat)) (ages : List K) :
    Nat → Nat → Int → List Int → Nat → Option (List Int × Nat × Nat)
  | 0, _, _, _, _ => none
  | fuel + 1, current_index, current_state, tip_states, rng =>
    if current_index < tip_states.length then
      some (tip_states.set current_index current_state, 0, rng)
    else
      match children[current_index]?, ages[current_index]? with
      | some (left, right), some age =>
        match ages[left]? with
        | none => none
        | some left_age =>
          let left_branch_length := age - left_age
          let left_num_mutations := d.poisson (sim.mutation_rate * left_branch_length) rng
          let left_state := childState current_state left_num_mutations
          match simulateMutations sim d children ages fuel left left_state tip_states
              (rng + 1) with
          | none => none
          | some (tip_states1, _, rng1) =>
            match ages[right]? with
            | none => none
            | some right_age =>
              let right_branch_length := age - right_age
              let right_num_mutations :=
                d.poisson (sim.mutation_rate * right_branch_length) rng1
              let right_state := childState current_state right_num_mutations
              match simulateMutations sim d children ages fuel right right_state tip_states1
                  (rng1 + 1) with
              | none => none
              | some (tip_states2, _, rng2) =>
                some (tip_states2, (left_num_mutations + right_num_mutations) % 2 ^ 64, rng2)
      | _, _ => none

/-- The local variables of `simulateSFS`, and the number of draws made.  The unordered set
`active_lineages` is the list of its elements in iteration order. -/
structure Locals (K : Type) where
  sfs : List Int
  ages : List K
  parents : List Nat
  children : List (Nat × Nat)
  tip_state : List Int
  active_lineages : List Nat
  current_time : K
  next_parent : Nat
  rng : Nat

/-- One pass through the body of the coalescent loop of `simulateSFS` (lines 98-136).
Where `std::unordered_set::insert` puts a new element in the iteration order is not
specified, so the insertion is the parameter `insert`.  Advancing an iterator past
the end and writing a vector out of range are undefined and give `none`. -/
def coalesce [FloorRing K] (sim : CoalescentSFSSimulator K) (d : RandomDraws K)
    (insert : List Nat → Nat → List Nat) (fuel num_active : Nat) (st : Locals K) :
    Option (Locals K) :=
  match simulateCoalescentTime sim d fuel st.current_time num_active st.rng with
  | none => none
  | some (next_coalescent_time, rng1) =>
    match toSizeT (d.uniform01 rng1 * (num_active : K)) with
    | none => none
    | some left_index =>
      match st.active_lineages[left_index]? with
      | none => none
      | some left =>
        match toSizeT (d.uniform01 (rng1 + 1) * ((num_active - 1 : Nat) : K)) with
        | none => none
        | some right_index =>
          match (st.active_lineages.eraseIdx left_index)[right_index]? with
          | none => none
          | some right =>
            if left < st.parents.length ∧ right < st.parents.length ∧
                st.next_parent < st.children.length ∧ st.next_parent < st.ages.length then
              some { st with
                parents := (st.parents.set left st.next_parent).set right st.next_parent
                children := st.children.set st.next_parent (left, right)
                ages := st.ages.set st.next_parent next_coalescent_time
                active_lineages :=
                  insert ((st.active_lineages.eraseIdx left_index).eraseIdx right_index)
                    st.next_parent
                next_parent := st.next_parent + 1
                current_time := next_coalescent_time
                rng := rng1 + 2 }
            else none

/-- The coalescent loop of `simulateSFS` (line 96), which counts `num_active` down to 1. -/
def coalesceLoop [FloorRing K] (sim : CoalescentSFSSimulator K) (d : RandomDraws K)
    (insert : List Nat → Nat → List Nat) (fuel : Nat) : Nat → Locals K → Option (Locals K)
  | 0, st => some st
  | num_active + 1, st =>
    if num_active + 1 > 1 then
      match coalesce sim d insert fuel (num_active + 1) st with
      | none => none
      | some st1 => coalesceLoop sim d insert fuel num_active st1
    else some st

/-- The sum of the tip states of lines 144-148, accumulated in a `size_t`. -/
def observedState (tip_state : List Int) : Nat → Option Nat
  | 0 => some 0
  | tip + 1 =>
    match observedState tip_state tip, tip_state[tip]? with
    | some obs_state, some state => some (((obs_state : Int) + state) % 2 ^ 64).toNat
    | _, _ => none

/-- One pass through the body of the loop over the replicates of `simulateSFS` (lines
84-152); the progress bar is left out. -/
def simulateReplicate [FloorRing K] (sim : CoalescentSFSSimulator K) (d : RandomDraws K)
    (insert : List Nat → Nat → List Nat) (fuel sample_size : Nat) (st : Locals K) :
    Option (Locals K) :=
  match coalesceLoop sim d insert fuel sample_size
      { st with
        active_lineages := (List.range sample_size).foldl insert []
        current_time := 0
        next_parent := sample_size } with
  | none => none
  | some st1 =>
    let root_index := 2 * sample_size - 2
    match simulateMutations sim d st1.children st1.ages fuel root_index 0 st1.tip_state
        st1.rng with
    | none => none
    | some (tip_state, _, rng) =>
      match observedState tip_state sample_size with
      | none => none
      | some obs_state =>
        match st1.sfs[obs_state]? with
        | none => none
        | some count =>
          some { st1 with
            tip_state := tip_state, rng := rng, sfs := st1.sfs.set obs_state (count + 1) }

/-- The loop over the replicates of `simulateSFS` (line 81). -/
def replicateLoop [FloorRing K] (sim : CoalescentSFSSimulator K) (d : RandomDraws K)
    (insert : List Nat → Nat → List Nat) (fuel sample_size : Nat) :
    Nat → Locals K → Option (Locals K)
  | 0, st => some st
  | reps + 1, st =>
    match simulateReplicate sim d insert fuel sample_size st with
    | none => none
    | some st1 => replicateLoop sim d insert fuel sample_size reps st1

/-- The local variables of `simulateSFS` before the loop over the replicates (lines
45-79); `(size_t) -1` is `2 ^ 64 - 1`. -/
def initialLocals (sample_size rng : Nat) : Locals K :=
  { sfs := List.replicate (sample_size + 1) 0
    ages := List.replicate (2 * sample_size - 1) 0
    parents := List.replicate (2 * sample_size - 1) (2 ^ 64 - 1)
    children := List.replicate (2 * sample_size - 1) (2 ^ 64 - 1, 2 ^ 64 - 1)
    tip_state := List.replicate sample_size 0
    active_lineages := []
    current_time := 0
    next_parent := sample_size
    rng := rng }

/-- `simulateSFS` in the build without `RB_MPI`: the returned spectrum, with `rng` the
number of draws made before the call.  With `sample_size < 1` the vectors of line 75-77
cannot be constructed (their size `2*sample_size-1` is negative), which gives `none`; the
`long reps` is converted to the `size_t reps_this_process`. -/
def simulateSFS [FloorRing K] (sim : CoalescentSFSSimulator K) (d : RandomDraws K)
    (insert : List Nat → Nat → List Nat) (fuel : Nat) (sample_size reps : Int) (rng : Nat) :
    Option (List Int) :=
  if sample_size < 1 then none
  else
    (replicateLoop sim d insert fuel sample_size.toNat (reps % 2 ^ 64).toNat
      (initialLocals sample_size.toNat rng)).map (fun st => st.sfs)

/-- A simulator with the population sizes `(1, 2)`, the change point 1, generation time 1,
mutation rate 1 and haploid samples. -/
def exampleSimulator (K : Type) [LinearOrderedField K] : CoalescentSFSSimulator K :=
  { population_sizes := [1, 2], change_points := [1], generation_time := 1,
    mutation_rate := 1, ploidy_factor := 1 }


/-- Descent in the genealogy: `Below children sample_size p t` holds when the recursion of
`simulateMutations`, called on the node `p`, arrives at the tip `t`. -/
inductive Below (children : List (Nat × Nat)) (sample_size : Nat) : Nat → Nat → Prop
  | tip (t : Nat) (ht : t < sample_size) : Below children sample_size t t
  | left (p l r t : Nat) (hp : sample_size ≤ p) (hc : children[p]? = some (l, r))
      (h : Below children sample_size l t) : Below children sample_size p t
  | right (p l r t : Nat) (hp : sample_size ≤ p) (hc : children[p]? = some (l, r))
      (h : Below children sample_size r t) : Below children sample_size p t

/-- The sizes of the vectors of `simulateSFS` for the sample size `n`. -/
structure Sized {K : Type} (n : Nat) (st : Locals K) : Prop where
  sfs : st.sfs.length = n + 1
  ages : st.ages.length = 2 * n - 1
  parents : st.parents.length = 2 * n - 1
  children : st.children.length = 2 * n - 1
  tip_state : st.tip_state.length = n

/-- The invariant of the coalescent loop of `simulateSFS` for the sample size `n`, with
`num_active` lineages left: the active lineages are nodes made so far, the node made last
is one of them, every node made so far has its two children before it, and every tip is
below an active lineage. -/
structure Coalescing {K : Type} (n num_active : Nat) (st : Locals K) : Prop where
  sized : Sized n st
  active : 1 ≤ num_active
  made : n ≤ st.next_parent
  total : st.next_parent + num_active = 2 * n
  length : st.active_lineages.length = num_active
  bound : ∀ a ∈ st.active_lineages, a < st.next_parent
  last : ∃ a ∈ st.active_lineages, a + 1 = st.next_parent
  parent : ∀ p, n ≤ p → p < st.next_parent →
    ∃ l r, st.children[p]? = some (l, r) ∧ l < p ∧ r < p
  cover : ∀ t, t < n → ∃ a ∈ st.active_lineages, Below st.children n a t

end CoalescentSFSSimulator

/-! Binary64 arithmetic -/

/-- A value of the IEEE 754 binary64 format, the `double` of the source: a finite value
`(-1)^negative * m * 2^(e - 1074)` with `m < 2^53` and `e <= 2045`, where `2^52 <= m`
unless `e = 0` (zero is `m = 0`, `e = 0`); an infinity; or a NaN. -/
inductive Double where
  | finite (negative : Bool) (m e : Nat)
  | inf (negative : Bool)
  | nan
  deriving DecidableEq

namespace Double

/-- The number of binary digits of `n` for `n < 2^(2^k)`, by halving the range of the
digit count `k` times. -/
def bitLengthBelow : Nat → Nat → Nat
  | 0, n => if n = 0 then 0 else 1
  | k + 1, n =>
    if 2 ^ 2 ^ k ≤ n then 2 ^ k + bitLengthBelow k (n / 2 ^ 2 ^ k) else bitLengthBelow k n

/-- The number of binary digits of a natural number below `2^8192`, which covers every
product and quotient of mantissas scaled by powers of two that the operations form. -/
def bitLength (n : Nat) : Nat := bitLengthBelow 13 n

/-- Rounding to nearest, ties to even: the binary64 value of the fraction `num / den`
(with `0 < den`) taken with the sign `negative`.  The mantissa is the quotient of
`num * 2^1074` by `den * 2^e` for the exponent `e` that brings it into `[2^52, 2^53)`, or
for `e = 0` when the fraction is below the normal range. -/
def round (negative : Bool) (num den : Nat) : Double :=
  if num = 0 then finite negative 0 0
  else
    let scaled := num * 2 ^ 1074
    let e0 := bitLength scaled - bitLength den - 52
    let e := if scaled / (den * 2 ^ e0) < 2 ^ 52 then e0 - 1 else e0
    let q := scaled / (den * 2 ^ e)
    let r := scaled % (den * 2 ^ e)
    let m := if den * 2 ^ e < 2 * r ∨ (2 * r = den * 2 ^ e ∧ q % 2 = 1) then q + 1 else q
    if m = 2 ^ 53 then
      (if 2045 < e + 1 then inf negative else finite negative (2 ^ 52) (e + 1))
    else
      (if 2045 < e then inf negative else finite negative m e)

/-- The integer `x * 2^1074` of a finite value `x`. -/
def scaledInt (negative : Bool) (m e : Nat) : Int :=
  if negative then -((m * 2 ^ e : Nat) : Int) else ((m * 2 ^ e : Nat) : Int)

/-- Unary minus. -/
def neg : Double → Double
  | finite s m e => finite (!s) m e
  | inf s => inf (!s)
  | nan => nan

/-- The sum of two `double`. -/
def add : Double → Double → Double
  | finite s m1 e1, finite t m2 e2 =>
    let z := scaledInt s m1 e1 + scaledInt t m2 e2
    if z = 0 then finite (s && t) 0 0
    else round (decide (z < 0)) z.natAbs (2 ^ 1074)
  | finite _ _ _, inf t => inf t
  | inf s, finite _ _ _ => inf s
  | inf s, inf t => if s = t then inf s else nan
  | _, _ => nan

/-- The difference of two `double`. -/
def sub (x y : Double) : Double := add x (neg y)

/-- The product of two `double`. -/
def mul : Double → Double → Double
  | finite s m1 e1, finite t m2 e2 => round (xor s t) (m1 * m2 * 2 ^ (e1 + e2)) (2 ^ 2148)
  | finite s m _, inf t => if m = 0 then nan else inf (xor s t)
  | inf s, finite t m _ => if m = 0 then nan else inf (xor s t)
  | inf s, inf t => inf (xor s t)
  | _, _ => nan

/-- The quotient of two `double`. -/
def div : Double → Double → Double
  | finite s m1 e1, finite t m2 e2 =>
    if m2 = 0 then (if m1 = 0 then nan else inf (xor s t))
    else round (xor s t) (m1 * 2 ^ e1) (m2 * 2 ^ e2)
  | finite s _ _, inf t => finite (xor s t) 0 0
  | inf s, finite t _ _ => inf (xor s t)
  | _, _ => nan

/-- The comparison `x < y` of two `double`; false when one of them is a NaN. -/
def lt : Double → Double → Bool
  | finite s m1 e1, finite t m2 e2 => decide (scaledInt s m1 e1 < scaledInt t m2 e2)
  | finite _ _ _, inf t => !t
  | inf s, finite _ _ _ => s
  | inf s, inf t => s && !t
  | _, _ => false

/-- The conversion `double(n)` of a `size_t`. -/
def ofNat (n : Nat) : Double := round false n 1

/-- The conversion `size_t(floor(x))`; undefined, hence `none`, when the floor is not a
`size_t`. -/
def floorToSizeT : Double → Option Nat
  | finite s m e =>
    if m = 0 then some 0
    else if s then none
    else if m * 2 ^ e / 2 ^ 1074 < 2 ^ 64 then some (m * 2 ^ e / 2 ^ 1074) else none
  | _ => none

end Double

/-- What a call of `doProposal` leaves behind when it is evaluated in binary64: the
returned `double`, the proposal and the graph. -/
structure DoubleOutcome where
  ret : Double
  proposal : SingleElementScaleSimplexSingleScalarProposal Double
  graph : Graph Double

namespace SingleElementScaleSimplexSingleScalarProposal

/-- Lines 130-144 of `doProposal` in binary64: the chosen index. -/
def chooseIndexDouble (indices : Finset Nat) (size : Nat) (v : Double) : Option Nat :=
  if 0 < indices.card then
    if 1 < indices.card then
      match Double.floorToSizeT (Double.mul v (Double.ofNat indices.card)) with
      | none => none
      | some index => (indices.sort (· ≤ ·))[index]?
    else (indices.sort (· ≤ ·))[0]?
  else Double.floorToSizeT (Double.mul v (Double.ofNat size))

/-- The renormalising loop of `doProposal` (lines 155-163) in binary64: every coordinate
is divided by `sum`, and the first quotient that compares below the `double` `1E-100`
ends the loop with failure (`none`). -/
def renormalizeDouble (sum : Double) : List Double → Option (List Double)
  | [] => some []
  | x :: xs =>
    if Double.lt (Double.div x sum) (Double.round false 1 (10 ^ 100)) = true then none
    else (renormalizeDouble sum xs).map (fun ys => Double.div x sum :: ys)

/-- Line 154 of `doProposal` in binary64: `value_new - value_current + 1.0`. -/
def simplexSumNew (value_new value_current : Double) : Double :=
  Double.add (Double.sub value_new value_current) (Double.ofNat 1)

/-- `doProposal` evaluated in binary64, operation by operation as the source writes them,
with the two uniform draws and `std::exp`, `log` passed in. -/
def doProposalDouble (exp log : Double → Double)
    (p : SingleElementScaleSimplexSingleScalarProposal Double) (g : Graph Double)
    (v u : Double) : Option DoubleOutcome :=
  let p := { p with failed := false }
  let p := { p with stored_simplex := g.simplexValue p.simplex }
  let simplex_current := g.simplexValue p.simplex
  match chooseIndexDouble p.indices simplex_current.length v with
  | none => none
  | some chosen_index =>
    match simplex_current[chosen_index]? with
    | none => none
    | some value_current =>
      let scaling_factor := exp (Double.mul p.lambda (Double.sub u (Double.round false 1 2)))
      let value_new := Double.mul value_current scaling_factor
      let simplex_sum_new := simplexSumNew value_new value_current
      match renormalizeDouble simplex_sum_new (simplex_current.set chosen_index value_new) with
      | none =>
        some { ret := Double.inf true, proposal := { p with failed := true }, graph := g }
      | some simplex_new =>
        let g := g.setSimplexValue p.simplex simplex_new
        let lnHastings := Double.sub (log scaling_factor)
          (Double.mul (log simplex_sum_new) (Double.ofNat simplex_new.length))
        if p.scalar_added = true then
          let p := { p with stored_scalar := g.doubleValue p.scalar }
          let scalar_new := Double.mul (g.doubleValue p.scalar) simplex_sum_new
          let lnHastings := Double.add lnHastings (log simplex_sum_new)
          let g := g.setDoubleValue p.scalar scalar_new
          let g := (g.descendants p.simplex).foldl
            (Graph.touchStep simplex_new.length chosen_index) g
          some { ret := lnHastings, proposal := p, graph := g }
        else
          some { ret := lnHastings, proposal := p, graph := g }

/-- The values of `std::exp`, which is outside the sources, at the two arguments that the
evaluations below hand it: `exp(-40) = 0x1.39792499b1a24p-58` (about `4.25e-18`) and
`exp(-37) = 0x1.898471fca6055p-54` (about `8.53e-17`).  At any other argument the sample
is a NaN, which no evaluation below reads. -/
def expSample (x : Double) : Double :=
  if x = Double.finite true 5629499534213120 1027 then Double.finite false 5514679113423396 964
  else if x = Double.finite true 5207287069147136 1027 then
    Double.finite false 6922830684512341 968
  else Double.nan

/-- The values of `log`, which is outside the sources, at the arguments that the
evaluations below hand it: `log(+0) = -inf`, `log(exp(-40)) = -40`, `log(exp(-37)) = -37`
and `log(2^-53) = -0x1.25e4f7b2737fap+5` (about `-36.74`). -/
def logSample (x : Double) : Double :=
  if x = Double.finite false 0 0 then Double.inf true
  else if x = Double.finite false 5514679113423396 964 then
    Double.finite true 5629499534213120 1027
  else if x = Double.finite false 6922830684512341 968 then
    Double.finite true 5207287069147136 1027
  else if x = Double.finite false 4503599627370496 969 then
    Double.finite true 5170245042386938 1027
  else Double.nan

/-- The simplex `[1e-99, 1.0]` as the source holds it: the `double` nearest to `1e-99`
and the `double` `1.0`, which is also the `double` nearest to `1 - 1e-99`. -/
def tinyAndOne : List Double := [Double.round false 1 (10 ^ 99), Double.ofNat 1]

/-- A graph of `double` values: every simplex node holds `xs`, every scalar node holds
`5.0`, and nodes 1 and 2 are deterministic descendants of node 0 with two elements each
and nothing touched. -/
def exampleGraphDouble (xs : List Double) : Graph Double :=
  { dag := fun _ => { type := DagNodeType.DETERMINISTIC, numberOfElements := 2,
                      touched_elements := ∅ },
    simplexValue := fun _ => xs,
    doubleValue := fun _ => Double.ofNat 5,
    descendants := fun n => if n = 0 then [1, 2] else [] }

/-- A proposal on node 0 with tuning parameter `l`, target rate `0.44`, no restriction
of the candidate indices, a scalar (node 7) bound or not, and the `failed` flag left set
by an earlier call. -/
def exampleProposalDouble (l : Double) (bound : Bool) :
    SingleElementScaleSimplexSingleScalarProposal Double :=
  { nodes := if bound then [0, 7] else [0], targetAcceptanceRate := Double.round false 44 100,
    simplex := 0, scalar := 7, scalar_added := bound, lambda := l, indices := ∅,
    failed := true, stored_simplex := [], stored_scalar := Double.ofNat 0 }

end SingleElementScaleSimplexSingleScalarProposal

namespace SingleElementScaleSimplexSingleScalarProposal

variable {K : Type} [LinearOrderedField K]

/-! Auxiliary facts -/

theorem renormalize_eq_none_iff (sum : K) (xs : List K) :
    renormalize sum xs = none ↔ ∃ x ∈ xs, x / sum < 1 / 10 ^ 100 := by
  induction xs with
  | nil => simp [renormalize]
  | cons a as ih =>
    by_cases h : a / sum < 1 / 10 ^ 100
    · simp only [renormalize, if_pos h, true_iff]
      exact ⟨a, List.mem_cons_self _ _, h⟩
    · simp only [renormalize, h, if_false, Option.map_eq_none', ih, List.mem_cons,
        exists_eq_or_imp, false_or]

theorem renormalize_eq_some_iff (sum : K) (xs ys : List K) :
    renormalize sum xs = some ys ↔
      (∀ x ∈ xs, 1 / 10 ^ 100 ≤ x / sum) ∧ ys = xs.map (fun x => x / sum) := by
  induction xs generalizing ys with
  | nil => simp [renormalize, eq_comm]
  | cons a as ih =>
    by_cases h : a / sum < 1 / 10 ^ 100
    · simp only [renormalize, if_pos h]
      constructor
      · intro h2
        cases h2
      · rintro ⟨h2, -⟩
        exact absurd h (not_lt.mpr (h2 a (List.mem_cons_self _ _)))
    · have h1 : 1 / 10 ^ 100 ≤ a / sum := not_lt.mp h
      simp only [renormalize, h, if_false, Option.map_eq_some', List.mem_cons, forall_eq_or_imp,
        List.map_cons, h1, true_and]
      constructor
      · rintro ⟨zs, hzs, rfl⟩
        obtain ⟨h2, rfl⟩ := (ih zs).mp hzs
        exact ⟨h2, rfl⟩
      · rintro ⟨h2, rfl⟩
        exact ⟨_, (ih _).mpr ⟨h2, rfl⟩, rfl⟩

omit [LinearOrderedField K] in
theorem foldl_touchStep_frame (size c : Nat) (l : List NodeId) (g : Graph K) :
    (l.foldl (Graph.touchStep size c) g).simplexValue = g.simplexValue ∧
    (l.foldl (Graph.touchStep size c) g).doubleValue = g.doubleValue ∧
    (l.foldl (Graph.touchStep size c) g).descendants = g.descendants := by
  induction l generalizing g with
  | nil => simp
  | cons a as ih =>
    simp only [List.foldl_cons]
    obtain ⟨h1, h2, h3⟩ := ih (Graph.touchStep size c g a)
    rw [h1, h2, h3]
    unfold Graph.touchStep
    split <;> simp

omit [LinearOrderedField K] in
theorem foldl_clearStep_frame (size : Nat) (l : List NodeId) (g : Graph K) :
    (l.foldl (Graph.clearStep size) g).simplexValue = g.simplexValue ∧
    (l.foldl (Graph.clearStep size) g).doubleValue = g.doubleValue ∧
    (l.foldl (Graph.clearStep size) g).descendants = g.descendants := by
  induction l generalizing g with
  | nil => simp
  | cons a as ih =>
    simp only [List.foldl_cons]
    obtain ⟨h1, h2, h3⟩ := ih (Graph.clearStep size g a)
    rw [h1, h2, h3]
    unfold Graph.clearStep
    split <;> simp

/-- With candidate indices below the size and a draw in `[0,1)`, an index below the size
is chosen; with a non-empty candidate set it is one of the candidates. -/
theorem chooseIndex_defined [FloorRing K] (indices : Finset Nat) (size : Nat) (v : K)
    (hsize : 0 < size) (hidx : ∀ j ∈ indices, j < size) (hv0 : 0 ≤ v) (hv1 : v < 1) :
    ∃ i, chooseIndex indices size v = some i ∧ i < size ∧ (indices ≠ ∅ → i ∈ indices) := by
  unfold chooseIndex
  by_cases hc : 0 < indices.card
  · simp only [hc, if_true]
    have hlt : (if 1 < indices.card then ⌊v * (indices.card : K)⌋₊ else 0) <
        (indices.sort (· ≤ ·)).length := by
      rw [Finset.length_sort]
      split
      · rw [Nat.floor_lt (mul_nonneg hv0 (Nat.cast_nonneg _))]
        have hpos : (0 : K) < indices.card := by exact_mod_cast hc
        calc v * (indices.card : K) < 1 * (indices.card : K) :=
              mul_lt_mul_of_pos_right hv1 hpos
          _ = indices.card := one_mul _
      · exact hc
    refine ⟨(indices.sort (· ≤ ·)).get ⟨_, hlt⟩, List.getElem?_eq_getElem hlt, ?_, ?_⟩
    · exact hidx _ ((Finset.mem_sort _).mp (List.get_mem _ _ _))
    · intro _
      exact (Finset.mem_sort _).mp (List.get_mem _ _ _)
  · simp only [hc, if_false]
    have h0 : indices = ∅ := Finset.card_eq_zero.mp (Nat.eq_zero_of_not_pos hc)
    refine ⟨_, rfl, ?_, fun h => absurd h0 h⟩
    rw [Nat.floor_lt (mul_nonneg hv0 (Nat.cast_nonneg _))]
    have hpos : (0 : K) < size := by exact_mod_cast hsize
    calc v * (size : K) < 1 * (size : K) := mul_lt_mul_of_pos_right hv1 hpos
      _ = size := one_mul _

/-- With the chosen index and the value read there known, `doProposal` fails exactly on the
failure of the renormalising loop and leaves the graph as it was. -/
theorem doProposal_of_loop_failure [FloorRing K] (exp log : K → K)
    (p : SingleElementScaleSimplexSingleScalarProposal K) (g : Graph K) (v u : K)
    (i : Nat) (x : K)
    (hi : chooseIndex p.indices (g.simplexValue p.simplex).length v = some i)
    (hx : (g.simplexValue p.simplex)[i]? = some x)
    (hr : renormalize (x * exp (p.lambda * (u - 1 / 2)) - x + 1)
      ((g.simplexValue p.simplex).set i (x * exp (p.lambda * (u - 1 / 2)))) = none) :
    doProposal exp log p g v u =
      some { ret := LnHastings.neginf,
             proposal := { p with failed := true, stored_simplex := g.simplexValue p.simplex },
             graph := g } := by
  simp only [doProposal, hi, hx, hr]

/-- With the chosen index and the value read there known, and the renormalising loop
passing, `doProposal` commits the renormalised vector. -/
theorem doProposal_of_loop_success [FloorRing K] (exp log : K → K)
    (p : SingleElementScaleSimplexSingleScalarProposal K) (g : Graph K) (v u : K)
    (i : Nat) (x : K) (ys : List K)
    (hi : chooseIndex p.indices (g.simplexValue p.simplex).length v = some i)
    (hx : (g.simplexValue p.simplex)[i]? = some x)
    (hr : renormalize (x * exp (p.lambda * (u - 1 / 2)) - x + 1)
      ((g.simplexValue p.simplex).set i (x * exp (p.lambda * (u - 1 / 2)))) = some ys) :
    ∃ o, doProposal exp log p g v u = some o ∧
      o.proposal.failed = false ∧
      o.proposal.stored_simplex = g.simplexValue p.simplex ∧
      o.proposal.simplex = p.simplex ∧ o.proposal.scalar = p.scalar ∧
      o.proposal.scalar_added = p.scalar_added ∧
      (p.scalar_added = true → o.proposal.stored_scalar = g.doubleValue p.scalar) ∧
      o.graph.simplexValue = Function.update g.simplexValue p.simplex ys ∧
      o.graph.doubleValue =
        (if p.scalar_added = true then
          Function.update g.doubleValue p.scalar
            (g.doubleValue p.scalar * (x * exp (p.lambda * (u - 1 / 2)) - x + 1))
         else g.doubleValue) ∧
      o.graph.descendants = g.descendants ∧
      o.ret = LnHastings.finite
        (log (exp (p.lambda * (u - 1 / 2)))
          - log (x * exp (p.lambda * (u - 1 / 2)) - x + 1) * (ys.length : K)
          + (if p.scalar_added = true then log (x * exp (p.lambda * (u - 1 / 2)) - x + 1)
             else 0)) := by
  by_cases hs : p.scalar_added = true
  · refine ⟨_, by simp only [doProposal, hi, hx, hr, hs, if_true]; rfl, ?_⟩
    obtain ⟨h1, h2, h3⟩ := foldl_touchStep_frame ys.length i
      (((g.setSimplexValue p.simplex ys).setDoubleValue p.scalar
          (g.doubleValue p.scalar * (x * exp (p.lambda * (u - 1 / 2)) - x + 1))).descendants
        p.simplex)
      ((g.setSimplexValue p.simplex ys).setDoubleValue p.scalar
          (g.doubleValue p.scalar * (x * exp (p.lambda * (u - 1 / 2)) - x + 1)))
    refine ⟨rfl, rfl, rfl, rfl, hs.symm, fun _ => rfl, h1, ?_, h3, ?_⟩
    · rw [if_pos hs]
      exact h2
    · rw [if_pos hs]
  · have hs' : p.scalar_added = false := by simpa using hs
    refine ⟨_, by simp only [doProposal, hi, hx, hr, hs']; rfl, ?_⟩
    refine ⟨rfl, rfl, rfl, rfl, hs'.symm, fun h => absurd h hs, rfl, ?_, rfl, ?_⟩
    · rw [if_neg hs]
      rfl
    · rw [if_neg hs, add_zero]

omit [LinearOrderedField K] in
/-- What `undoProposal` leaves in the two value stores. -/
theorem undoProposal_stores (p : SingleElementScaleSimplexSingleScalarProposal K)
    (g : Graph K) :
    (undoProposal p g).2.simplexValue =
      (if p.failed = false then Function.update g.simplexValue p.simplex p.stored_simplex
       else g.simplexValue) ∧
    (undoProposal p g).2.doubleValue =
      (if p.failed = false ∧ p.scalar_added = true then
        Function.update g.doubleValue p.scalar p.stored_scalar
       else g.doubleValue) := by
  unfold undoProposal
  by_cases hf : p.failed = false
  · by_cases hs : p.scalar_added = true
    · obtain ⟨h1, h2, -⟩ := foldl_clearStep_frame p.stored_simplex.length
        (((g.setSimplexValue p.simplex p.stored_simplex).setDoubleValue p.scalar
          p.stored_scalar).descendants p.simplex)
        ((g.setSimplexValue p.simplex p.stored_simplex).setDoubleValue p.scalar
          p.stored_scalar)
      simp only [hf, hs, if_true, and_self]
      exact ⟨h1, h2⟩
    · simp only [hf, hs, if_true, if_false, and_false]
      exact ⟨rfl, rfl⟩
  · simp [hf]

/-- For a non-empty simplex, candidate indices below its size and an index draw in `[0,1)`,
`doProposal` reads the simplex inside its bounds. -/
theorem doProposal_reads_in_range [FloorRing K]
    (p : SingleElementScaleSimplexSingleScalarProposal K) (g : Graph K) (v : K)
    (hk : g.simplexValue p.simplex ≠ [])
    (hidx : ∀ j ∈ p.indices, j < (g.simplexValue p.simplex).length)
    (hv0 : 0 ≤ v) (hv1 : v < 1) :
    ∃ i x, chooseIndex p.indices (g.simplexValue p.simplex).length v = some i ∧
      i < (g.simplexValue p.simplex).length ∧ (g.simplexValue p.simplex)[i]? = some x := by
  obtain ⟨i, hi, hlt, -⟩ := chooseIndex_defined p.indices (g.simplexValue p.simplex).length v
    (List.length_pos.mpr hk) hidx hv0 hv1
  exact ⟨i, (g.simplexValue p.simplex).get ⟨i, hlt⟩, hi, hlt, List.getElem?_eq_getElem hlt⟩

/-- The two ways `doProposal` can end, for inputs on which it reads in range. -/
theorem doProposal_spec [FloorRing K] (exp log : K → K)
    (p : SingleElementScaleSimplexSingleScalarProposal K) (g : Graph K) (v u : K)
    (hk : g.simplexValue p.simplex ≠ [])
    (hidx : ∀ j ∈ p.indices, j < (g.simplexValue p.simplex).length)
    (hv0 : 0 ≤ v) (hv1 : v < 1) :
    ∃ i x o, chooseIndex p.indices (g.simplexValue p.simplex).length v = some i ∧
      i < (g.simplexValue p.simplex).length ∧ (g.simplexValue p.simplex)[i]? = some x ∧
      doProposal exp log p g v u = some o ∧
      ((renormalize (x * exp (p.lambda * (u - 1 / 2)) - x + 1)
          ((g.simplexValue p.simplex).set i (x * exp (p.lambda * (u - 1 / 2)))) = none ∧
        o = { ret := LnHastings.neginf,
              proposal := { p with failed := true, stored_simplex := g.simplexValue p.simplex },
              graph := g }) ∨
       (∃ ys, renormalize (x * exp (p.lambda * (u - 1 / 2)) - x + 1)
          ((g.simplexValue p.simplex).set i (x * exp (p.lambda * (u - 1 / 2)))) = some ys ∧
        o.proposal.failed = false ∧
        o.proposal.stored_simplex = g.simplexValue p.simplex ∧
        o.proposal.simplex = p.simplex ∧ o.proposal.scalar = p.scalar ∧
        o.proposal.scalar_added = p.scalar_added ∧
        (p.scalar_added = true → o.proposal.stored_scalar = g.doubleValue p.scalar) ∧
        o.graph.simplexValue = Function.update g.simplexValue p.simplex ys ∧
        o.graph.doubleValue =
          (if p.scalar_added = true then
            Function.update g.doubleValue p.scalar
              (g.doubleValue p.scalar * (x * exp (p.lambda * (u - 1 / 2)) - x + 1))
           else g.doubleValue) ∧
        o.graph.descendants = g.descendants ∧
        o.ret = LnHastings.finite
          (log (exp (p.lambda * (u - 1 / 2)))
            - log (x * exp (p.lambda * (u - 1 / 2)) - x + 1) * (ys.length : K)
            + (if p.scalar_added = true then log (x * exp (p.lambda * (u - 1 / 2)) - x + 1)
               else 0)))) := by
  obtain ⟨i, x, hi, hlt, hx⟩ := doProposal_reads_in_range p g v hk hidx hv0 hv1
  cases hr : renormalize (x * exp (p.lambda * (u - 1 / 2)) - x + 1)
      ((g.simplexValue p.simplex).set i (x * exp (p.lambda * (u - 1 / 2)))) with
  | none =>
    exact ⟨i, x, _, hi, hlt, hx, doProposal_of_loop_failure exp log p g v u i x hi hx hr,
      Or.inl ⟨hr, rfl⟩⟩
  | some ys =>
    obtain ⟨o, ho, h⟩ := doProposal_of_loop_success exp log p g v u i x ys hi hx hr
    exact ⟨i, x, o, hi, hlt, hx, ho, Or.inr ⟨ys, hr, h⟩⟩

theorem sum_set_of_getElem? (xs : List K) (i : Nat) (x y : K) (hx : xs[i]? = some x) :
    (xs.set i y).sum = xs.sum - x + y := by
  induction xs generalizing i with
  | nil => simp at hx
  | cons a as ih =>
    cases i with
    | zero =>
      simp only [List.getElem?_cons_zero, Option.some.injEq] at hx
      subst hx
      simp only [List.set_cons_zero, List.sum_cons]
      ring
    | succ n =>
      simp only [List.getElem?_cons_succ] at hx
      simp only [List.set_cons_succ, List.sum_cons, ih n hx]
      ring

theorem sum_map_div (xs : List K) (s : K) :
    (xs.map (fun x => x / s)).sum = xs.sum / s := by
  induction xs with
  | nil => simp
  | cons a as ih => simp only [List.map_cons, List.sum_cons, ih, add_div]

theorem getD_map_set (xs : List K) (s y : K) (i j : Nat) (hj : j < xs.length) :
    ((xs.set i y).map (fun x => x / s)).getD j 0 =
      if j = i then y / s else xs.getD j 0 / s := by
  simp only [List.getD_eq_getElem?_getD, List.getElem?_map, List.getElem?_set]
  by_cases h : j = i
  · subst h
    simp [hj]
  · have h' : ¬ i = j := fun e => h e.symm
    simp [h, h', List.getElem?_eq_getElem hj]

/-- For a simplex (non-negative coordinates summing to one) and a positive scaling factor
the renormalising sum is positive. -/
theorem simplex_sum_new_pos (xs : List K) (i : Nat) (x f : K) (hx : xs[i]? = some x)
    (hnn : ∀ y ∈ xs, 0 ≤ y) (hsum : xs.sum = 1) (hf : 0 < f) : 0 < x * f - x + 1 := by
  have hmem : x ∈ xs := List.getElem?_mem hx
  have h0 : 0 ≤ x := hnn x hmem
  have h1 : x ≤ 1 := hsum ▸ List.single_le_sum hnn x hmem
  rcases h0.eq_or_lt with h | h
  · rw [← h]
    norm_num
  · have : 0 < x * f := mul_pos h hf
    linarith

/-- Some coordinate of the rescaled vector falls below the threshold after division by
`s` exactly when some position does. -/
theorem exists_mem_set_div_lt (xs : List K) (s y e : K) (i : Nat) :
    (∃ z ∈ xs.set i y, z / s < e) ↔
      ∃ j, j < xs.length ∧ (if j = i then y / s else xs.getD j 0 / s) < e := by
  have key : ∀ j (hj : j < xs.length),
      (if j = i then y / s else xs.getD j 0 / s)
        = (xs.set i y).get ⟨j, by rw [List.length_set]; exact hj⟩ / s := by
    intro j hj
    rw [← getD_map_set xs s y i j hj]
    have hj' : j < (xs.set i y).length := by rw [List.length_set]; exact hj
    simp only [List.getD_eq_getElem?_getD, List.getElem?_map, List.getElem?_eq_getElem hj',
      Option.map_some', Option.getD_some, List.get_eq_getElem]
  constructor
  · rintro ⟨z, hz, hlt⟩
    obtain ⟨n, hn, rfl⟩ := List.mem_iff_get.mp hz
    have hn' : (n : Nat) < xs.length := by
      have := n.isLt
      simpa using this
    exact ⟨n, hn', by rw [key n hn']; exact hlt⟩
  · rintro ⟨j, hj, hlt⟩
    rw [key j hj] at hlt
    exact ⟨_, List.get_mem _ _ _, hlt⟩

omit [LinearOrderedField K] in
theorem set_eq_self_of_getElem? (xs : List K) (i : Nat) (x : K) (hx : xs[i]? = some x) :
    xs.set i x = xs := by
  induction xs generalizing i with
  | nil => rfl
  | cons a as ih =>
    cases i with
    | zero =>
      simp only [List.getElem?_cons_zero, Option.some.injEq] at hx
      rw [List.set_cons_zero, hx]
    | succ n =>
      simp only [List.getElem?_cons_succ] at hx
      rw [List.set_cons_succ, ih n hx]

theorem map_div_one (xs : List K) : xs.map (fun x => x / 1) = xs := by
  induction xs with
  | nil => rfl
  | cons a as ih => rw [List.map_cons, ih, div_one]

/-- The arithmetic of rescaling the coordinate `10 * e` of the simplex `[10 * e, 1 - 10 * e]`
by a factor `f` in `(0,1)`, for a threshold `e` in `(0, 1/100]`. -/
theorem underflow_arith (e f : K) (he0 : 0 < e) (he1 : e ≤ 1 / 100) (hf0 : 0 < f)
    (hf1 : f < 1) :
    0 < 10 * e * f - 10 * e + 1 ∧
    (10 * e * f / (10 * e * f - 10 * e + 1) < e ↔ f * (10 - 10 * e) < 1 - 10 * e) ∧
    e ≤ (1 - 10 * e) / (10 * e * f - 10 * e + 1) := by
  have hef : 0 < e * f := mul_pos he0 hf0
  have hef1 : e * f < e := by
    calc e * f < e * 1 := mul_lt_mul_of_pos_left hf1 he0
      _ = e := mul_one e
  have hee : e * e ≤ e * (1 / 100) := mul_le_mul_of_nonneg_left he1 he0.le
  have hS : 0 < 10 * e * f - 10 * e + 1 := by linarith
  refine ⟨hS, ?_, ?_⟩
  · rw [div_lt_iff₀ hS]
    constructor
    · intro h
      have h2 : e * (10 * f) < e * (10 * e * f - 10 * e + 1) := by linarith
      have h3 := lt_of_mul_lt_mul_left h2 he0.le
      linarith
    · intro h
      have h2 := mul_lt_mul_of_pos_left h he0
      linarith
  · rw [le_div_iff₀ hS]
    have hefe : e * (e * f) < e * e := mul_lt_mul_of_pos_left hef1 he0
    linarith

/-- On the simplex `[0.3, 0.7]` with `lambda = 1`, candidate index 0 and the draw
`u = 0.75` (so `f = exp(1/4)`) the proposal succeeds, with or without the scalar. -/
theorem doProposal_example_success (bound : Bool) :
    ∃ o, doProposal Real.exp Real.log (exampleProposal (1 : ℝ) bound)
        (exampleGraph ([3 / 10, 7 / 10] : List ℝ)) (1 / 4) (3 / 4) = some o ∧
      o.proposal.failed = false := by
  have hi : chooseIndex (exampleProposal (1 : ℝ) bound).indices
      ((exampleGraph ([3 / 10, 7 / 10] : List ℝ)).simplexValue
        (exampleProposal (1 : ℝ) bound).simplex).length (1 / 4 : ℝ) = some 0 := by
    simp [chooseIndex, exampleProposal]
  have hf1 : (1 : ℝ) ≤ Real.exp ((exampleProposal (1 : ℝ) bound).lambda * (3 / 4 - 1 / 2)) :=
    Real.one_le_exp (by simp only [exampleProposal]; norm_num)
  have hf3 : Real.exp ((exampleProposal (1 : ℝ) bound).lambda * (3 / 4 - 1 / 2)) ≤ 3 := by
    have h1 : Real.exp ((exampleProposal (1 : ℝ) bound).lambda * (3 / 4 - 1 / 2))
        ≤ Real.exp 1 := Real.exp_le_exp.mpr (by simp only [exampleProposal]; norm_num)
    have h2 := Real.exp_one_lt_d9
    linarith
  have key : ∀ f : ℝ, 1 ≤ f → f ≤ 3 →
      renormalize (3 / 10 * f - 3 / 10 + 1) (([3 / 10, 7 / 10] : List ℝ).set 0 (3 / 10 * f))
        = some ([3 / 10 * f, 7 / 10].map (fun z => z / (3 / 10 * f - 3 / 10 + 1))) := by
    intro f h1 h3
    have hS : (0 : ℝ) < 3 / 10 * f - 3 / 10 + 1 := by linarith
    rw [renormalize_eq_some_iff]
    refine ⟨?_, rfl⟩
    intro z hz
    have hz' : z = 3 / 10 * f ∨ z = 7 / 10 := by simpa using hz
    rw [le_div_iff₀ hS]
    rcases hz' with rfl | rfl <;> linarith
  obtain ⟨o, ho, hfl, -⟩ := doProposal_of_loop_success Real.exp Real.log
    (exampleProposal (1 : ℝ) bound) (exampleGraph ([3 / 10, 7 / 10] : List ℝ)) (1 / 4) (3 / 4)
    0 (3 / 10) _ hi rfl (key _ hf1 hf3)
  exact ⟨o, ho, hfl⟩

/-! The claims -/

/-- C1. For a (non-empty) simplex, candidate indices below its size, any tuning parameter
and any two draws (the index draw in `[0,1)`), `doProposal` returns, and running
`undoProposal` right after it leaves the value of every simplex node and of every scalar
node, so in particular of the proposal's own simplex and bound scalar, equal to what it was
before `doProposal`, whether the proposal failed or not. -/
theorem doProposal_undoProposal_restores_values
    (p : SingleElementScaleSimplexSingleScalarProposal ℝ) (g : Graph ℝ) (v u : ℝ)
    (hk : g.simplexValue p.simplex ≠ [])
    (hidx : ∀ j ∈ p.indices, j < (g.simplexValue p.simplex).length)
    (hv0 : 0 ≤ v) (hv1 : v < 1) :
    ∃ o, doProposal Real.exp Real.log p g v u = some o ∧
      (undoProposal o.proposal o.graph).2.simplexValue = g.simplexValue ∧
      (undoProposal o.proposal o.graph).2.doubleValue = g.doubleValue := by
  obtain ⟨i, x, hi, -, hx⟩ := doProposal_reads_in_range p g v hk hidx hv0 hv1
  cases hr : renormalize (x * Real.exp (p.lambda * (u - 1 / 2)) - x + 1)
      ((g.simplexValue p.simplex).set i (x * Real.exp (p.lambda * (u - 1 / 2)))) with
  | none =>
    refine ⟨_, doProposal_of_loop_failure Real.exp Real.log p g v u i x hi hx hr, ?_⟩
    obtain ⟨h1, h2⟩ := undoProposal_stores
      { p with failed := true, stored_simplex := g.simplexValue p.simplex } g
    rw [h1, h2]
    simp
  | some ys =>
    obtain ⟨o, ho, hf, hss, hsx, hsc, hsa, hst, hgs, hgd, -, -⟩ :=
      doProposal_of_loop_success Real.exp Real.log p g v u i x ys hi hx hr
    refine ⟨o, ho, ?_⟩
    obtain ⟨h1, h2⟩ := undoProposal_stores o.proposal o.graph
    rw [h1, h2, hgs, hgd, hss, hsx, hsc, hsa]
    by_cases hs : p.scalar_added = true
    · simp [hf, hs, hst hs]
    · simp [hf, hs]

/-- Evaluation of C1 on the example graph, with the scalar bound. -/
theorem doProposal_undoProposal_restores_values_witness :
    ((exampleGraph ([3 / 10, 7 / 10] : List ℝ)).simplexValue (exampleProposal (1 : ℝ) true).simplex ≠ [] ∧
      (∀ j ∈ (exampleProposal (1 : ℝ) true).indices,
        j < ((exampleGraph ([3 / 10, 7 / 10] : List ℝ)).simplexValue (exampleProposal (1 : ℝ) true).simplex).length) ∧
      (0 : ℝ) ≤ 1 / 4 ∧ (1 / 4 : ℝ) < 1) ∧
    ∃ o, doProposal Real.exp Real.log (exampleProposal (1 : ℝ) true) (exampleGraph ([3 / 10, 7 / 10] : List ℝ)) (1 / 4) (3 / 4)
        = some o ∧
      (undoProposal o.proposal o.graph).2.simplexValue = (exampleGraph ([3 / 10, 7 / 10] : List ℝ)).simplexValue ∧
      (undoProposal o.proposal o.graph).2.doubleValue = (exampleGraph ([3 / 10, 7 / 10] : List ℝ)).doubleValue :=
  ⟨⟨by simp [exampleGraph], by simp [exampleGraph, exampleProposal], by norm_num, by norm_num⟩,
   doProposal_undoProposal_restores_values (exampleProposal (1 : ℝ) true) (exampleGraph ([3 / 10, 7 / 10] : List ℝ))
     (1 / 4) (3 / 4) (by simp [exampleGraph]) (by simp [exampleGraph, exampleProposal])
     (by norm_num) (by norm_num)⟩

/-- C2. On every successful `doProposal` (one that leaves `failed = false`) on a simplex
`x` with chosen index `i` and scaling draw `u`, the new value of the simplex node has as
many coordinates as `x`, coordinate `i` equal to `x_i * f / S` and every other coordinate
`j` equal to `x_j / S`, where `f = exp(lambda * (u - 0.5))` and `S = 1 + (x_i * f - x_i)`.
The call returns for every non-empty `x`, candidate indices below its size and index draw
in `[0,1)`. -/
theorem doProposal_success_new_simplex
    (p : SingleElementScaleSimplexSingleScalarProposal ℝ) (g : Graph ℝ) (v u : ℝ)
    (x : List ℝ) (f : ℝ)
    (hx : g.simplexValue p.simplex = x) (hf : f = Real.exp (p.lambda * (u - 1 / 2)))
    (hk : x ≠ []) (hidx : ∀ j ∈ p.indices, j < x.length) (hv0 : 0 ≤ v) (hv1 : v < 1) :
    ∃ i o, chooseIndex p.indices x.length v = some i ∧ i < x.length ∧
      doProposal Real.exp Real.log p g v u = some o ∧
      (o.proposal.failed = false →
        (o.graph.simplexValue p.simplex).length = x.length ∧
        ∀ j, j < x.length →
          (o.graph.simplexValue p.simplex).getD j 0 =
            if j = i then x.getD i 0 * f / (1 + (x.getD i 0 * f - x.getD i 0))
            else x.getD j 0 / (1 + (x.getD i 0 * f - x.getD i 0))) := by
  subst hx hf
  obtain ⟨i, xi, o, hi, hlt, hxi, ho, h⟩ :=
    doProposal_spec Real.exp Real.log p g v u hk hidx hv0 hv1
  refine ⟨i, o, hi, hlt, ho, fun hfl => ?_⟩
  rcases h with ⟨-, rfl⟩ | ⟨ys, hr, -, -, -, -, -, -, hgs, -, -, -⟩
  · simp at hfl
  · obtain ⟨-, rfl⟩ := (renormalize_eq_some_iff _ _ _).mp hr
    have hgi : (g.simplexValue p.simplex).getD i 0 = xi := by
      rw [List.getD_eq_getElem?_getD, hxi, Option.getD_some]
    rw [hgs, Function.update_same, hgi, add_comm 1 (xi * _ - xi)]
    refine ⟨by simp, fun j hj => ?_⟩
    exact getD_map_set _ _ _ i j hj

/-- Evaluation of C2 on the simplex `[0.3, 0.7]` with `lambda = 1`, index 0 and `u = 0.75`:
the proposal succeeds and the new simplex is `[0.3 * f / S, 0.7 / S]`. -/
theorem doProposal_success_new_simplex_witness :
    ∃ o, doProposal Real.exp Real.log (exampleProposal (1 : ℝ) false)
        (exampleGraph ([3 / 10, 7 / 10] : List ℝ)) (1 / 4) (3 / 4) = some o ∧
      o.proposal.failed = false ∧
      (o.graph.simplexValue 0).length = 2 ∧
      (o.graph.simplexValue 0).getD 0 0
        = 3 / 10 * Real.exp (1 * (3 / 4 - 1 / 2))
            / (1 + (3 / 10 * Real.exp (1 * (3 / 4 - 1 / 2)) - 3 / 10)) ∧
      (o.graph.simplexValue 0).getD 1 0
        = 7 / 10 / (1 + (3 / 10 * Real.exp (1 * (3 / 4 - 1 / 2)) - 3 / 10)) := by
  obtain ⟨i, o, hi, -, ho, h⟩ := doProposal_success_new_simplex (exampleProposal (1 : ℝ) false)
    (exampleGraph ([3 / 10, 7 / 10] : List ℝ)) (1 / 4) (3 / 4) [3 / 10, 7 / 10]
    (Real.exp (1 * (3 / 4 - 1 / 2))) rfl rfl
    (by simp) (by simp [exampleProposal]) (by norm_num) (by norm_num)
  have hi0 : chooseIndex (exampleProposal (1 : ℝ) false).indices
      ([3 / 10, 7 / 10] : List ℝ).length (1 / 4 : ℝ) = some 0 := by
    simp [chooseIndex, exampleProposal]
  have hi' : i = 0 := Option.some.inj (hi.symm.trans hi0)
  subst hi'
  obtain ⟨o', ho', hfl⟩ := doProposal_example_success false
  have ho'' : o' = o := Option.some.inj (ho'.symm.trans ho)
  subst ho''
  obtain ⟨hlen, hget⟩ := h hfl
  exact ⟨o', ho, hfl, hlen, hget 0 (by simp), hget 1 (by simp)⟩

/-- The simplex invariant in exact arithmetic: if the simplex before `doProposal` has
non-negative coordinates that sum to 1, then `doProposal` over the reals returns and,
whenever it succeeds, the new value of the simplex node again has non-negative
coordinates that sum to 1.  The evaluation in binary64 is at the end of the file. -/
theorem doProposal_success_keeps_simplex
    (p : SingleElementScaleSimplexSingleScalarProposal ℝ) (g : Graph ℝ) (v u : ℝ)
    (hidx : ∀ j ∈ p.indices, j < (g.simplexValue p.simplex).length)
    (hv0 : 0 ≤ v) (hv1 : v < 1)
    (hnn : ∀ y ∈ g.simplexValue p.simplex, 0 ≤ y)
    (hsum : (g.simplexValue p.simplex).sum = 1) :
    ∃ o, doProposal Real.exp Real.log p g v u = some o ∧
      (o.proposal.failed = false →
        (∀ y ∈ o.graph.simplexValue p.simplex, 0 ≤ y) ∧
        (o.graph.simplexValue p.simplex).sum = 1) := by
  have hk : g.simplexValue p.simplex ≠ [] := by
    intro h
    rw [h] at hsum
    simp at hsum
  obtain ⟨i, xi, o, hi, hlt, hxi, ho, h⟩ :=
    doProposal_spec Real.exp Real.log p g v u hk hidx hv0 hv1
  refine ⟨o, ho, fun hfl => ?_⟩
  rcases h with ⟨-, rfl⟩ | ⟨ys, hr, -, -, -, -, -, -, hgs, -, -, -⟩
  · simp at hfl
  · obtain ⟨hall, rfl⟩ := (renormalize_eq_some_iff _ _ _).mp hr
    have hS := simplex_sum_new_pos _ i xi _ hxi hnn hsum (Real.exp_pos (p.lambda * (u - 1 / 2)))
    rw [hgs, Function.update_same]
    constructor
    · intro y hy
      obtain ⟨z, hz, rfl⟩ := List.mem_map.mp hy
      exact le_trans (by positivity) (hall z hz)
    · rw [sum_map_div, sum_set_of_getElem? _ i xi _ hxi, hsum]
      rw [div_eq_one_iff_eq hS.ne']
      ring

/-- Evaluation of the simplex invariant in exact arithmetic on the simplex `[0.3, 0.7]`
with `u = 0.75`: the proposal succeeds and its result is again a simplex. -/
theorem doProposal_success_keeps_simplex_witness :
    ∃ o, doProposal Real.exp Real.log (exampleProposal (1 : ℝ) true)
        (exampleGraph ([3 / 10, 7 / 10] : List ℝ)) (1 / 4) (3 / 4) = some o ∧
      o.proposal.failed = false ∧
      (∀ y ∈ o.graph.simplexValue (exampleProposal (1 : ℝ) true).simplex, 0 ≤ y) ∧
      (o.graph.simplexValue (exampleProposal (1 : ℝ) true).simplex).sum = 1 := by
  obtain ⟨o, ho, h⟩ := doProposal_success_keeps_simplex (exampleProposal (1 : ℝ) true)
    (exampleGraph ([3 / 10, 7 / 10] : List ℝ)) (1 / 4) (3 / 4)
    (by simp [exampleGraph, exampleProposal]) (by norm_num) (by norm_num)
    (by simp [exampleGraph]; norm_num) (by simp [exampleGraph]; norm_num)
  obtain ⟨o', ho', hfl⟩ := doProposal_example_success true
  have ho'' : o' = o := Option.some.inj (ho'.symm.trans ho)
  subst ho''
  exact ⟨o', ho, hfl, h hfl⟩

/-- C4. Every successful `doProposal` on a simplex `x` of `k` coordinates with chosen index
`i` returns `ln f - k * ln new_sum` when no scalar is bound and
`ln f - k * ln new_sum + ln new_sum` when a scalar is bound, where
`f = exp(lambda * (u - 0.5))` and `new_sum = 1 + x_i * (f - 1)`. -/
theorem doProposal_success_lnHastings
    (p : SingleElementScaleSimplexSingleScalarProposal ℝ) (g : Graph ℝ) (v u : ℝ)
    (x : List ℝ) (f : ℝ)
    (hx : g.simplexValue p.simplex = x) (hf : f = Real.exp (p.lambda * (u - 1 / 2)))
    (hk : x ≠ []) (hidx : ∀ j ∈ p.indices, j < x.length) (hv0 : 0 ≤ v) (hv1 : v < 1) :
    ∃ i o, chooseIndex p.indices x.length v = some i ∧ i < x.length ∧
      doProposal Real.exp Real.log p g v u = some o ∧
      (o.proposal.failed = false →
        o.ret = LnHastings.finite
          (if p.scalar_added = true then
            Real.log f - (x.length : ℝ) * Real.log (1 + x.getD i 0 * (f - 1))
              + Real.log (1 + x.getD i 0 * (f - 1))
           else Real.log f - (x.length : ℝ) * Real.log (1 + x.getD i 0 * (f - 1)))) := by
  subst hx hf
  obtain ⟨i, xi, o, hi, hlt, hxi, ho, h⟩ :=
    doProposal_spec Real.exp Real.log p g v u hk hidx hv0 hv1
  refine ⟨i, o, hi, hlt, ho, fun hfl => ?_⟩
  rcases h with ⟨-, rfl⟩ | ⟨ys, hr, -, -, -, -, -, -, -, -, -, hret⟩
  · simp at hfl
  · obtain ⟨-, rfl⟩ := (renormalize_eq_some_iff _ _ _).mp hr
    have hgi : (g.simplexValue p.simplex).getD i 0 = xi := by
      rw [List.getD_eq_getElem?_getD, hxi, Option.getD_some]
    have hS : xi * Real.exp (p.lambda * (u - 1 / 2)) - xi + 1
        = 1 + xi * (Real.exp (p.lambda * (u - 1 / 2)) - 1) := by ring
    rw [hret, hgi, hS, List.length_map, List.length_set]
    congr 1
    split <;> ring

/-- Evaluation of C4 on the simplex `[0.3, 0.7]` with a bound scalar and `u = 0.75`: the
proposal succeeds and returns `ln f - 2 * ln S + ln S`. -/
theorem doProposal_success_lnHastings_witness :
    ∃ o, doProposal Real.exp Real.log (exampleProposal (1 : ℝ) true)
        (exampleGraph ([3 / 10, 7 / 10] : List ℝ)) (1 / 4) (3 / 4) = some o ∧
      o.proposal.failed = false ∧
      o.ret = LnHastings.finite
        (Real.log (Real.exp (1 * (3 / 4 - 1 / 2)))
          - 2 * Real.log (1 + 3 / 10 * (Real.exp (1 * (3 / 4 - 1 / 2)) - 1))
          + Real.log (1 + 3 / 10 * (Real.exp (1 * (3 / 4 - 1 / 2)) - 1))) := by
  obtain ⟨i, o, hi, -, ho, h⟩ := doProposal_success_lnHastings (exampleProposal (1 : ℝ) true)
    (exampleGraph ([3 / 10, 7 / 10] : List ℝ)) (1 / 4) (3 / 4) [3 / 10, 7 / 10]
    (Real.exp (1 * (3 / 4 - 1 / 2))) rfl rfl
    (by simp) (by simp [exampleProposal]) (by norm_num) (by norm_num)
  have hi0 : chooseIndex (exampleProposal (1 : ℝ) true).indices
      ([3 / 10, 7 / 10] : List ℝ).length (1 / 4 : ℝ) = some 0 := by
    simp [chooseIndex, exampleProposal]
  have hi' : i = 0 := Option.some.inj (hi.symm.trans hi0)
  subst hi'
  obtain ⟨o', ho', hfl⟩ := doProposal_example_success true
  have ho'' : o' = o := Option.some.inj (ho'.symm.trans ho)
  subst ho''
  refine ⟨o', ho, hfl, ?_⟩
  rw [h hfl]
  norm_num [exampleProposal]

/-- The scalar rescaling in exact arithmetic (the evaluation in binary64 is at the end of
the file).  Over the reals, with
a bound scalar `s` and a simplex `x` (non-negative coordinates summing to 1),
every successful `doProposal` with chosen index `i` sets the scalar to `s * new_sum`, where
`new_sum = 1 + x_i * (f - 1)`, and then for every coordinate `j` other than `i` the product
of the new scalar and the new coordinate `j` equals `s * x_j`. -/
theorem doProposal_success_scalar
    (p : SingleElementScaleSimplexSingleScalarProposal ℝ) (g : Graph ℝ) (v u : ℝ)
    (x : List ℝ) (f s : ℝ)
    (hx : g.simplexValue p.simplex = x) (hf : f = Real.exp (p.lambda * (u - 1 / 2)))
    (hs : g.doubleValue p.scalar = s) (hb : p.scalar_added = true)
    (hidx : ∀ j ∈ p.indices, j < x.length) (hv0 : 0 ≤ v) (hv1 : v < 1)
    (hnn : ∀ y ∈ x, 0 ≤ y) (hsum : x.sum = 1) :
    ∃ i o, chooseIndex p.indices x.length v = some i ∧ i < x.length ∧
      doProposal Real.exp Real.log p g v u = some o ∧
      (o.proposal.failed = false →
        o.graph.doubleValue p.scalar = s * (1 + x.getD i 0 * (f - 1)) ∧
        ∀ j, j < x.length → j ≠ i →
          o.graph.doubleValue p.scalar * (o.graph.simplexValue p.simplex).getD j 0
            = s * x.getD j 0) := by
  subst hx hf hs
  have hk : g.simplexValue p.simplex ≠ [] := by
    intro h
    rw [h] at hsum
    simp at hsum
  obtain ⟨i, xi, o, hi, hlt, hxi, ho, h⟩ :=
    doProposal_spec Real.exp Real.log p g v u hk hidx hv0 hv1
  refine ⟨i, o, hi, hlt, ho, fun hfl => ?_⟩
  rcases h with ⟨-, rfl⟩ | ⟨ys, hr, -, -, -, -, -, -, hgs, hgd, -, -⟩
  · simp at hfl
  · obtain ⟨-, rfl⟩ := (renormalize_eq_some_iff _ _ _).mp hr
    have hS := simplex_sum_new_pos _ i xi _ hxi hnn hsum (Real.exp_pos (p.lambda * (u - 1 / 2)))
    have hgi : (g.simplexValue p.simplex).getD i 0 = xi := by
      rw [List.getD_eq_getElem?_getD, hxi, Option.getD_some]
    have hS' : xi * Real.exp (p.lambda * (u - 1 / 2)) - xi + 1
        = 1 + xi * (Real.exp (p.lambda * (u - 1 / 2)) - 1) := by ring
    rw [hgs, hgd, if_pos hb, Function.update_same, Function.update_same, hgi, hS']
    refine ⟨rfl, fun j hj hji => ?_⟩
    rw [getD_map_set _ _ _ i j hj, if_neg hji, ← hS']
    generalize xi * Real.exp (p.lambda * (u - 1 / 2)) - xi + 1 = S at hS
    field_simp
    ring

/-- Evaluation of the scalar rescaling in exact arithmetic on the simplex `[0.3, 0.7]`
with the scalar `5` bound and `u = 0.75`:
the proposal succeeds, the scalar becomes `5 * S` and scalar times coordinate 1 stays
`5 * 0.7`. -/
theorem doProposal_success_scalar_witness :
    ∃ o, doProposal Real.exp Real.log (exampleProposal (1 : ℝ) true)
        (exampleGraph ([3 / 10, 7 / 10] : List ℝ)) (1 / 4) (3 / 4) = some o ∧
      o.proposal.failed = false ∧
      o.graph.doubleValue 7 = 5 * (1 + 3 / 10 * (Real.exp (1 * (3 / 4 - 1 / 2)) - 1)) ∧
      o.graph.doubleValue 7 * (o.graph.simplexValue 0).getD 1 0 = 5 * (7 / 10) := by
  obtain ⟨i, o, hi, -, ho, h⟩ := doProposal_success_scalar (exampleProposal (1 : ℝ) true)
    (exampleGraph ([3 / 10, 7 / 10] : List ℝ)) (1 / 4) (3 / 4) [3 / 10, 7 / 10]
    (Real.exp (1 * (3 / 4 - 1 / 2))) 5 rfl rfl rfl rfl
    (by simp [exampleProposal]) (by norm_num) (by norm_num)
    (by simp; norm_num) (by simp; norm_num)
  have hi0 : chooseIndex (exampleProposal (1 : ℝ) true).indices
      ([3 / 10, 7 / 10] : List ℝ).length (1 / 4 : ℝ) = some 0 := by
    simp [chooseIndex, exampleProposal]
  have hi' : i = 0 := Option.some.inj (hi.symm.trans hi0)
  subst hi'
  obtain ⟨o', ho', hfl⟩ := doProposal_example_success true
  have ho'' : o' = o := Option.some.inj (ho'.symm.trans ho)
  subst ho''
  obtain ⟨hsc, hprod⟩ := h hfl
  exact ⟨o', ho, hfl, hsc, hprod 1 (by simp) (by decide)⟩

/-- C6. Whenever `doProposal` sets `failed`, it returns negative infinity and the graph (the
value of the simplex node, the value of the bound scalar and every touched-index set
included) is the same as before the call; a following `undoProposal` changes neither the
graph nor the proposal. -/
theorem doProposal_failed_changes_nothing
    (p : SingleElementScaleSimplexSingleScalarProposal ℝ) (g : Graph ℝ) (v u : ℝ)
    (hk : g.simplexValue p.simplex ≠ [])
    (hidx : ∀ j ∈ p.indices, j < (g.simplexValue p.simplex).length)
    (hv0 : 0 ≤ v) (hv1 : v < 1) :
    ∃ o, doProposal Real.exp Real.log p g v u = some o ∧
      (o.proposal.failed = true →
        o.ret = LnHastings.neginf ∧ o.graph = g ∧
        undoProposal o.proposal o.graph = (o.proposal, g)) := by
  obtain ⟨i, xi, o, hi, hlt, hxi, ho, h⟩ :=
    doProposal_spec Real.exp Real.log p g v u hk hidx hv0 hv1
  refine ⟨o, ho, fun hfl => ?_⟩
  rcases h with ⟨-, rfl⟩ | ⟨ys, -, hf, -⟩
  · refine ⟨rfl, rfl, ?_⟩
    simp [undoProposal]
  · rw [hf] at hfl
    cases hfl

/-- Evaluation of C6 on the simplex `[0, 1]`, where rescaling coordinate 0 fails for every
draw. -/
theorem doProposal_failed_changes_nothing_witness :
    ∃ o, doProposal Real.exp Real.log (exampleProposal (1 : ℝ) true)
        (exampleGraph ([0, 1] : List ℝ)) (1 / 4) (3 / 4) = some o ∧
      o.proposal.failed = true ∧
      o.ret = LnHastings.neginf ∧ o.graph = exampleGraph ([0, 1] : List ℝ) ∧
      undoProposal o.proposal o.graph = (o.proposal, exampleGraph ([0, 1] : List ℝ)) := by
  obtain ⟨o, ho, h⟩ := doProposal_failed_changes_nothing (exampleProposal (1 : ℝ) true)
    (exampleGraph ([0, 1] : List ℝ)) (1 / 4) (3 / 4) (by simp [exampleGraph])
    (by simp [exampleGraph, exampleProposal]) (by norm_num) (by norm_num)
  have hfail := doProposal_of_loop_failure Real.exp Real.log (exampleProposal (1 : ℝ) true)
    (exampleGraph ([0, 1] : List ℝ)) (1 / 4) (3 / 4) 0 0
    (by simp [chooseIndex, exampleProposal]) (by simp [exampleGraph, exampleProposal])
    (by simp [renormalize, exampleGraph, exampleProposal])
  rw [hfail] at ho
  have ho' := Option.some.inj ho
  have hfl : o.proposal.failed = true := by rw [← ho']
  exact ⟨o, hfail.trans ho, hfl, h hfl⟩

/-- The failure condition in exact arithmetic (the evaluation in binary64 is at the end of
the file).  Over the reals
`doProposal` sets `failed = true` and returns negative infinity if and only if at
least one renormalised coordinate (`x_i * f / new_sum` at the chosen index `i`,
`x_j / new_sum` elsewhere, with `new_sum = x_i * f - x_i + 1`) is below `1e-100`; in every
other case it leaves `failed = false`, whatever the flag was before, and returns a finite
value.  For every non-empty simplex, candidate indices below its size and index draw in
`[0,1)` the call returns. -/
theorem doProposal_failed_iff
    (p : SingleElementScaleSimplexSingleScalarProposal ℝ) (g : Graph ℝ) (v u : ℝ)
    (x : List ℝ) (f : ℝ)
    (hx : g.simplexValue p.simplex = x) (hf : f = Real.exp (p.lambda * (u - 1 / 2)))
    (hk : x ≠ []) (hidx : ∀ j ∈ p.indices, j < x.length) (hv0 : 0 ≤ v) (hv1 : v < 1) :
    ∃ i o, chooseIndex p.indices x.length v = some i ∧ i < x.length ∧
      doProposal Real.exp Real.log p g v u = some o ∧
      ((o.proposal.failed = true ∧ o.ret = LnHastings.neginf) ↔
        ∃ j, j < x.length ∧
          (if j = i then x.getD i 0 * f / (x.getD i 0 * f - x.getD i 0 + 1)
           else x.getD j 0 / (x.getD i 0 * f - x.getD i 0 + 1)) < 1 / 10 ^ 100) ∧
      ((¬ ∃ j, j < x.length ∧
          (if j = i then x.getD i 0 * f / (x.getD i 0 * f - x.getD i 0 + 1)
           else x.getD j 0 / (x.getD i 0 * f - x.getD i 0 + 1)) < 1 / 10 ^ 100) →
        o.proposal.failed = false ∧ ∃ r, o.ret = LnHastings.finite r) := by
  subst hx hf
  obtain ⟨i, xi, o, hi, hlt, hxi, ho, h⟩ :=
    doProposal_spec Real.exp Real.log p g v u hk hidx hv0 hv1
  have hgi : (g.simplexValue p.simplex).getD i 0 = xi := by
    rw [List.getD_eq_getElem?_getD, hxi, Option.getD_some]
  refine ⟨i, o, hi, hlt, ho, ?_⟩
  rw [hgi, ← exists_mem_set_div_lt, ← renormalize_eq_none_iff]
  rcases h with ⟨hr, rfl⟩ | ⟨ys, hr, hfl, -, -, -, -, -, -, -, -, hret⟩
  · exact ⟨⟨fun _ => hr, fun _ => ⟨rfl, rfl⟩⟩, fun hn => absurd hr hn⟩
  · refine ⟨⟨fun hh => ?_, fun hn => ?_⟩, fun _ => ⟨hfl, _, hret⟩⟩
    · rw [hfl] at hh
      cases hh.1
    · rw [hr] at hn
      cases hn

/-- Evaluation of the failure condition in exact arithmetic on the simplex `[0.3, 0.7]`
with `u = 0.75`, entered with `failed` set by an earlier call: no renormalised coordinate is below the threshold, the flag is reset
and a finite value is returned. -/
theorem doProposal_failed_iff_witness :
    (exampleProposal (1 : ℝ) true).failed = true ∧
    ∃ o, doProposal Real.exp Real.log (exampleProposal (1 : ℝ) true)
        (exampleGraph ([3 / 10, 7 / 10] : List ℝ)) (1 / 4) (3 / 4) = some o ∧
      o.proposal.failed = false ∧ (∃ r, o.ret = LnHastings.finite r) ∧
      ¬ ∃ j, j < 2 ∧
        (if j = 0 then
          (3 / 10 : ℝ) * Real.exp (1 * (3 / 4 - 1 / 2))
            / (3 / 10 * Real.exp (1 * (3 / 4 - 1 / 2)) - 3 / 10 + 1)
         else
          ([3 / 10, 7 / 10] : List ℝ).getD j 0
            / (3 / 10 * Real.exp (1 * (3 / 4 - 1 / 2)) - 3 / 10 + 1)) < 1 / 10 ^ 100 := by
  obtain ⟨i, o, hi, -, ho, hiff, hno⟩ := doProposal_failed_iff (exampleProposal (1 : ℝ) true)
    (exampleGraph ([3 / 10, 7 / 10] : List ℝ)) (1 / 4) (3 / 4) [3 / 10, 7 / 10]
    (Real.exp (1 * (3 / 4 - 1 / 2))) rfl rfl
    (by simp) (by simp [exampleProposal]) (by norm_num) (by norm_num)
  have hi0 : chooseIndex (exampleProposal (1 : ℝ) true).indices
      ([3 / 10, 7 / 10] : List ℝ).length (1 / 4 : ℝ) = some 0 := by
    simp [chooseIndex, exampleProposal]
  have hi' : i = 0 := Option.some.inj (hi.symm.trans hi0)
  subst hi'
  obtain ⟨o', ho', hfl⟩ := doProposal_example_success true
  have ho'' : o' = o := Option.some.inj (ho'.symm.trans ho)
  subst ho''
  have hnot : ¬ (o'.proposal.failed = true ∧ o'.ret = LnHastings.neginf) := by
    rw [hfl]
    intro hh
    cases hh.1
  have hno' := fun hh => hnot (hiff.mpr hh)
  exact ⟨rfl, o', ho, hfl, (hno hno').2, hno'⟩

/-- C8, as the code has it.  For the simplex `[1e-99, 1 - 1e-99]` with index 0 chosen and a
down-scaling draw (`lambda > 0`, `u < 0.5`, so `f = exp(lambda * (u - 0.5)) < 1`):
`doProposal` returns; when `f * (10 - 1e-99) < 1 - 1e-99` (`f` below about 0.1) it sets
`failed = true`, returns negative infinity, and a subsequent `undoProposal` leaves the graph
and the proposal unchanged; for every other down-scaling draw it leaves `failed = false`. -/
theorem doProposal_underflow_downscale
    (p : SingleElementScaleSimplexSingleScalarProposal ℝ) (g : Graph ℝ) (v u : ℝ)
    (hx : g.simplexValue p.simplex = [1 / 10 ^ 99, 1 - 1 / 10 ^ 99])
    (hi : chooseIndex p.indices 2 v = some 0)
    (hl : 0 < p.lambda) (hu : u < 1 / 2) :
    ∃ o, doProposal Real.exp Real.log p g v u = some o ∧
      (Real.exp (p.lambda * (u - 1 / 2)) * (10 - 1 / 10 ^ 99) < 1 - 1 / 10 ^ 99 →
        o.proposal.failed = true ∧ o.ret = LnHastings.neginf ∧
        undoProposal o.proposal o.graph = (o.proposal, g)) ∧
      (¬ Real.exp (p.lambda * (u - 1 / 2)) * (10 - 1 / 10 ^ 99) < 1 - 1 / 10 ^ 99 →
        o.proposal.failed = false) := by
  have hi' : chooseIndex p.indices (g.simplexValue p.simplex).length v = some 0 := by
    rw [hx]
    exact hi
  have hx0 : (g.simplexValue p.simplex)[0]? = some (1 / 10 ^ 99) := by
    rw [hx]
    rfl
  have hf0 : 0 < Real.exp (p.lambda * (u - 1 / 2)) := Real.exp_pos _
  have hf1 : Real.exp (p.lambda * (u - 1 / 2)) < 1 :=
    Real.exp_lt_one_iff.mpr (mul_neg_of_pos_of_neg hl (by linarith))
  have h99 : (1 / 10 ^ 99 : ℝ) = 10 * (1 / 10 ^ 100) := by norm_num
  obtain ⟨hS, hiff, hle⟩ := underflow_arith (1 / 10 ^ 100 : ℝ)
    (Real.exp (p.lambda * (u - 1 / 2))) (by positivity) (by norm_num) hf0 hf1
  have hset : (g.simplexValue p.simplex).set 0
      (1 / 10 ^ 99 * Real.exp (p.lambda * (u - 1 / 2)))
      = [10 * (1 / 10 ^ 100) * Real.exp (p.lambda * (u - 1 / 2)), 1 - 10 * (1 / 10 ^ 100)] := by
    rw [hx, h99]
    rfl
  by_cases hc : Real.exp (p.lambda * (u - 1 / 2)) * (10 - 1 / 10 ^ 99) < 1 - 1 / 10 ^ 99
  · have hr : renormalize
        (1 / 10 ^ 99 * Real.exp (p.lambda * (u - 1 / 2)) - 1 / 10 ^ 99 + 1)
        ((g.simplexValue p.simplex).set 0 (1 / 10 ^ 99 * Real.exp (p.lambda * (u - 1 / 2))))
        = none := by
      rw [renormalize_eq_none_iff, hset]
      refine ⟨_, List.mem_cons_self _ _, ?_⟩
      rw [h99] at hc ⊢
      exact hiff.mpr hc
    refine ⟨_, doProposal_of_loop_failure Real.exp Real.log p g v u 0 _ hi' hx0 hr, ?_, ?_⟩
    · intro _
      refine ⟨rfl, rfl, ?_⟩
      simp [undoProposal]
    · intro hn
      exact absurd hc hn
  · have hr : renormalize
        (1 / 10 ^ 99 * Real.exp (p.lambda * (u - 1 / 2)) - 1 / 10 ^ 99 + 1)
        ((g.simplexValue p.simplex).set 0 (1 / 10 ^ 99 * Real.exp (p.lambda * (u - 1 / 2))))
        = some (((g.simplexValue p.simplex).set 0
            (1 / 10 ^ 99 * Real.exp (p.lambda * (u - 1 / 2)))).map
            (fun z => z / (1 / 10 ^ 99 * Real.exp (p.lambda * (u - 1 / 2)) - 1 / 10 ^ 99 + 1)))
        := by
      rw [renormalize_eq_some_iff]
      refine ⟨?_, rfl⟩
      rw [hset]
      intro z hz
      simp only [List.mem_cons, List.mem_singleton, List.not_mem_nil, or_false] at hz
      rw [h99] at hc ⊢
      rcases hz with rfl | rfl
      · exact not_lt.mp (fun h => hc (hiff.mp h))
      · exact hle
    obtain ⟨o, ho, hfl, -⟩ := doProposal_of_loop_success Real.exp Real.log p g v u 0 _ _ hi' hx0 hr
    refine ⟨o, ho, fun h => absurd h hc, fun _ => hfl⟩

/-- Evaluation of C8 as amended with `lambda = 20` and `u = 0`, a draw that does fail. -/
theorem doProposal_underflow_downscale_witness :
    ∃ o, doProposal Real.exp Real.log (exampleProposal (20 : ℝ) false)
        (exampleGraph ([1 / 10 ^ 99, 1 - 1 / 10 ^ 99] : List ℝ)) (1 / 4) 0 = some o ∧
      o.proposal.failed = true ∧ o.ret = LnHastings.neginf ∧
      undoProposal o.proposal o.graph
        = (o.proposal, exampleGraph ([1 / 10 ^ 99, 1 - 1 / 10 ^ 99] : List ℝ)) := by
  obtain ⟨o, ho, h, -⟩ := doProposal_underflow_downscale (exampleProposal (20 : ℝ) false)
    (exampleGraph ([1 / 10 ^ 99, 1 - 1 / 10 ^ 99] : List ℝ)) (1 / 4) 0 rfl
    (by simp [chooseIndex, exampleProposal]) (by simp [exampleProposal]) (by norm_num)
  refine ⟨o, ho, h ?_⟩
  have h10 : Real.exp ((exampleProposal (20 : ℝ) false).lambda * (0 - 1 / 2)) ≤ 1 / 11 := by
    have h1 : (exampleProposal (20 : ℝ) false).lambda * (0 - 1 / 2) = -10 := by
      simp only [exampleProposal]
      norm_num
    rw [h1, Real.exp_neg, one_div]
    have h2 : (11 : ℝ) ≤ Real.exp 10 := by
      have := Real.add_one_le_exp (10 : ℝ)
      linarith
    exact inv_anti₀ (by norm_num) h2
  have h3 : (0 : ℝ) < 10 - 1 / 10 ^ 99 := by norm_num
  calc Real.exp ((exampleProposal (20 : ℝ) false).lambda * (0 - 1 / 2)) * (10 - 1 / 10 ^ 99)
      ≤ 1 / 11 * (10 - 1 / 10 ^ 99) := mul_le_mul_of_nonneg_right h10 h3.le
    _ < 1 - 1 / 10 ^ 99 := by norm_num

/-- C8 as stated fails: on the simplex `[1e-99, 1 - 1e-99]` with index 0 chosen,
`lambda = 1` and the down-scaling draw `u = 0.4` (`f = exp(-0.1)`, about 0.905),
`doProposal` does not fail: it leaves `failed = false` and returns a finite value. -/
theorem doProposal_downscale_not_failed :
    (0 : ℝ) < (exampleProposal (1 : ℝ) false).lambda ∧ (2 / 5 : ℝ) < 1 / 2 ∧
    chooseIndex (exampleProposal (1 : ℝ) false).indices 2 (1 / 4 : ℝ) = some 0 ∧
    ∃ o, doProposal Real.exp Real.log (exampleProposal (1 : ℝ) false)
        (exampleGraph ([1 / 10 ^ 99, 1 - 1 / 10 ^ 99] : List ℝ)) (1 / 4) (2 / 5) = some o ∧
      o.proposal.failed = false ∧ ∃ r, o.ret = LnHastings.finite r := by
  have hi : chooseIndex (exampleProposal (1 : ℝ) false).indices 2 (1 / 4 : ℝ) = some 0 := by
    simp [chooseIndex, exampleProposal]
  refine ⟨by simp [exampleProposal], by norm_num, hi, ?_⟩
  have hl : (exampleProposal (1 : ℝ) false).lambda * (2 / 5 - 1 / 2) = -(1 / 10) := by
    simp only [exampleProposal]
    norm_num
  have hf0 : 0 < Real.exp (-(1 / 10)) := Real.exp_pos _
  have hf1 : Real.exp (-(1 / 10)) < 1 := Real.exp_lt_one_iff.mpr (by norm_num)
  have hf9 : (9 / 10 : ℝ) ≤ Real.exp (-(1 / 10)) := by
    have := Real.add_one_le_exp (-(1 / 10) : ℝ)
    linarith
  have h99 : (1 / 10 ^ 99 : ℝ) = 10 * (1 / 10 ^ 100) := by norm_num
  obtain ⟨-, hiff, hle⟩ := underflow_arith (1 / 10 ^ 100 : ℝ) (Real.exp (-(1 / 10)))
    (by positivity) (by norm_num) hf0 hf1
  have hc : ¬ Real.exp (-(1 / 10)) * (10 - 10 * (1 / 10 ^ 100)) < 1 - 10 * (1 / 10 ^ 100) := by
    have h3 : (0 : ℝ) < 10 - 10 * (1 / 10 ^ 100) := by norm_num
    have h4 : 9 / 10 * (10 - 10 * (1 / 10 ^ 100))
        ≤ Real.exp (-(1 / 10)) * (10 - 10 * (1 / 10 ^ 100)) :=
      mul_le_mul_of_nonneg_right hf9 h3.le
    have h5 : (1 : ℝ) - 10 * (1 / 10 ^ 100) ≤ 9 / 10 * (10 - 10 * (1 / 10 ^ 100)) := by
      norm_num
    exact not_lt.mpr (h5.trans h4)
  have hr : renormalize
      (1 / 10 ^ 99 * Real.exp ((exampleProposal (1 : ℝ) false).lambda * (2 / 5 - 1 / 2))
        - 1 / 10 ^ 99 + 1)
      (((exampleGraph ([1 / 10 ^ 99, 1 - 1 / 10 ^ 99] : List ℝ)).simplexValue
          (exampleProposal (1 : ℝ) false).simplex).set 0
        (1 / 10 ^ 99 * Real.exp ((exampleProposal (1 : ℝ) false).lambda * (2 / 5 - 1 / 2))))
      = some ([10 * (1 / 10 ^ 100) * Real.exp (-(1 / 10)), 1 - 10 * (1 / 10 ^ 100)].map
          (fun z => z / (10 * (1 / 10 ^ 100) * Real.exp (-(1 / 10))
            - 10 * (1 / 10 ^ 100) + 1))) := by
    rw [hl, h99, renormalize_eq_some_iff]
    refine ⟨?_, rfl⟩
    intro z hz
    have hz' : z = 10 * (1 / 10 ^ 100) * Real.exp (-(1 / 10)) ∨ z = 1 - 10 * (1 / 10 ^ 100) := by
      simpa [exampleGraph] using hz
    rcases hz' with rfl | rfl
    · exact not_lt.mp (fun h => hc (hiff.mp h))
    · exact hle
  obtain ⟨o, ho, hfl, -, -, -, -, -, -, -, -, hret⟩ :=
    doProposal_of_loop_success Real.exp Real.log (exampleProposal (1 : ℝ) false)
      (exampleGraph ([1 / 10 ^ 99, 1 - 1 / 10 ^ 99] : List ℝ)) (1 / 4) (2 / 5) 0 (1 / 10 ^ 99) _ hi rfl hr
  exact ⟨o, ho, hfl, _, hret⟩

/-- C9. For every simplex whose coordinates are all at least `1e-100`, every tuning
parameter and every chosen index, the draw `u = 0.5` gives the scaling factor 1 and the new
sum 1, `doProposal` succeeds, leaves the value of every simplex node and of every scalar
node unchanged and returns the ln Hastings ratio 0, with or without a bound scalar. -/
theorem doProposal_half_draw_identity
    (p : SingleElementScaleSimplexSingleScalarProposal ℝ) (g : Graph ℝ) (v : ℝ)
    (hk : g.simplexValue p.simplex ≠ [])
    (hidx : ∀ j ∈ p.indices, j < (g.simplexValue p.simplex).length)
    (hv0 : 0 ≤ v) (hv1 : v < 1)
    (hmin : ∀ y ∈ g.simplexValue p.simplex, 1 / 10 ^ 100 ≤ y) :
    Real.exp (p.lambda * (1 / 2 - 1 / 2)) = 1 ∧
    ∃ i o, chooseIndex p.indices (g.simplexValue p.simplex).length v = some i ∧
      doProposal Real.exp Real.log p g v (1 / 2) = some o ∧
      (g.simplexValue p.simplex).getD i 0 * Real.exp (p.lambda * (1 / 2 - 1 / 2))
        - (g.simplexValue p.simplex).getD i 0 + 1 = 1 ∧
      o.proposal.failed = false ∧
      o.graph.simplexValue = g.simplexValue ∧ o.graph.doubleValue = g.doubleValue ∧
      o.ret = LnHastings.finite 0 := by
  have hf : Real.exp (p.lambda * (1 / 2 - 1 / 2)) = 1 := by
    rw [sub_self, mul_zero, Real.exp_zero]
  refine ⟨hf, ?_⟩
  obtain ⟨i, xi, o, hi, hlt, hxi, ho, h⟩ :=
    doProposal_spec Real.exp Real.log p g v (1 / 2) hk hidx hv0 hv1
  have hS : xi - xi + 1 = (1 : ℝ) := by ring
  rw [hf, mul_one, hS, set_eq_self_of_getElem? _ i xi hxi] at h
  refine ⟨i, o, hi, ho, ?_⟩
  rw [hf]
  refine ⟨by ring, ?_⟩
  rcases h with ⟨hr, -⟩ | ⟨ys, hr, hfl, -, -, -, -, -, hgs, hgd, -, hret⟩
  · obtain ⟨z, hz, hlt'⟩ := (renormalize_eq_none_iff _ _).mp hr
    rw [div_one] at hlt'
    exact absurd hlt' (not_lt.mpr (hmin z hz))
  · obtain ⟨-, rfl⟩ := (renormalize_eq_some_iff _ _ _).mp hr
    rw [map_div_one] at hgs hret
    refine ⟨hfl, ?_, ?_, ?_⟩
    · rw [hgs, Function.update_eq_self]
    · rw [hgd]
      split
      · rw [mul_one, Function.update_eq_self]
      · rfl
    · rw [hret, Real.log_one]
      congr 1
      split <;> ring

/-- The instance of C9 named in the specification: simplex `[0.3, 0.7]`, `lambda = 1`,
index 0 (the only candidate), `u = 0.5`. -/
theorem doProposal_half_draw_identity_witness :
    chooseIndex (exampleProposal (1 : ℝ) false).indices 2 (1 / 4 : ℝ) = some 0 ∧
    Real.exp ((exampleProposal (1 : ℝ) false).lambda * (1 / 2 - 1 / 2)) = 1 ∧
    ∃ i o, chooseIndex (exampleProposal (1 : ℝ) false).indices
        ((exampleGraph ([3 / 10, 7 / 10] : List ℝ)).simplexValue
          (exampleProposal (1 : ℝ) false).simplex).length (1 / 4 : ℝ) = some i ∧
      doProposal Real.exp Real.log (exampleProposal (1 : ℝ) false)
        (exampleGraph ([3 / 10, 7 / 10] : List ℝ)) (1 / 4) (1 / 2) = some o ∧
      ((exampleGraph ([3 / 10, 7 / 10] : List ℝ)).simplexValue
          (exampleProposal (1 : ℝ) false).simplex).getD i 0
        * Real.exp ((exampleProposal (1 : ℝ) false).lambda * (1 / 2 - 1 / 2))
        - ((exampleGraph ([3 / 10, 7 / 10] : List ℝ)).simplexValue
          (exampleProposal (1 : ℝ) false).simplex).getD i 0 + 1 = 1 ∧
      o.proposal.failed = false ∧
      o.graph.simplexValue = (exampleGraph ([3 / 10, 7 / 10] : List ℝ)).simplexValue ∧
      o.graph.doubleValue = (exampleGraph ([3 / 10, 7 / 10] : List ℝ)).doubleValue ∧
      o.ret = LnHastings.finite 0 :=
  ⟨by simp [chooseIndex, exampleProposal],
   doProposal_half_draw_identity (exampleProposal (1 : ℝ) false)
    (exampleGraph ([3 / 10, 7 / 10] : List ℝ)) (1 / 4)
    (by simp [exampleGraph]) (by simp [exampleGraph, exampleProposal])
    (by norm_num) (by norm_num)
    (by
      intro y hy
      simp only [exampleGraph, List.mem_cons, List.mem_singleton, List.not_mem_nil,
        or_false] at hy
      rcases hy with rfl | rfl <;> norm_num)⟩

/-- C10. With target acceptance rate `p = 0.44` and `lambda > 0`: `tune(r)` with `r > 0.44`
leaves `lambda` strictly smaller than before, `tune(r)` with `r < 0.44` leaves it strictly
larger, and `tune(0.44)` leaves it unchanged. -/
theorem tune_monotone_at_default_target
    (p : SingleElementScaleSimplexSingleScalarProposal ℝ) (r : ℝ)
    (hp : p.targetAcceptanceRate = 44 / 100) (hl : 0 < p.lambda) :
    (r > 44 / 100 → (tune p r).lambda < p.lambda) ∧
    (r < 44 / 100 → (tune p r).lambda > p.lambda) ∧
    (tune p (44 / 100)).lambda = p.lambda := by
  unfold tune
  rw [hp]
  refine ⟨fun hr => ?_, fun hr => ?_, ?_⟩
  · rw [if_pos hr]
    have h1 : (1 : ℝ) < 1 + (r - 44 / 100) / (1 - 44 / 100) := by
      have : 0 < (r - 44 / 100) / (1 - 44 / 100) := div_pos (by linarith) (by norm_num)
      linarith
    exact div_lt_self hl h1
  · rw [if_neg (not_lt.mpr hr.le)]
    have h1 : (1 : ℝ) < 2 - r / (44 / 100) := by
      have : r / (44 / 100) < 1 := by
        rw [div_lt_one (by norm_num)]
        exact hr
      linarith
    exact lt_mul_of_one_lt_right hl h1
  · rw [if_neg (lt_irrefl _)]
    norm_num

/-- Evaluation of C10 on a proposal with `lambda = 1` and the observed rate `0.5`. -/
theorem tune_monotone_at_default_target_witness :
    (exampleProposal (1 : ℝ) false).targetAcceptanceRate = 44 / 100 ∧
    (0 : ℝ) < (exampleProposal (1 : ℝ) false).lambda ∧
    (tune (exampleProposal (1 : ℝ) false) (1 / 2)).lambda
      < (exampleProposal (1 : ℝ) false).lambda :=
  ⟨rfl, by simp [exampleProposal],
   (tune_monotone_at_default_target (exampleProposal (1 : ℝ) false) (1 / 2) rfl
      (by simp [exampleProposal])).1 (by norm_num)⟩

/-- C11. `tune(r)` replaces `lambda` by `lambda / (1 + (r - p) / (1 - p))` when `r > p` and
by `lambda * (2 - r / p)` otherwise, where `p` is the target acceptance rate of the
proposal, and changes no other field of the proposal.  The operation reads and writes the
proposal only, so no node value changes. -/
theorem tune_rule (p : SingleElementScaleSimplexSingleScalarProposal ℝ) (r : ℝ) :
    (tune p r).lambda =
      (if r > p.targetAcceptanceRate then
        p.lambda / (1 + (r - p.targetAcceptanceRate) / (1 - p.targetAcceptanceRate))
       else p.lambda * (2 - r / p.targetAcceptanceRate)) ∧
    (tune p r).nodes = p.nodes ∧
    (tune p r).targetAcceptanceRate = p.targetAcceptanceRate ∧
    (tune p r).simplex = p.simplex ∧ (tune p r).scalar = p.scalar ∧
    (tune p r).scalar_added = p.scalar_added ∧ (tune p r).indices = p.indices ∧
    (tune p r).failed = p.failed ∧ (tune p r).stored_simplex = p.stored_simplex ∧
    (tune p r).stored_scalar = p.stored_scalar := by
  unfold tune
  by_cases h : r > p.targetAcceptanceRate
  · rw [if_pos h, if_pos h]
    exact ⟨rfl, rfl, rfl, rfl, rfl, rfl, rfl, rfl, rfl, rfl⟩
  · rw [if_neg h, if_neg h]
    exact ⟨rfl, rfl, rfl, rfl, rfl, rfl, rfl, rfl, rfl, rfl⟩

/-- C12. The tuning rule is scale-invariant: for every factor `c`, every `lambda`, every
rate `r` and every target, tuning a proposal whose parameter is `c * lambda` yields `c`
times the parameter obtained by tuning the proposal whose parameter is `lambda`. -/
theorem tune_scale_invariant (p : SingleElementScaleSimplexSingleScalarProposal ℝ)
    (c r : ℝ) :
    (tune { p with lambda := c * p.lambda } r).lambda = c * (tune p r).lambda := by
  unfold tune
  by_cases h : r > p.targetAcceptanceRate
  · simp only [if_pos h]
    exact mul_div_assoc _ _ _
  · simp only [if_neg h]
    exact mul_assoc _ _ _

/-- C17. `addIndex(v)` with `v` at or above the current size `k` of the simplex leaves the
proposal, and so the candidate set, unchanged; `addIndex(v)` with `v < k` makes `v` a
member and leaves the other members as they were; hence, starting from a candidate set
whose members are below `k` (the empty set of a new proposal included), after any sequence
of `addIndex` calls on a simplex of fixed size every member is below `k`. -/
theorem addIndex_spec (p : SingleElementScaleSimplexSingleScalarProposal ℝ) (g : Graph ℝ)
    (v : Nat) (vs : List Nat)
    (hinv : ∀ j ∈ p.indices, j < (g.simplexValue p.simplex).length) :
    ((g.simplexValue p.simplex).length ≤ v → addIndex p g v = p) ∧
    (v < (g.simplexValue p.simplex).length →
      v ∈ (addIndex p g v).indices ∧
      ∀ w, w ≠ v → (w ∈ (addIndex p g v).indices ↔ w ∈ p.indices)) ∧
    (∀ j ∈ (vs.foldl (fun q w => addIndex q g w) p).indices,
      j < (g.simplexValue p.simplex).length) := by
  refine ⟨fun h => ?_, fun h => ?_, ?_⟩
  · unfold addIndex
    rw [if_neg (not_lt.mpr h)]
  · unfold addIndex
    rw [if_pos h]
    refine ⟨Finset.mem_insert_self _ _, fun w hw => ?_⟩
    simp [Finset.mem_insert, hw]
  · have key : ∀ (ws : List Nat) (q : SingleElementScaleSimplexSingleScalarProposal ℝ),
        q.simplex = p.simplex →
        (∀ j ∈ q.indices, j < (g.simplexValue p.simplex).length) →
        ∀ j ∈ (ws.foldl (fun q w => addIndex q g w) q).indices,
          j < (g.simplexValue p.simplex).length := by
      intro ws
      induction ws with
      | nil =>
        intro q _ hq
        exact hq
      | cons w ws ih =>
        intro q hs hq
        rw [List.foldl_cons]
        by_cases hw : w < (g.simplexValue q.simplex).length
        · have hadd : addIndex q g w = { q with indices := insert w q.indices } := by
            unfold addIndex
            rw [if_pos hw]
          rw [hadd]
          refine ih _ hs ?_
          intro j hj
          rcases Finset.mem_insert.mp hj with rfl | hj'
          · rw [← hs]
            exact hw
          · exact hq j hj'
        · have hadd : addIndex q g w = q := by
            unfold addIndex
            rw [if_neg hw]
          rw [hadd]
          exact ih q hs hq
    exact key vs p rfl hinv

/-- Evaluation of C17 on a two-coordinate simplex: from the candidate set `{0}` the calls
`addIndex(5)`, `addIndex(1)`, `addIndex(2)` leave every member below 2. -/
theorem addIndex_spec_witness :
    addIndex (exampleProposal (1 : ℝ) false) (exampleGraph ([3 / 10, 7 / 10] : List ℝ)) 5
      = exampleProposal (1 : ℝ) false ∧
    (1 ∈ (addIndex (exampleProposal (1 : ℝ) false)
        (exampleGraph ([3 / 10, 7 / 10] : List ℝ)) 1).indices) ∧
    (∀ j ∈ (([5, 1, 2] : List Nat).foldl
        (fun q w => addIndex q (exampleGraph ([3 / 10, 7 / 10] : List ℝ)) w)
        (exampleProposal (1 : ℝ) false)).indices, j < 2) := by
  have h5 := addIndex_spec (exampleProposal (1 : ℝ) false)
    (exampleGraph ([3 / 10, 7 / 10] : List ℝ)) 5 [5, 1, 2]
    (by simp [exampleGraph, exampleProposal])
  have h1 := addIndex_spec (exampleProposal (1 : ℝ) false)
    (exampleGraph ([3 / 10, 7 / 10] : List ℝ)) 1 []
    (by simp [exampleGraph, exampleProposal])
  exact ⟨h5.1 (by simp [exampleGraph]), (h1.2.1 (by simp [exampleGraph])).1, h5.2.2⟩

/-- C18. `swapNodeInternal(old, new)` re-points the simplex reference to `new` when `old` is
the current simplex node; otherwise it re-points the scalar reference to `new` when a
scalar is bound and `old` is that scalar; otherwise it changes nothing.  In every case the
other reference, `lambda`, the candidate set, the `failed` flag, the stored undo values and
the remaining fields are unchanged; the operation reads and writes the proposal only, so no
node value changes. -/
theorem swapNodeInternal_spec (p : SingleElementScaleSimplexSingleScalarProposal ℝ)
    (oldN newN : NodeId) :
    (oldN = p.simplex →
      swapNodeInternal p oldN newN = { p with simplex := newN }) ∧
    (oldN ≠ p.simplex → p.scalar_added = true → oldN = p.scalar →
      swapNodeInternal p oldN newN = { p with scalar := newN }) ∧
    (oldN ≠ p.simplex → ¬ (p.scalar_added = true ∧ oldN = p.scalar) →
      swapNodeInternal p oldN newN = p) ∧
    (swapNodeInternal p oldN newN).lambda = p.lambda ∧
    (swapNodeInternal p oldN newN).indices = p.indices ∧
    (swapNodeInternal p oldN newN).failed = p.failed ∧
    (swapNodeInternal p oldN newN).stored_simplex = p.stored_simplex ∧
    (swapNodeInternal p oldN newN).stored_scalar = p.stored_scalar ∧
    (swapNodeInternal p oldN newN).scalar_added = p.scalar_added ∧
    (swapNodeInternal p oldN newN).targetAcceptanceRate = p.targetAcceptanceRate ∧
    (swapNodeInternal p oldN newN).nodes = p.nodes := by
  unfold swapNodeInternal
  by_cases h1 : oldN = p.simplex
  · rw [if_pos h1]
    exact ⟨fun _ => rfl, fun h => absurd h1 h, fun h => absurd h1 h,
      rfl, rfl, rfl, rfl, rfl, rfl, rfl, rfl⟩
  · rw [if_neg h1]
    by_cases h2 : p.scalar_added = true ∧ oldN = p.scalar
    · rw [if_pos h2]
      exact ⟨fun h => absurd h h1, fun _ _ _ => rfl, fun _ h => absurd h2 h,
        rfl, rfl, rfl, rfl, rfl, rfl, rfl, rfl⟩
    · rw [if_neg h2]
      exact ⟨fun h => absurd h h1, fun _ ha ho => absurd ⟨ha, ho⟩ h2, fun _ _ => rfl,
        rfl, rfl, rfl, rfl, rfl, rfl, rfl, rfl⟩

/-- C19, as the code has it.  `swapNodeInternal` makes no check of the replacement: when
`old` is the current simplex node, the replacement, whatever node it is, becomes the
simplex reference of the proposal, and every other field is kept; no error is raised. -/
theorem swapNodeInternal_accepts_any_replacement
    (p : SingleElementScaleSimplexSingleScalarProposal ℝ) (newN : NodeId) :
    (swapNodeInternal p p.simplex newN).simplex = newN ∧
    swapNodeInternal p p.simplex newN = { p with simplex := newN } := by
  unfold swapNodeInternal
  rw [if_pos rfl]
  exact ⟨rfl, rfl⟩

/-- C19 as stated fails: in a proposal on the simplex node 0 with the scalar node 7 bound,
giving the scalar node 7 as replacement for the simplex node 0 is accepted, and node 7
becomes the simplex reference of the proposal. -/
theorem swapNodeInternal_mismatch_accepted :
    (exampleProposal (1 : ℝ) true).simplex = 0 ∧
    (exampleProposal (1 : ℝ) true).scalar_added = true ∧
    (exampleProposal (1 : ℝ) true).scalar = 7 ∧
    (swapNodeInternal (exampleProposal (1 : ℝ) true) 0 7).simplex = 7 := by
  refine ⟨rfl, rfl, rfl, ?_⟩
  simp [swapNodeInternal, exampleProposal]

/-- C20. `prepareProposal` is side-effect-free: for every state of the proposal and of the
graph it returns both as they were, so no field of the proposal, no node value and no
touched-index set changes. -/
theorem prepareProposal_no_effect (p : SingleElementScaleSimplexSingleScalarProposal ℝ)
    (g : Graph ℝ) :
    (prepareProposal p g).1 = p ∧ (prepareProposal p g).2 = g ∧
    (prepareProposal p g).1.lambda = p.lambda ∧
    (prepareProposal p g).1.indices = p.indices ∧
    (prepareProposal p g).1.failed = p.failed ∧
    (prepareProposal p g).1.stored_simplex = p.stored_simplex ∧
    (prepareProposal p g).1.stored_scalar = p.stored_scalar ∧
    (prepareProposal p g).2.simplexValue = g.simplexValue ∧
    (prepareProposal p g).2.doubleValue = g.doubleValue ∧
    (∀ n, ((prepareProposal p g).2.dag n).touched_elements = (g.dag n).touched_elements) := by
  unfold prepareProposal
  exact ⟨rfl, rfl, rfl, rfl, rfl, rfl, rfl, rfl, rfl, fun _ => rfl⟩

/-! Touched-index sets -/

omit [LinearOrderedField K] in
theorem touchStep_dag (size c : Nat) (g : Graph K) (a n : NodeId) :
    (Graph.touchStep size c g a).dag n =
      if n = a ∧ (g.dag n).type = DagNodeType.DETERMINISTIC ∧
          (g.dag n).numberOfElements = size
      then (g.dag n).addTouchedElementIndex c else g.dag n := by
  unfold Graph.touchStep
  by_cases hna : n = a
  · subst hna
    by_cases hc : (g.dag n).type = DagNodeType.DETERMINISTIC ∧
        (g.dag n).numberOfElements = size
    · simp only [hc, and_self, if_true, true_and]
      exact Function.update_same _ _ _
    · simp only [hc, if_false, and_false]
  · by_cases hc : (g.dag a).type = DagNodeType.DETERMINISTIC ∧
        (g.dag a).numberOfElements = size
    · simp only [hc, and_self, if_true, hna, false_and, if_false]
      exact Function.update_noteq hna _ _
    · simp only [hc, if_false, hna, false_and]

omit [LinearOrderedField K] in
theorem clearStep_dag (size : Nat) (g : Graph K) (a n : NodeId) :
    (Graph.clearStep size g a).dag n =
      if n = a ∧ (g.dag n).type = DagNodeType.DETERMINISTIC ∧
          (g.dag n).numberOfElements = size
      then (g.dag n).clearTouchedElementIndices else g.dag n := by
  unfold Graph.clearStep
  by_cases hna : n = a
  · subst hna
    by_cases hc : (g.dag n).type = DagNodeType.DETERMINISTIC ∧
        (g.dag n).numberOfElements = size
    · simp only [hc, and_self, if_true, true_and]
      exact Function.update_same _ _ _
    · simp only [hc, if_false, and_false]
  · by_cases hc : (g.dag a).type = DagNodeType.DETERMINISTIC ∧
        (g.dag a).numberOfElements = size
    · simp only [hc, and_self, if_true, hna, false_and, if_false]
      exact Function.update_noteq hna _ _
    · simp only [hc, if_false, hna, false_and]

omit [LinearOrderedField K] in
/-- After the loop of `doProposal` over `affected`, a node has the chosen index added to its
touched-index set when it is an affected deterministic node with `size` elements, and is as
before otherwise. -/
theorem foldl_touchStep_dag (size c : Nat) (l : List NodeId) (g : Graph K) (n : NodeId) :
    (l.foldl (Graph.touchStep size c) g).dag n =
      if n ∈ l ∧ (g.dag n).type = DagNodeType.DETERMINISTIC ∧
          (g.dag n).numberOfElements = size
      then (g.dag n).addTouchedElementIndex c else g.dag n := by
  induction l generalizing g with
  | nil => simp
  | cons a as ih =>
    rw [List.foldl_cons, ih, touchStep_dag]
    by_cases hc : (g.dag n).type = DagNodeType.DETERMINISTIC ∧
        (g.dag n).numberOfElements = size
    · by_cases hna : n = a
      · subst hna
        by_cases hmem : n ∈ as
        · simp [hc, hmem, DagNode.addTouchedElementIndex]
        · simp [hc, hmem, DagNode.addTouchedElementIndex]
      · by_cases hmem : n ∈ as
        · simp [hc, hna, hmem]
        · simp [hc, hna, hmem]
    · simp [hc]

omit [LinearOrderedField K] in
/-- After the loop of `undoProposal` and `cleanProposal` over `affected`, a node has an
empty touched-index set when it is an affected deterministic node with `size` elements, and
is as before otherwise. -/
theorem foldl_clearStep_dag (size : Nat) (l : List NodeId) (g : Graph K) (n : NodeId) :
    (l.foldl (Graph.clearStep size) g).dag n =
      if n ∈ l ∧ (g.dag n).type = DagNodeType.DETERMINISTIC ∧
          (g.dag n).numberOfElements = size
      then (g.dag n).clearTouchedElementIndices else g.dag n := by
  induction l generalizing g with
  | nil => simp
  | cons a as ih =>
    rw [List.foldl_cons, ih, clearStep_dag]
    by_cases hc : (g.dag n).type = DagNodeType.DETERMINISTIC ∧
        (g.dag n).numberOfElements = size
    · by_cases hna : n = a
      · subst hna
        by_cases hmem : n ∈ as
        · simp [hc, hmem, DagNode.clearTouchedElementIndices]
        · simp [hc, hmem, DagNode.clearTouchedElementIndices]
      · by_cases hmem : n ∈ as
        · simp [hc, hna, hmem]
        · simp [hc, hna, hmem]
    · simp [hc]

omit [LinearOrderedField K] in
/-- What `undoProposal` leaves in the base-class state of a node. -/
theorem undoProposal_dag (p : SingleElementScaleSimplexSingleScalarProposal K)
    (g : Graph K) (n : NodeId) :
    (undoProposal p g).2.dag n =
      if (p.failed = false ∧ p.scalar_added = true) ∧ n ∈ g.descendants p.simplex ∧
          (g.dag n).type = DagNodeType.DETERMINISTIC ∧
          (g.dag n).numberOfElements = p.stored_simplex.length
      then (g.dag n).clearTouchedElementIndices else g.dag n := by
  unfold undoProposal
  by_cases hf : p.failed = false
  · by_cases hs : p.scalar_added = true
    · simp only [hf, hs, if_true, and_self, true_and]
      exact foldl_clearStep_dag _ _ _ n
    · simp only [hf, hs, if_true, if_false, and_false, false_and]
      rfl
  · simp [hf]

omit [LinearOrderedField K] in
/-- What `cleanProposal` leaves: the proposal and the value stores as they were, and the
touched-index sets cleared on the affected deterministic nodes of matching size when a
scalar is bound and the proposal did not fail. -/
theorem cleanProposal_effect (p : SingleElementScaleSimplexSingleScalarProposal K)
    (g : Graph K) :
    (cleanProposal p g).1 = p ∧
    (cleanProposal p g).2.simplexValue = g.simplexValue ∧
    (cleanProposal p g).2.doubleValue = g.doubleValue ∧
    (cleanProposal p g).2.descendants = g.descendants ∧
    ∀ n, (cleanProposal p g).2.dag n =
      if (p.scalar_added = true ∧ p.failed = false) ∧ n ∈ g.descendants p.simplex ∧
          (g.dag n).type = DagNodeType.DETERMINISTIC ∧
          (g.dag n).numberOfElements = p.stored_simplex.length
      then (g.dag n).clearTouchedElementIndices else g.dag n := by
  unfold cleanProposal
  by_cases h : p.scalar_added = true ∧ p.failed = false
  · obtain ⟨h1, h2, h3⟩ := foldl_clearStep_frame p.stored_simplex.length
      (g.descendants p.simplex) g
    rw [if_pos h]
    refine ⟨rfl, h1, h2, h3, fun n => ?_⟩
    rw [foldl_clearStep_dag]
    simp only [h, and_self, true_and]
  · rw [if_neg h]
    refine ⟨rfl, rfl, rfl, rfl, fun n => ?_⟩
    rw [if_neg (fun hh => h hh.1)]

/-- The state `doProposal` leaves behind, touched-index sets included, for inputs on which
it reads in range. -/
theorem doProposal_dag_spec [FloorRing K] (exp log : K → K)
    (p : SingleElementScaleSimplexSingleScalarProposal K) (g : Graph K) (v u : K)
    (hk : g.simplexValue p.simplex ≠ [])
    (hidx : ∀ j ∈ p.indices, j < (g.simplexValue p.simplex).length)
    (hv0 : 0 ≤ v) (hv1 : v < 1) :
    ∃ i o, chooseIndex p.indices (g.simplexValue p.simplex).length v = some i ∧
      i < (g.simplexValue p.simplex).length ∧
      doProposal exp log p g v u = some o ∧
      o.proposal.simplex = p.simplex ∧ o.proposal.scalar_added = p.scalar_added ∧
      o.proposal.stored_simplex = g.simplexValue p.simplex ∧
      o.graph.descendants = g.descendants ∧
      (o.proposal.failed = true → o.graph = g) ∧
      (o.proposal.failed = false →
        ∀ n, o.graph.dag n =
          if p.scalar_added = true ∧ n ∈ g.descendants p.simplex ∧
              (g.dag n).type = DagNodeType.DETERMINISTIC ∧
              (g.dag n).numberOfElements = (g.simplexValue p.simplex).length
          then (g.dag n).addTouchedElementIndex i else g.dag n) := by
  obtain ⟨i, x, hi, hlt, hx⟩ := doProposal_reads_in_range p g v hk hidx hv0 hv1
  cases hr : renormalize (x * exp (p.lambda * (u - 1 / 2)) - x + 1)
      ((g.simplexValue p.simplex).set i (x * exp (p.lambda * (u - 1 / 2)))) with
  | none =>
    refine ⟨i, _, hi, hlt, doProposal_of_loop_failure exp log p g v u i x hi hx hr,
      rfl, rfl, rfl, rfl, fun _ => rfl, fun h => ?_⟩
    cases h
  | some ys =>
    have hlen : ys.length = (g.simplexValue p.simplex).length := by
      obtain ⟨-, rfl⟩ := (renormalize_eq_some_iff _ _ _).mp hr
      rw [List.length_map, List.length_set]
    by_cases hs : p.scalar_added = true
    · refine ⟨i, _, hi, hlt, by simp only [doProposal, hi, hx, hr, hs, if_true]; rfl,
        rfl, hs.symm, rfl, ?_, fun h => ?_, fun _ n => ?_⟩
      · exact (foldl_touchStep_frame _ _ _ _).2.2
      · cases h
      · rw [foldl_touchStep_dag, hlen]
        simp only [hs, true_and]
        rfl
    · have hs' : p.scalar_added = false := by simpa using hs
      refine ⟨i, _, hi, hlt, by simp only [doProposal, hi, hx, hr, hs']; rfl,
        rfl, hs'.symm, rfl, rfl, fun h => ?_, fun _ n => ?_⟩
      · cases h
      · rw [if_neg (fun h => hs h.1)]
        rfl

/-! Rank in the candidate set -/

/-- The element at position `r` of the ascending enumeration of `s` has exactly `r`
members of `s` below it. -/
theorem card_filter_lt_sort_get (s : Finset Nat) (r : Nat)
    (hr : r < (s.sort (· ≤ ·)).length) :
    (s.filter (fun x => x < (s.sort (· ≤ ·)).get ⟨r, hr⟩)).card = r := by
  have hr' : r < s.card := by rwa [Finset.length_sort] at hr
  have hget : (s.sort (· ≤ ·)).get ⟨r, hr⟩ = s.orderEmbOfFin rfl ⟨r, hr'⟩ := by
    rw [Finset.orderEmbOfFin_apply]
    rfl
  rw [hget]
  have hset : s.filter (fun x => x < s.orderEmbOfFin rfl ⟨r, hr'⟩)
      = (Finset.Iio (⟨r, hr'⟩ : Fin s.card)).map (s.orderEmbOfFin rfl).toEmbedding := by
    ext x
    simp only [Finset.mem_filter, Finset.mem_map, Finset.mem_Iio,
      RelEmbedding.coe_toEmbedding]
    constructor
    · rintro ⟨hx, hlt⟩
      have hx' : x ∈ Set.range (s.orderEmbOfFin rfl) := by
        rw [Finset.range_orderEmbOfFin]
        exact hx
      obtain ⟨j, rfl⟩ := hx'
      exact ⟨j, (s.orderEmbOfFin rfl).lt_iff_lt.mp hlt, rfl⟩
    · rintro ⟨j, hj, rfl⟩
      exact ⟨Finset.orderEmbOfFin_mem s rfl j, (s.orderEmbOfFin rfl).lt_iff_lt.mpr hj⟩
  rw [hset, Finset.card_map, Fin.card_Iio]

/-- Every member of `s` sits in the ascending enumeration of `s` at the position given by
the number of members below it. -/
theorem sort_get_card_filter_lt (s : Finset Nat) (i : Nat) (hi : i ∈ s) :
    ∃ hr : (s.filter (fun x => x < i)).card < (s.sort (· ≤ ·)).length,
      (s.sort (· ≤ ·)).get ⟨(s.filter (fun x => x < i)).card, hr⟩ = i := by
  obtain ⟨n, hn⟩ := List.mem_iff_get.mp ((Finset.mem_sort (· ≤ ·)).mpr hi)
  have hrank := card_filter_lt_sort_get s n n.isLt
  have hn' : (s.sort (· ≤ ·)).get ⟨n, n.isLt⟩ = i := hn
  rw [hn'] at hrank
  rw [hrank]
  exact ⟨n.isLt, hn'⟩

/-- With a non-empty candidate set and a draw in `[0,1)` the chosen index is the element
at position `floor(v * m)` of the ascending enumeration, whether `m = 1` or `m > 1`. -/
theorem chooseIndex_of_nonempty [FloorRing K] (indices : Finset Nat) (size : Nat) (v : K)
    (hne : indices ≠ ∅) (hv0 : 0 ≤ v) (hv1 : v < 1) :
    ∃ hr : ⌊v * (indices.card : K)⌋₊ < (indices.sort (· ≤ ·)).length,
      chooseIndex indices size v
        = some ((indices.sort (· ≤ ·)).get ⟨⌊v * (indices.card : K)⌋₊, hr⟩) := by
  have hc : 0 < indices.card := Finset.card_pos.mpr (Finset.nonempty_iff_ne_empty.mpr hne)
  have hpos : (0 : K) < indices.card := by exact_mod_cast hc
  have hfl : ⌊v * (indices.card : K)⌋₊ < indices.card := by
    rw [Nat.floor_lt (mul_nonneg hv0 hpos.le)]
    calc v * (indices.card : K) < 1 * (indices.card : K) :=
          mul_lt_mul_of_pos_right hv1 hpos
      _ = indices.card := one_mul _
  have hr : ⌊v * (indices.card : K)⌋₊ < (indices.sort (· ≤ ·)).length := by
    rw [Finset.length_sort]
    exact hfl
  refine ⟨hr, ?_⟩
  unfold chooseIndex
  rw [if_pos hc]
  by_cases h1 : 1 < indices.card
  · rw [if_pos h1]
    exact List.getElem?_eq_getElem hr
  · rw [if_neg h1]
    have h0 : ⌊v * (indices.card : K)⌋₊ = 0 := by omega
    have hr0 : 0 < (indices.sort (· ≤ ·)).length := by
      rw [Finset.length_sort]
      exact hc
    rw [List.getElem?_eq_getElem hr0]
    simp only [h0, List.get_eq_getElem]

/-- On any graph whose node 0 holds the simplex `[0.3, 0.7]`, with `lambda = 1`, candidate
index 0 and the draw `u = 0.75` the proposal succeeds, with or without the scalar. -/
theorem doProposal_success_on_example_simplex (bound : Bool) (g : Graph ℝ)
    (hg : g.simplexValue 0 = [3 / 10, 7 / 10]) :
    ∃ o, doProposal Real.exp Real.log (exampleProposal (1 : ℝ) bound) g (1 / 4) (3 / 4)
        = some o ∧ o.proposal.failed = false := by
  have hs : (exampleProposal (1 : ℝ) bound).simplex = 0 := rfl
  have hi : chooseIndex (exampleProposal (1 : ℝ) bound).indices
      (g.simplexValue (exampleProposal (1 : ℝ) bound).simplex).length (1 / 4 : ℝ)
        = some 0 := by
    simp [chooseIndex, exampleProposal]
  have hx : (g.simplexValue (exampleProposal (1 : ℝ) bound).simplex)[0]? = some (3 / 10) := by
    rw [hs, hg]
    rfl
  have hf1 : (1 : ℝ) ≤ Real.exp ((exampleProposal (1 : ℝ) bound).lambda * (3 / 4 - 1 / 2)) :=
    Real.one_le_exp (by simp only [exampleProposal]; norm_num)
  have hf3 : Real.exp ((exampleProposal (1 : ℝ) bound).lambda * (3 / 4 - 1 / 2)) ≤ 3 := by
    have h1 : Real.exp ((exampleProposal (1 : ℝ) bound).lambda * (3 / 4 - 1 / 2))
        ≤ Real.exp 1 := Real.exp_le_exp.mpr (by simp only [exampleProposal]; norm_num)
    have h2 := Real.exp_one_lt_d9
    linarith
  have key : ∀ f : ℝ, 1 ≤ f → f ≤ 3 →
      renormalize (3 / 10 * f - 3 / 10 + 1)
        ((g.simplexValue (exampleProposal (1 : ℝ) bound).simplex).set 0 (3 / 10 * f))
        = some ([3 / 10 * f, 7 / 10].map (fun z => z / (3 / 10 * f - 3 / 10 + 1))) := by
    intro f h1 h3
    have hS : (0 : ℝ) < 3 / 10 * f - 3 / 10 + 1 := by linarith
    rw [hs, hg, renormalize_eq_some_iff]
    refine ⟨?_, rfl⟩
    intro z hz
    have hz' : z = 3 / 10 * f ∨ z = 7 / 10 := by simpa using hz
    rw [le_div_iff₀ hS]
    rcases hz' with rfl | rfl <;> linarith
  obtain ⟨o, ho, hfl, -⟩ := doProposal_of_loop_success Real.exp Real.log
    (exampleProposal (1 : ℝ) bound) g (1 / 4) (3 / 4) 0 (3 / 10) _ hi hx (key _ hf1 hf3)
  exact ⟨o, ho, hfl⟩

/-! The claims on touched-index sets, cleaning and index choice -/

/-- C13, as the code has it.  After a successful `doProposal` that rescaled index `i`: with
no bound scalar the base-class state of every node, its touched-index set included, is what
it was before the call; with a bound scalar, the touched-index set of every deterministic
descendant of the simplex node that has `k` elements and had nothing touched before equals
exactly `{i}`. -/
theorem doProposal_success_touched
    (p : SingleElementScaleSimplexSingleScalarProposal ℝ) (g : Graph ℝ) (v u : ℝ)
    (hk : g.simplexValue p.simplex ≠ [])
    (hidx : ∀ j ∈ p.indices, j < (g.simplexValue p.simplex).length)
    (hv0 : 0 ≤ v) (hv1 : v < 1) :
    ∃ i o, chooseIndex p.indices (g.simplexValue p.simplex).length v = some i ∧
      doProposal Real.exp Real.log p g v u = some o ∧
      (o.proposal.failed = false →
        (p.scalar_added = false → o.graph.dag = g.dag) ∧
        (p.scalar_added = true →
          ∀ n ∈ g.descendants p.simplex,
            (g.dag n).type = DagNodeType.DETERMINISTIC →
            (g.dag n).numberOfElements = (g.simplexValue p.simplex).length →
            (g.dag n).touched_elements = ∅ →
            (o.graph.dag n).touched_elements = {i})) := by
  obtain ⟨i, o, hi, -, ho, -, -, -, -, -, hdag⟩ :=
    doProposal_dag_spec Real.exp Real.log p g v u hk hidx hv0 hv1
  refine ⟨i, o, hi, ho, fun hfl => ⟨fun hs => ?_, fun hs n hn ht hsz he => ?_⟩⟩
  · funext n
    rw [hdag hfl n, if_neg]
    rw [hs]
    intro h
    cases h.1
  · rw [hdag hfl n, if_pos ⟨hs, hn, ht, hsz⟩]
    simp only [DagNode.addTouchedElementIndex, he]
    rfl

/-- Evaluation of C13 as amended on the simplex `[0.3, 0.7]` with the scalar bound: after
the successful proposal on index 0 the descendant node 1 has touched-index set `{0}`. -/
theorem doProposal_success_touched_witness :
    ∃ o, doProposal Real.exp Real.log (exampleProposal (1 : ℝ) true)
        (exampleGraph ([3 / 10, 7 / 10] : List ℝ)) (1 / 4) (3 / 4) = some o ∧
      o.proposal.failed = false ∧ (o.graph.dag 1).touched_elements = {0} := by
  obtain ⟨i, o, hi, ho, h⟩ := doProposal_success_touched (exampleProposal (1 : ℝ) true)
    (exampleGraph ([3 / 10, 7 / 10] : List ℝ)) (1 / 4) (3 / 4)
    (by simp [exampleGraph]) (by simp [exampleGraph, exampleProposal])
    (by norm_num) (by norm_num)
  have hi0 : chooseIndex (exampleProposal (1 : ℝ) true).indices
      ((exampleGraph ([3 / 10, 7 / 10] : List ℝ)).simplexValue
        (exampleProposal (1 : ℝ) true).simplex).length (1 / 4 : ℝ) = some 0 := by
    simp [chooseIndex, exampleProposal]
  have hi' : i = 0 := Option.some.inj (hi.symm.trans hi0)
  subst hi'
  obtain ⟨o', ho', hfl⟩ := doProposal_example_success true
  have ho'' : o' = o := Option.some.inj (ho'.symm.trans ho)
  subst ho''
  exact ⟨o', ho, hfl, (h hfl).2 rfl 1 (by simp [exampleGraph, exampleProposal]) rfl rfl rfl⟩

/-- C13 as stated fails: on the simplex `[0.3, 0.7]` with no bound scalar the proposal on
index 0 succeeds, and the deterministic descendant node 1 is left with an empty
touched-index set, not `{0}`. -/
theorem doProposal_no_scalar_touches_nothing :
    (exampleProposal (1 : ℝ) false).scalar_added = false ∧
    chooseIndex (exampleProposal (1 : ℝ) false).indices 2 (1 / 4 : ℝ) = some 0 ∧
    1 ∈ (exampleGraph ([3 / 10, 7 / 10] : List ℝ)).descendants 0 ∧
    ((exampleGraph ([3 / 10, 7 / 10] : List ℝ)).dag 1).type = DagNodeType.DETERMINISTIC ∧
    ∃ o, doProposal Real.exp Real.log (exampleProposal (1 : ℝ) false)
        (exampleGraph ([3 / 10, 7 / 10] : List ℝ)) (1 / 4) (3 / 4) = some o ∧
      o.proposal.failed = false ∧
      (o.graph.dag 1).touched_elements = ∅ ∧ (o.graph.dag 1).touched_elements ≠ {0} := by
  refine ⟨rfl, by simp [chooseIndex, exampleProposal], by simp [exampleGraph], rfl, ?_⟩
  obtain ⟨i, o, -, -, ho, -, -, -, -, -, hdag⟩ :=
    doProposal_dag_spec Real.exp Real.log (exampleProposal (1 : ℝ) false)
      (exampleGraph ([3 / 10, 7 / 10] : List ℝ)) (1 / 4) (3 / 4)
      (by simp [exampleGraph]) (by simp [exampleGraph, exampleProposal])
      (by norm_num) (by norm_num)
  obtain ⟨o', ho', hfl⟩ := doProposal_example_success false
  have ho'' : o' = o := Option.some.inj (ho'.symm.trans ho)
  subst ho''
  have h1 : o'.graph.dag 1 = (exampleGraph ([3 / 10, 7 / 10] : List ℝ)).dag 1 := by
    rw [hdag hfl 1, if_neg]
    intro h
    cases h.1
  refine ⟨o', ho, hfl, ?_, ?_⟩
  · rw [h1]
    rfl
  · rw [h1]
    exact fun h => Finset.singleton_ne_empty 0 h.symm

/-- C14, as the code has it.  For inputs on which `doProposal` reads in range, after
`doProposal` followed immediately by `undoProposal` the base-class state of a node is: with
a bound scalar and a successful proposal, for a deterministic descendant of the simplex
node with `k` elements, its prior state with the touched-index set emptied; in every other
case (failed proposal, no bound scalar, other nodes) exactly its prior state.  Hence, when
those descendants have nothing touched before `doProposal`, the whole graph is what it was
before. -/
theorem doProposal_undoProposal_touched
    (p : SingleElementScaleSimplexSingleScalarProposal ℝ) (g : Graph ℝ) (v u : ℝ)
    (hk : g.simplexValue p.simplex ≠ [])
    (hidx : ∀ j ∈ p.indices, j < (g.simplexValue p.simplex).length)
    (hv0 : 0 ≤ v) (hv1 : v < 1) :
    ∃ o, doProposal Real.exp Real.log p g v u = some o ∧
      (∀ n, (undoProposal o.proposal o.graph).2.dag n =
        if (o.proposal.failed = false ∧ p.scalar_added = true) ∧
            n ∈ g.descendants p.simplex ∧
            (g.dag n).type = DagNodeType.DETERMINISTIC ∧
            (g.dag n).numberOfElements = (g.simplexValue p.simplex).length
        then (g.dag n).clearTouchedElementIndices else g.dag n) ∧
      ((∀ n ∈ g.descendants p.simplex,
          (g.dag n).type = DagNodeType.DETERMINISTIC →
          (g.dag n).numberOfElements = (g.simplexValue p.simplex).length →
          (g.dag n).touched_elements = ∅) →
        (undoProposal o.proposal o.graph).2.dag = g.dag) := by
  obtain ⟨i, o, -, -, ho, hsx, hsa, hss, hdesc, hfail, hdag⟩ :=
    doProposal_dag_spec Real.exp Real.log p g v u hk hidx hv0 hv1
  have hmain : ∀ n, (undoProposal o.proposal o.graph).2.dag n =
      if (o.proposal.failed = false ∧ p.scalar_added = true) ∧
          n ∈ g.descendants p.simplex ∧
          (g.dag n).type = DagNodeType.DETERMINISTIC ∧
          (g.dag n).numberOfElements = (g.simplexValue p.simplex).length
      then (g.dag n).clearTouchedElementIndices else g.dag n := by
    intro n
    rw [undoProposal_dag, hsx, hsa, hss, hdesc]
    by_cases hf : o.proposal.failed = false
    · rw [hdag hf n]
      by_cases hc : p.scalar_added = true ∧ n ∈ g.descendants p.simplex ∧
          (g.dag n).type = DagNodeType.DETERMINISTIC ∧
          (g.dag n).numberOfElements = (g.simplexValue p.simplex).length
      · simp [hf, hc, DagNode.addTouchedElementIndex, DagNode.clearTouchedElementIndices]
      · rw [if_neg hc, if_neg (fun h => hc ⟨h.1.2, h.2⟩)]
    · have hf' : o.proposal.failed = true := by simpa using hf
      rw [hfail hf', if_neg (fun h => hf h.1.1)]
  refine ⟨o, ho, hmain, fun hempty => ?_⟩
  funext n
  rw [hmain n]
  split
  · rename_i hc
    have he := hempty n hc.2.1 hc.2.2.1 hc.2.2.2
    cases hn : g.dag n with
    | mk t e s =>
      rw [hn] at he
      simp only [DagNode.clearTouchedElementIndices]
      simp only at he
      rw [he]
  · rfl

/-- Evaluation of C14 as amended on the simplex `[0.3, 0.7]` with the scalar bound and
nothing touched before: after the successful proposal and its undo no touched-index set has
changed. -/
theorem doProposal_undoProposal_touched_witness :
    ∃ o, doProposal Real.exp Real.log (exampleProposal (1 : ℝ) true)
        (exampleGraph ([3 / 10, 7 / 10] : List ℝ)) (1 / 4) (3 / 4) = some o ∧
      (undoProposal o.proposal o.graph).2.dag
        = (exampleGraph ([3 / 10, 7 / 10] : List ℝ)).dag := by
  obtain ⟨o, ho, -, h⟩ := doProposal_undoProposal_touched (exampleProposal (1 : ℝ) true)
    (exampleGraph ([3 / 10, 7 / 10] : List ℝ)) (1 / 4) (3 / 4)
    (by simp [exampleGraph]) (by simp [exampleGraph, exampleProposal])
    (by norm_num) (by norm_num)
  exact ⟨o, ho, h (fun _ _ _ _ => rfl)⟩

/-- C14 as stated fails: on the simplex `[0.3, 0.7]` with the scalar bound, when the
deterministic descendant node 1 enters with touched-index set `{1}`, the successful
proposal followed by `undoProposal` leaves that set empty. -/
theorem doProposal_undoProposal_clears_touched :
    1 ∈ (exampleTouchedGraph ([3 / 10, 7 / 10] : List ℝ)).descendants 0 ∧
    ((exampleTouchedGraph ([3 / 10, 7 / 10] : List ℝ)).dag 1).touched_elements = {1} ∧
    ∃ o, doProposal Real.exp Real.log (exampleProposal (1 : ℝ) true)
        (exampleTouchedGraph ([3 / 10, 7 / 10] : List ℝ)) (1 / 4) (3 / 4) = some o ∧
      o.proposal.failed = false ∧
      ((undoProposal o.proposal o.graph).2.dag 1).touched_elements = ∅ ∧
      ((undoProposal o.proposal o.graph).2.dag 1).touched_elements
        ≠ ((exampleTouchedGraph ([3 / 10, 7 / 10] : List ℝ)).dag 1).touched_elements := by
  refine ⟨by simp [exampleTouchedGraph, exampleGraph], rfl, ?_⟩
  obtain ⟨i, o, -, -, ho, hsx, hsa, hss, hdesc, -, hdag⟩ :=
    doProposal_dag_spec Real.exp Real.log (exampleProposal (1 : ℝ) true)
      (exampleTouchedGraph ([3 / 10, 7 / 10] : List ℝ)) (1 / 4) (3 / 4)
      (by simp [exampleTouchedGraph, exampleGraph])
      (by simp [exampleTouchedGraph, exampleGraph, exampleProposal])
      (by norm_num) (by norm_num)
  obtain ⟨o', ho', hfl⟩ := doProposal_success_on_example_simplex true
    (exampleTouchedGraph ([3 / 10, 7 / 10] : List ℝ)) rfl
  have ho'' : o' = o := Option.some.inj (ho'.symm.trans ho)
  subst ho''
  have h1 : ((undoProposal o'.proposal o'.graph).2.dag 1).touched_elements = ∅ := by
    rw [undoProposal_dag, hsx, hsa, hss, hdesc, hdag hfl 1]
    simp [hfl, exampleTouchedGraph, exampleGraph, exampleProposal,
      DagNode.addTouchedElementIndex, DagNode.clearTouchedElementIndices]
  refine ⟨o', ho, hfl, h1, ?_⟩
  rw [h1]
  exact fun h => Finset.singleton_ne_empty 1 h.symm

/-- C15. `cleanProposal` never changes the proposal, the value of a simplex node or the
value of a scalar node.  After a failed `doProposal` it changes nothing at all, so no
touched-index set; after a successful `doProposal` with a bound scalar it leaves empty the
touched-index set of every deterministic descendant of the simplex node that has `k`
elements. -/
theorem cleanProposal_spec
    (p : SingleElementScaleSimplexSingleScalarProposal ℝ) (g : Graph ℝ) (v u : ℝ)
    (hk : g.simplexValue p.simplex ≠ [])
    (hidx : ∀ j ∈ p.indices, j < (g.simplexValue p.simplex).length)
    (hv0 : 0 ≤ v) (hv1 : v < 1) :
    (∀ (q : SingleElementScaleSimplexSingleScalarProposal ℝ) (h : Graph ℝ),
      (cleanProposal q h).1 = q ∧
      (cleanProposal q h).2.simplexValue = h.simplexValue ∧
      (cleanProposal q h).2.doubleValue = h.doubleValue) ∧
    ∃ o, doProposal Real.exp Real.log p g v u = some o ∧
      (o.proposal.failed = true → cleanProposal o.proposal o.graph = (o.proposal, o.graph)) ∧
      (o.proposal.failed = false → p.scalar_added = true →
        ∀ n ∈ g.descendants p.simplex,
          (g.dag n).type = DagNodeType.DETERMINISTIC →
          (g.dag n).numberOfElements = (g.simplexValue p.simplex).length →
          ((cleanProposal o.proposal o.graph).2.dag n).touched_elements = ∅) := by
  refine ⟨fun q h => ?_, ?_⟩
  · obtain ⟨h1, h2, h3, -, -⟩ := cleanProposal_effect q h
    exact ⟨h1, h2, h3⟩
  · obtain ⟨i, o, -, -, ho, hsx, hsa, hss, hdesc, -, hdag⟩ :=
      doProposal_dag_spec Real.exp Real.log p g v u hk hidx hv0 hv1
    refine ⟨o, ho, fun hf => ?_, fun hf hs n hn ht hsz => ?_⟩
    · unfold cleanProposal
      rw [if_neg]
      rw [hf]
      intro h
      cases h.2
    · obtain ⟨-, -, -, -, hclean⟩ := cleanProposal_effect o.proposal o.graph
      have hc : p.scalar_added = true ∧ n ∈ g.descendants p.simplex ∧
          (g.dag n).type = DagNodeType.DETERMINISTIC ∧
          (g.dag n).numberOfElements = (g.simplexValue p.simplex).length :=
        ⟨hs, hn, ht, hsz⟩
      have hc' : (p.scalar_added = true ∧ o.proposal.failed = false) ∧
          n ∈ g.descendants p.simplex ∧
          ((g.dag n).addTouchedElementIndex i).type = DagNodeType.DETERMINISTIC ∧
          ((g.dag n).addTouchedElementIndex i).numberOfElements
            = (g.simplexValue p.simplex).length :=
        ⟨⟨hs, hf⟩, hn, ht, hsz⟩
      rw [hclean n, hsx, hsa, hss, hdesc, hdag hf n, if_pos hc, if_pos hc']
      rfl

/-- Evaluation of C15 on the simplex `[0.3, 0.7]` with the scalar bound: after the
successful proposal, which touched index 0 on node 1, `cleanProposal` leaves the
touched-index set of node 1 empty. -/
theorem cleanProposal_spec_witness :
    ∃ o, doProposal Real.exp Real.log (exampleProposal (1 : ℝ) true)
        (exampleGraph ([3 / 10, 7 / 10] : List ℝ)) (1 / 4) (3 / 4) = some o ∧
      o.proposal.failed = false ∧
      ((cleanProposal o.proposal o.graph).2.dag 1).touched_elements = ∅ := by
  obtain ⟨-, o, ho, -, h⟩ := cleanProposal_spec (exampleProposal (1 : ℝ) true)
    (exampleGraph ([3 / 10, 7 / 10] : List ℝ)) (1 / 4) (3 / 4)
    (by simp [exampleGraph]) (by simp [exampleGraph, exampleProposal])
    (by norm_num) (by norm_num)
  obtain ⟨o', ho', hfl⟩ := doProposal_example_success true
  have ho'' : o' = o := Option.some.inj (ho'.symm.trans ho)
  subst ho''
  exact ⟨o', ho, hfl, h hfl rfl 1 (by simp [exampleGraph, exampleProposal]) rfl rfl⟩

/-- C16. For every draw `v` in `[0,1)`: when the candidate set is non-empty with `m`
elements, the index chosen by `doProposal` is a member of the set, namely the one with
exactly `floor(v * m)` members below it (rank `floor(v * m)` in ascending order), which for
a one-element set is its only element; a member of rank `r` is chosen exactly for
`r / m <= v < (r + 1) / m`, a `v`-interval of length `1 / m`.  When the set is empty the
chosen index is `floor(v * k)`, which is below `k`. -/
theorem chooseIndex_spec (indices : Finset Nat) (k : Nat) (v : ℝ)
    (hk : 0 < k) (hv0 : 0 ≤ v) (hv1 : v < 1) :
    (indices ≠ ∅ →
      (∃ i, chooseIndex indices k v = some i ∧ i ∈ indices ∧
        (indices.filter (fun x => x < i)).card = ⌊v * (indices.card : ℝ)⌋₊) ∧
      (∀ a, indices = {a} → chooseIndex indices k v = some a) ∧
      (∀ i ∈ indices, chooseIndex indices k v = some i ↔
        ((indices.filter (fun x => x < i)).card : ℝ) / indices.card ≤ v ∧
        v < (((indices.filter (fun x => x < i)).card : ℝ) + 1) / indices.card)) ∧
    (indices = ∅ →
      chooseIndex indices k v = some ⌊v * (k : ℝ)⌋₊ ∧ ⌊v * (k : ℝ)⌋₊ < k) := by
  constructor
  · intro hne
    obtain ⟨hr, hch⟩ := chooseIndex_of_nonempty indices k v hne hv0 hv1
    have hmem : (indices.sort (· ≤ ·)).get ⟨⌊v * (indices.card : ℝ)⌋₊, hr⟩ ∈ indices :=
      (Finset.mem_sort _).mp (List.get_mem _ _ _)
    have hrank := card_filter_lt_sort_get indices ⌊v * (indices.card : ℝ)⌋₊ hr
    have hc : 0 < indices.card := Finset.card_pos.mpr (Finset.nonempty_iff_ne_empty.mpr hne)
    have hpos : (0 : ℝ) < indices.card := by exact_mod_cast hc
    have hvm : 0 ≤ v * (indices.card : ℝ) := mul_nonneg hv0 hpos.le
    refine ⟨⟨_, hch, hmem, hrank⟩, fun a ha => ?_, fun i hi => ?_⟩
    · rw [hch]
      exact congrArg some (Finset.mem_singleton.mp (by rw [← ha]; exact hmem))
    · rw [hch, Option.some.injEq, div_le_iff₀ hpos, lt_div_iff₀ hpos]
      constructor
      · intro h
        rw [← h, hrank]
        exact ⟨Nat.floor_le hvm, Nat.lt_floor_add_one _⟩
      · rintro ⟨h1, h2⟩
        have hfl : ⌊v * (indices.card : ℝ)⌋₊ = (indices.filter (fun x => x < i)).card :=
          (Nat.floor_eq_iff hvm).mpr ⟨h1, h2⟩
        obtain ⟨hr', hget⟩ := sort_get_card_filter_lt indices i hi
        rw [← hget]
        congr 2
  · intro he
    subst he
    have hpos : (0 : ℝ) < k := by exact_mod_cast hk
    refine ⟨by simp [chooseIndex], ?_⟩
    rw [Nat.floor_lt (mul_nonneg hv0 hpos.le)]
    calc v * (k : ℝ) < 1 * (k : ℝ) := mul_lt_mul_of_pos_right hv1 hpos
      _ = k := one_mul _

/-- Evaluation of C16 on the candidate set `{1, 3, 5}` with `v = 0.5`: the interval of the
member 3, of rank 1, is `[1/3, 2/3)`, so 3 is chosen. -/
theorem chooseIndex_spec_witness :
    chooseIndex ({1, 3, 5} : Finset Nat) 7 (1 / 2 : ℝ) = some 3 := by
  have h := (chooseIndex_spec ({1, 3, 5} : Finset Nat) 7 (1 / 2 : ℝ) (by norm_num)
    (by norm_num) (by norm_num)).1 (by decide)
  have hcard : (({1, 3, 5} : Finset Nat).card : ℝ) = 3 := by norm_num
  have hrank : (((({1, 3, 5} : Finset Nat).filter (fun x => x < 3)).card : ℕ) : ℝ) = 1 := by
    have : (({1, 3, 5} : Finset Nat).filter (fun x => x < 3)).card = 1 := by decide
    rw [this]
    norm_num
  refine (h.2.2 3 (by decide)).mpr ?_
  rw [hcard, hrank]
  norm_num

/-! Tuning direction and bounds, touched indices, positivity of the renormalising sum -/

/-- C21. Evaluation of `tune` at `lambda = 1` and target rate 0.44: the observed rate 0.5,
larger than the target, lowers `lambda` to `28/31`, and the observed rate 0.22, smaller
than the target, raises it to `3/2`; the doc comment of `tune` announces the opposite
directions. -/
theorem tune_against_doc_comment :
    (tune (exampleProposal (1 : ℝ) false) (1 / 2)).lambda = 28 / 31 ∧
    (tune (exampleProposal (1 : ℝ) false) (22 / 100)).lambda = 3 / 2 ∧
    (tune (exampleProposal (1 : ℝ) false) (1 / 2)).lambda
      < (exampleProposal (1 : ℝ) false).lambda ∧
    (exampleProposal (1 : ℝ) false).lambda
      < (tune (exampleProposal (1 : ℝ) false) (22 / 100)).lambda := by
  have h1 : (tune (exampleProposal (1 : ℝ) false) (1 / 2)).lambda = 28 / 31 := by
    unfold tune
    rw [if_pos (by simp only [exampleProposal]; norm_num)]
    simp only [exampleProposal]
    norm_num
  have h2 : (tune (exampleProposal (1 : ℝ) false) (22 / 100)).lambda = 3 / 2 := by
    unfold tune
    rw [if_neg (by simp only [exampleProposal]; norm_num)]
    simp only [exampleProposal]
    norm_num
  refine ⟨h1, h2, ?_, ?_⟩
  · rw [h1]
    simp only [exampleProposal]
    norm_num
  · rw [h2]
    simp only [exampleProposal]
    norm_num

/-- C25. After a successful `doProposal` with a bound scalar and chosen index `i`: index `i`
has been added to the touched-index set of every deterministic descendant of the simplex
node that has exactly `k` elements; every other node (stochastic descendants, deterministic
descendants of another size, non-descendants) is as it was; and no index other than `i` has
been added to any set. -/
theorem doProposal_success_touches_only_chosen
    (p : SingleElementScaleSimplexSingleScalarProposal ℝ) (g : Graph ℝ) (v u : ℝ)
    (hk : g.simplexValue p.simplex ≠ [])
    (hidx : ∀ j ∈ p.indices, j < (g.simplexValue p.simplex).length)
    (hv0 : 0 ≤ v) (hv1 : v < 1) (hb : p.scalar_added = true) :
    ∃ i o, chooseIndex p.indices (g.simplexValue p.simplex).length v = some i ∧
      doProposal Real.exp Real.log p g v u = some o ∧
      (o.proposal.failed = false →
        (∀ n ∈ g.descendants p.simplex,
          (g.dag n).type = DagNodeType.DETERMINISTIC →
          (g.dag n).numberOfElements = (g.simplexValue p.simplex).length →
          (o.graph.dag n).touched_elements = insert i (g.dag n).touched_elements) ∧
        (∀ n, ¬ (n ∈ g.descendants p.simplex ∧
            (g.dag n).type = DagNodeType.DETERMINISTIC ∧
            (g.dag n).numberOfElements = (g.simplexValue p.simplex).length) →
          o.graph.dag n = g.dag n) ∧
        (∀ n j, j ∈ (o.graph.dag n).touched_elements →
          j ∉ (g.dag n).touched_elements → j = i)) := by
  obtain ⟨i, o, hi, -, ho, -, -, -, -, -, hdag⟩ :=
    doProposal_dag_spec Real.exp Real.log p g v u hk hidx hv0 hv1
  refine ⟨i, o, hi, ho, fun hfl => ⟨fun n hn ht hsz => ?_, fun n hn => ?_, fun n j hj hnj => ?_⟩⟩
  · have hc : p.scalar_added = true ∧ n ∈ g.descendants p.simplex ∧
        (g.dag n).type = DagNodeType.DETERMINISTIC ∧
        (g.dag n).numberOfElements = (g.simplexValue p.simplex).length := ⟨hb, hn, ht, hsz⟩
    rw [hdag hfl n, if_pos hc]
    rfl
  · rw [hdag hfl n, if_neg (fun h => hn h.2)]
  · rw [hdag hfl n] at hj
    by_cases hc : p.scalar_added = true ∧ n ∈ g.descendants p.simplex ∧
        (g.dag n).type = DagNodeType.DETERMINISTIC ∧
        (g.dag n).numberOfElements = (g.simplexValue p.simplex).length
    · rw [if_pos hc] at hj
      rcases Finset.mem_insert.mp hj with h | h
      · exact h
      · exact absurd h hnj
    · rw [if_neg hc] at hj
      exact absurd hj hnj

/-- Evaluation of C25 on the simplex `[0.3, 0.7]` with the scalar bound: the successful
proposal on index 0 leaves `{0}` on the descendant node 1 and leaves node 5, which is no
descendant, as it was. -/
theorem doProposal_success_touches_only_chosen_witness :
    ∃ o, doProposal Real.exp Real.log (exampleProposal (1 : ℝ) true)
        (exampleGraph ([3 / 10, 7 / 10] : List ℝ)) (1 / 4) (3 / 4) = some o ∧
      o.proposal.failed = false ∧
      (o.graph.dag 1).touched_elements = {0} ∧
      o.graph.dag 5 = (exampleGraph ([3 / 10, 7 / 10] : List ℝ)).dag 5 := by
  obtain ⟨i, o, hi, ho, h⟩ := doProposal_success_touches_only_chosen
    (exampleProposal (1 : ℝ) true) (exampleGraph ([3 / 10, 7 / 10] : List ℝ)) (1 / 4) (3 / 4)
    (by simp [exampleGraph]) (by simp [exampleGraph, exampleProposal])
    (by norm_num) (by norm_num) rfl
  have hi0 : chooseIndex (exampleProposal (1 : ℝ) true).indices
      ((exampleGraph ([3 / 10, 7 / 10] : List ℝ)).simplexValue
        (exampleProposal (1 : ℝ) true).simplex).length (1 / 4 : ℝ) = some 0 := by
    simp [chooseIndex, exampleProposal]
  have hi' : i = 0 := Option.some.inj (hi.symm.trans hi0)
  subst hi'
  obtain ⟨o', ho', hfl⟩ := doProposal_example_success true
  have ho'' : o' = o := Option.some.inj (ho'.symm.trans ho)
  subst ho''
  obtain ⟨h1, h2, -⟩ := h hfl
  refine ⟨o', ho, hfl, ?_, ?_⟩
  · rw [h1 1 (by simp [exampleGraph, exampleProposal]) rfl rfl]
    rfl
  · exact h2 5 (by simp [exampleGraph, exampleProposal])

/-- The renormalising sum in exact arithmetic (the evaluation in binary64 is at the end of
the file).  Over the reals,
for a simplex whose coordinates lie in `[0,1]`, every `lambda` and every draw `u`,
the renormalising sum `new_sum = 1 + x_i * (exp(lambda * (u - 0.5)) - 1)` that `doProposal`
computes for the chosen index `i` is strictly positive; it is the divisor of every
coordinate of the committed simplex. -/
theorem doProposal_new_sum_pos
    (p : SingleElementScaleSimplexSingleScalarProposal ℝ) (g : Graph ℝ) (v u : ℝ)
    (hk : g.simplexValue p.simplex ≠ [])
    (hidx : ∀ j ∈ p.indices, j < (g.simplexValue p.simplex).length)
    (hv0 : 0 ≤ v) (hv1 : v < 1)
    (h01 : ∀ y ∈ g.simplexValue p.simplex, 0 ≤ y ∧ y ≤ 1) :
    ∃ i x o, chooseIndex p.indices (g.simplexValue p.simplex).length v = some i ∧
      (g.simplexValue p.simplex)[i]? = some x ∧
      doProposal Real.exp Real.log p g v u = some o ∧
      0 < 1 + x * (Real.exp (p.lambda * (u - 1 / 2)) - 1) ∧
      (o.proposal.failed = false →
        o.graph.simplexValue p.simplex =
          ((g.simplexValue p.simplex).set i (x * Real.exp (p.lambda * (u - 1 / 2)))).map
            (fun z => z / (1 + x * (Real.exp (p.lambda * (u - 1 / 2)) - 1)))) := by
  obtain ⟨i, x, o, hi, -, hx, ho, h⟩ :=
    doProposal_spec Real.exp Real.log p g v u hk hidx hv0 hv1
  have hS : x * Real.exp (p.lambda * (u - 1 / 2)) - x + 1
      = 1 + x * (Real.exp (p.lambda * (u - 1 / 2)) - 1) := by ring
  obtain ⟨hx0, hx1⟩ := h01 x (List.getElem?_mem hx)
  have hf : 0 < Real.exp (p.lambda * (u - 1 / 2)) := Real.exp_pos _
  have hpos : 0 < 1 + x * (Real.exp (p.lambda * (u - 1 / 2)) - 1) := by
    rcases hx0.eq_or_lt with h0 | h0
    · rw [← h0]
      norm_num
    · have : 0 < x * Real.exp (p.lambda * (u - 1 / 2)) := mul_pos h0 hf
      linarith
  refine ⟨i, x, o, hi, hx, ho, hpos, fun hfl => ?_⟩
  rcases h with ⟨-, rfl⟩ | ⟨ys, hr, -, -, -, -, -, -, hgs, -, -, -⟩
  · simp at hfl
  · obtain ⟨-, rfl⟩ := (renormalize_eq_some_iff _ _ _).mp hr
    rw [hgs, Function.update_same, hS]

/-- Evaluation of the renormalising sum in exact arithmetic on the simplex `[0.3, 0.7]`
with `lambda = 1`, index 0 and `u = 0.75`. -/
theorem doProposal_new_sum_pos_witness :
    (0 : ℝ) < 1 + 3 / 10 * (Real.exp (1 * (3 / 4 - 1 / 2)) - 1) := by
  obtain ⟨i, x, o, hi, hx, -, hpos, -⟩ := doProposal_new_sum_pos
    (exampleProposal (1 : ℝ) false) (exampleGraph ([3 / 10, 7 / 10] : List ℝ)) (1 / 4) (3 / 4)
    (by simp [exampleGraph]) (by simp [exampleGraph, exampleProposal])
    (by norm_num) (by norm_num)
    (by
      intro y hy
      simp only [exampleGraph, List.mem_cons, List.mem_singleton, List.not_mem_nil,
        or_false] at hy
      rcases hy with rfl | rfl <;> constructor <;> norm_num)
  have hi0 : chooseIndex (exampleProposal (1 : ℝ) false).indices
      ((exampleGraph ([3 / 10, 7 / 10] : List ℝ)).simplexValue
        (exampleProposal (1 : ℝ) false).simplex).length (1 / 4 : ℝ) = some 0 := by
    simp [chooseIndex, exampleProposal]
  have hi' : i = 0 := Option.some.inj (hi.symm.trans hi0)
  subst hi'
  have hx' : x = 3 / 10 := by
    have : ((exampleGraph ([3 / 10, 7 / 10] : List ℝ)).simplexValue
        (exampleProposal (1 : ℝ) false).simplex)[0]? = some (3 / 10) := rfl
    exact (Option.some.inj (hx.symm.trans this))
  subst hx'
  exact hpos

/-- C30. For every target rate `p` with `0 < p < 1`, every observed rate `r` with
`0 <= r <= 1` and every `lambda > 0`, the parameter after `tune(r)` lies between
`lambda / 2` and `2 * lambda` inclusive, and is strictly positive. -/
theorem tune_bounds (p : SingleElementScaleSimplexSingleScalarProposal ℝ) (r : ℝ)
    (hp0 : 0 < p.targetAcceptanceRate) (hp1 : p.targetAcceptanceRate < 1)
    (hr0 : 0 ≤ r) (hr1 : r ≤ 1) (hl : 0 < p.lambda) :
    p.lambda / 2 ≤ (tune p r).lambda ∧ (tune p r).lambda ≤ 2 * p.lambda ∧
    0 < (tune p r).lambda := by
  unfold tune
  by_cases h : r > p.targetAcceptanceRate
  · rw [if_pos h]
    have hq : 0 < 1 - p.targetAcceptanceRate := by linarith
    have hd0 : 0 < (r - p.targetAcceptanceRate) / (1 - p.targetAcceptanceRate) :=
      div_pos (by linarith) hq
    have hd1 : (r - p.targetAcceptanceRate) / (1 - p.targetAcceptanceRate) ≤ 1 := by
      rw [div_le_one hq]
      linarith
    have hD : 0 < 1 + (r - p.targetAcceptanceRate) / (1 - p.targetAcceptanceRate) := by
      linarith
    refine ⟨?_, ?_, div_pos hl hD⟩
    · rw [le_div_iff₀ hD]
      nlinarith
    · rw [div_le_iff₀ hD]
      nlinarith
  · rw [if_neg h]
    have hle : r ≤ p.targetAcceptanceRate := not_lt.mp h
    have hq0 : 0 ≤ r / p.targetAcceptanceRate := div_nonneg hr0 hp0.le
    have hq1 : r / p.targetAcceptanceRate ≤ 1 := by
      rw [div_le_one hp0]
      exact hle
    refine ⟨?_, ?_, ?_⟩
    · nlinarith
    · nlinarith
    · exact mul_pos hl (by linarith)

/-- Evaluation of C30 at `lambda = 1`, target 0.44 and observed rate 1. -/
theorem tune_bounds_witness :
    (exampleProposal (1 : ℝ) false).lambda / 2
        ≤ (tune (exampleProposal (1 : ℝ) false) 1).lambda ∧
    (tune (exampleProposal (1 : ℝ) false) 1).lambda
        ≤ 2 * (exampleProposal (1 : ℝ) false).lambda ∧
    0 < (tune (exampleProposal (1 : ℝ) false) 1).lambda :=
  tune_bounds (exampleProposal (1 : ℝ) false) 1
    (by simp only [exampleProposal]; norm_num) (by simp only [exampleProposal]; norm_num)
    (by norm_num) (by norm_num) (by simp only [exampleProposal]; norm_num)

/-! Reversing a proposal with the draw `1 - u` -/

end SingleElementScaleSimplexSingleScalarProposal

namespace CoalescentSFSSimulator

/-- What the child-state computation of `simulateMutations` does: an even number of
mutations hands the state of the parent on unchanged, an odd number hands on 1 whatever
the state of the parent. -/
theorem childState_cases (current_state : Int) (num_mutations : Nat) :
    (num_mutations % 2 = 0 → childState current_state num_mutations = current_state) ∧
    (num_mutations % 2 = 1 → childState current_state num_mutations = 1) := by
  unfold childState
  constructor
  · intro h
    rw [if_neg (by omega)]
  · intro h
    rw [if_pos h]
    split <;> rfl

/-- C26. Evaluation of the child-state computation of `simulateMutations` at the parent
state 1 with one mutation on the branch: the child receives the state 1, not the flipped
state 0.  With the parent state 0 and one mutation the child receives 1, and with two
mutations the child receives the state of the parent. -/
theorem childState_one_odd :
    childState 1 1 = 1 ∧ childState 1 1 ≠ 0 ∧ childState 0 1 = 1 ∧
    childState 1 2 = 1 ∧ childState 0 2 = 0 := by
  decide

end CoalescentSFSSimulator

namespace RateMatrix_revPoMoTwo2N

/-- C24. `assign(m)` raises the error "Could not assign rate matrix." exactly when `m` is
not a `RateMatrix_revPoMoTwo2N`, and then leaves the receiver unchanged; when `m` is one,
`assign` raises nothing and has the result of the assignment operator, in which `N`, `mu`,
the tables `c_ijk` and `cc_ijk` and the eigen system are those of `m`. -/
theorem assign_spec {E : Type}
    (baseAssign : RateMatrix_revPoMoTwo2N ℝ E → RateMatrix_revPoMoTwo2N ℝ E →
      RateMatrix_revPoMoTwo2N ℝ E)
    (self : RateMatrix_revPoMoTwo2N ℝ E) (m : Assignable (RateMatrix_revPoMoTwo2N ℝ E)) :
    couldNotAssign = "Could not assign rate matrix." ∧
    ((assign baseAssign self m).2 = Except.error couldNotAssign ↔
      ∀ rm, m ≠ Assignable.revPoMoTwo2N rm) ∧
    ((∀ rm, m ≠ Assignable.revPoMoTwo2N rm) → (assign baseAssign self m).1 = self) ∧
    (∀ rm, m = Assignable.revPoMoTwo2N rm →
      assign baseAssign self m = (assignOp baseAssign self rm, Except.ok ()) ∧
      (assign baseAssign self m).1.N = rm.N ∧
      (assign baseAssign self m).1.mu = rm.mu ∧
      (assign baseAssign self m).1.c_ijk = rm.c_ijk ∧
      (assign baseAssign self m).1.cc_ijk = rm.cc_ijk ∧
      (assign baseAssign self m).1.eigen_system = rm.eigen_system) := by
  refine ⟨rfl, ?_, ?_, ?_⟩
  · cases m with
    | revPoMoTwo2N rm =>
      constructor
      · intro h
        cases h
      · intro h
        exact absurd rfl (h rm)
    | other t =>
      constructor
      · intro _ rm h
        cases h
      · intro _
        rfl
  · intro h
    cases m with
    | revPoMoTwo2N rm => exact absurd rfl (h rm)
    | other t => rfl
  · intro rm h
    subst h
    exact ⟨rfl, rfl, rfl, rfl, rfl, rfl⟩

/-- The entries of the matrix that `computeOffDiagonal` sets up, with `H` the harmonic
number and `rRate = nc / value`. -/
theorem computeOffDiagonal_entries {K E : Type} [LinearOrderedField K] (digamma : K → K)
    (self : RateMatrix_revPoMoTwo2N K E) (mu0 mu1 : K)
    (h0 : self.mu[0]? = some mu0) (h1 : self.mu[1]? = some mu1) :
    ∃ rm, computeOffDiagonal digamma self = some rm ∧
      rm.the_rate_matrix 0 2 =
        2 * mu0 * (self.N * (digamma self.N - digamma 1) / 2) *
          ((mu0 + mu1 + 2 * mu0 * mu1 * self.N * (digamma self.N - digamma 1)) /
            (4 * mu0 * mu1 * self.N * (digamma self.N - digamma 1))) ∧
      rm.the_rate_matrix 1 2 =
        2 * mu1 * (self.N * (digamma self.N - digamma 1) / 2) *
          ((mu0 + mu1 + 2 * mu0 * mu1 * self.N * (digamma self.N - digamma 1)) /
            (4 * mu0 * mu1 * self.N * (digamma self.N - digamma 1))) ∧
      rm.the_rate_matrix 2 0 =
        1 / 2 * ((mu0 + mu1 + 2 * mu0 * mu1 * self.N * (digamma self.N - digamma 1)) /
            (4 * mu0 * mu1 * self.N * (digamma self.N - digamma 1))) ∧
      rm.the_rate_matrix 2 1 =
        1 / 2 * ((mu0 + mu1 + 2 * mu0 * mu1 * self.N * (digamma self.N - digamma 1)) /
            (4 * mu0 * mu1 * self.N * (digamma self.N - digamma 1))) ∧
      rm.the_rate_matrix 0 0 = 0 ∧ rm.the_rate_matrix 0 1 = 0 ∧
      rm.the_rate_matrix 1 0 = 0 ∧ rm.the_rate_matrix 1 1 = 0 ∧
      rm.the_rate_matrix 2 2 = 0 ∧
      rm.N = self.N ∧ rm.mu = self.mu ∧ rm.needs_update = true := by
  refine ⟨_, by simp only [computeOffDiagonal, h0, h1]; rfl, ?_⟩
  refine ⟨?_, ?_, ?_, ?_, ?_, ?_, ?_, ?_, ?_, rfl, rfl, rfl⟩ <;> simp

/-- The vector that `getStationaryFrequencies` returns. -/
theorem getStationaryFrequencies_eq {K E : Type} [LinearOrderedField K] (digamma : K → K)
    (self : RateMatrix_revPoMoTwo2N K E) (mu0 mu1 : K)
    (h0 : self.mu[0]? = some mu0) (h1 : self.mu[1]? = some mu1) :
    getStationaryFrequencies digamma self =
      some [mu1 * (1 / (mu0 + mu1 + 2 * mu0 * mu1 * self.N * (digamma self.N - digamma 1))),
        mu0 * (1 / (mu0 + mu1 + 2 * mu0 * mu1 * self.N * (digamma self.N - digamma 1))),
        mu0 * mu1 * self.N * 2 * (digamma self.N - digamma 1) *
          (1 / (mu0 + mu1 + 2 * mu0 * mu1 * self.N * (digamma self.N - digamma 1)))] := by
  simp only [getStationaryFrequencies, h0, h1]

/-- C27. For positive `mu[0]`, `mu[1]`, `N` and harmonic number `H = digamma(N) -
digamma(1)`, `computeOffDiagonal` and `getStationaryFrequencies` return, and with `pi` the
stationary frequencies and `q` the matrix set up by `computeOffDiagonal`, the sum over the
states `i` of `pi_i` times the sum of the off-diagonal rates of row `i` equals 1. -/
theorem computeOffDiagonal_normalized {E : Type} (digamma : ℝ → ℝ)
    (self : RateMatrix_revPoMoTwo2N ℝ E) (mu0 mu1 : ℝ)
    (h0 : self.mu[0]? = some mu0) (h1 : self.mu[1]? = some mu1)
    (hmu0 : 0 < mu0) (hmu1 : 0 < mu1) (hN : 0 < self.N)
    (hH : 0 < digamma self.N - digamma 1) :
    ∃ rm freqs, computeOffDiagonal digamma self = some rm ∧
      getStationaryFrequencies digamma self = some freqs ∧
      freqs.length = 3 ∧
      ∑ i : Fin 3, freqs.getD i.val 0 *
        (∑ j ∈ Finset.univ.filter (fun j => j ≠ i), rm.the_rate_matrix i j) = 1 := by
  have hv : 0 < 4 * mu0 * mu1 * self.N * (digamma self.N - digamma 1) := by positivity
  have hnc : 0 < mu0 + mu1 + 2 * mu0 * mu1 * self.N * (digamma self.N - digamma 1) := by
    positivity
  obtain ⟨rm, hrm, q02, q12, q20, q21, -, q01, q10, -, -, -, -, -⟩ :=
    computeOffDiagonal_entries digamma self mu0 mu1 h0 h1
  refine ⟨rm, _, hrm, getStationaryFrequencies_eq digamma self mu0 mu1 h0 h1, rfl, ?_⟩
  have e02 : Finset.univ.filter (fun j : Fin 3 => j ≠ 0) = {1, 2} := by decide
  have e12 : Finset.univ.filter (fun j : Fin 3 => j ≠ 1) = {0, 2} := by decide
  have e22 : Finset.univ.filter (fun j : Fin 3 => j ≠ 2) = {0, 1} := by decide
  have s0 : ∑ j ∈ ({1, 2} : Finset (Fin 3)), rm.the_rate_matrix 0 j
      = rm.the_rate_matrix 0 1 + rm.the_rate_matrix 0 2 :=
    Finset.sum_pair (by decide)
  have s1 : ∑ j ∈ ({0, 2} : Finset (Fin 3)), rm.the_rate_matrix 1 j
      = rm.the_rate_matrix 1 0 + rm.the_rate_matrix 1 2 :=
    Finset.sum_pair (by decide)
  have s2 : ∑ j ∈ ({0, 1} : Finset (Fin 3)), rm.the_rate_matrix 2 j
      = rm.the_rate_matrix 2 0 + rm.the_rate_matrix 2 1 :=
    Finset.sum_pair (by decide)
  rw [Fin.sum_univ_three, e02, e12, e22, s0, s1, s2, q01, q02, q10, q12, q20, q21]
  generalize digamma self.N - digamma 1 = H at hH hv hnc
  generalize self.N = n at hN hv hnc
  simp only [Fin.val_zero, Fin.val_one, Fin.val_two, List.getD_cons_zero, List.getD_cons_succ]
  field_simp
  ring

/-- Evaluation of C27 on the default rate matrix (`N = 2`, `mu = (0.01, 0.01)`), with the
harmonic number `H = 1` of `N - 1 = 1`. -/
theorem computeOffDiagonal_normalized_witness :
    ∃ rm freqs, computeOffDiagonal (fun x : ℝ => x) (exampleRateMatrix ℝ) = some rm ∧
      getStationaryFrequencies (fun x : ℝ => x) (exampleRateMatrix ℝ) = some freqs ∧
      freqs.length = 3 ∧
      ∑ i : Fin 3, freqs.getD i.val 0 *
        (∑ j ∈ Finset.univ.filter (fun j => j ≠ i), rm.the_rate_matrix i j) = 1 :=
  computeOffDiagonal_normalized (fun x : ℝ => x) (exampleRateMatrix ℝ) (1 / 100) (1 / 100)
    rfl rfl (by norm_num) (by norm_num) (by simp only [exampleRateMatrix]; norm_num)
    (by simp only [exampleRateMatrix]; norm_num)

end RateMatrix_revPoMoTwo2N

namespace AdaptiveReversibleJumpProposal

/-- The proposal state after one iteration: the counters advance, the configuration is
kept, and the statistics grow by one observation exactly in the Learning and Adapted
phases. -/
theorem iterate_state {K : Type} (s : State K × Variable K) (d : Nat × K × Bool) :
    (iterate s d).1.updates = s.1.updates + 1 ∧
    (iterate s d).1.wait_before_learning = s.1.wait_before_learning ∧
    (iterate s d).1.wait_before_using = s.1.wait_before_using ∧
    (iterate s d).1.max_updates = s.1.max_updates ∧
    (phase s.1 = Phase.Cold → (iterate s d).1.statistics = s.1.statistics) ∧
    (phase s.1 = Phase.Learning ∨ phase s.1 = Phase.Adapted →
      (iterate s d).1.statistics = s.1.statistics ++ [(s.2.index, s.2.value)]) := by
  have hit : (iterate s d).1 = (doProposal s.1 s.2 d.1 d.2.1).1 := by
    unfold iterate
    split <;> rfl
  rw [hit]
  refine ⟨rfl, rfl, rfl, rfl, fun h => ?_, fun h => ?_⟩
  · simp only [doProposal, h]
  · rcases h with h | h <;> simp only [doProposal, h]

/-- While the counter stays below `wait_before_learning`, a run of iterations leaves the
statistics as they were. -/
theorem run_cold {K : Type} (ds : List (Nat × K × Bool)) (s : State K × Variable K)
    (h : s.1.updates + ds.length ≤ s.1.wait_before_learning) :
    (ds.foldl iterate s).1.statistics = s.1.statistics ∧
    (ds.foldl iterate s).1.updates = s.1.updates + ds.length ∧
    (ds.foldl iterate s).1.wait_before_learning = s.1.wait_before_learning ∧
    (ds.foldl iterate s).1.wait_before_using = s.1.wait_before_using ∧
    (ds.foldl iterate s).1.max_updates = s.1.max_updates := by
  induction ds generalizing s with
  | nil => exact ⟨rfl, rfl, rfl, rfl, rfl⟩
  | cons d ds ih =>
    obtain ⟨hu, hw, hwu, hm, hcold, -⟩ := iterate_state s d
    have hlen : (d :: ds).length = ds.length + 1 := rfl
    rw [hlen] at h
    have hph : phase s.1 = Phase.Cold := by
      unfold phase
      rw [if_pos (by omega)]
    obtain ⟨h1, h2, h3, h4, h5⟩ := ih (iterate s d) (by rw [hu, hw]; omega)
    rw [List.foldl_cons]
    refine ⟨by rw [h1, hcold hph], by rw [h2, hu, hlen]; omega, by rw [h3, hw],
      by rw [h4, hwu], by rw [h5, hm]⟩

/-- The same for a run from a given proposal and variable. -/
theorem run_of_cold {K : Type} (p : State K) (x : Variable K) (ds : List (Nat × K × Bool))
    (h : p.updates + ds.length ≤ p.wait_before_learning) :
    (run p x ds).1.statistics = p.statistics ∧
    (run p x ds).1.updates = p.updates + ds.length ∧
    (run p x ds).1.wait_before_learning = p.wait_before_learning ∧
    (run p x ds).1.wait_before_using = p.wait_before_using ∧
    (run p x ds).1.max_updates = p.max_updates :=
  run_cold ds (p, x) h

/-- C22. In the adaptive reversible-jump proposal started with `updates = 0` and
`wait_before_learning = N`: after each of the first `N` calls of `doProposal` (each
followed by `undoProposal` or not) the empirical statistics are equal to their initial
state; and, when `N < max_updates`, call `N + 1` is the first to update them, adding the
observation of that call. -/
theorem statistics_warm_up (p : State ℝ) (x : Variable ℝ) (hfresh : p.updates = 0) :
    (∀ ds : List (Nat × ℝ × Bool), ds.length ≤ p.wait_before_learning →
      (run p x ds).1.statistics = p.statistics) ∧
    (p.wait_before_learning < p.max_updates →
      ∀ (ds : List (Nat × ℝ × Bool)) (d : Nat × ℝ × Bool),
        ds.length = p.wait_before_learning →
        (run p x (ds ++ [d])).1.statistics
          = p.statistics ++ [((run p x ds).2.index, (run p x ds).2.value)] ∧
        (run p x (ds ++ [d])).1.statistics ≠ p.statistics) := by
  constructor
  · intro ds hds
    exact (run_of_cold p x ds (by omega)).1
  · intro hmax ds d hds
    obtain ⟨h1, h2, h3, h4, h5⟩ := run_of_cold p x ds (by omega)
    have hrun : run p x (ds ++ [d]) = iterate (run p x ds) d := by
      unfold run
      rw [List.foldl_append]
      rfl
    have hph : phase (run p x ds).1 = Phase.Learning ∨ phase (run p x ds).1 = Phase.Adapted := by
      unfold phase
      rw [h2, h3, h4, h5, if_neg (by omega)]
      by_cases hwu : p.updates + ds.length < p.wait_before_learning + p.wait_before_using
      · left
        rw [if_pos hwu]
      · right
        rw [if_neg hwu, if_pos (by omega)]
    obtain ⟨-, -, -, -, -, hlearn⟩ := iterate_state (run p x ds) d
    have hstat : (run p x (ds ++ [d])).1.statistics
        = p.statistics ++ [((run p x ds).2.index, (run p x ds).2.value)] := by
      rw [hrun, hlearn hph, h1]
    refine ⟨hstat, ?_⟩
    rw [hstat]
    intro hcontra
    have := congrArg List.length hcontra
    simp at this

/-- Evaluation of C22 with `wait_before_learning = 2`: two iterations leave the statistics
empty, and the third iteration adds its observation. -/
theorem statistics_warm_up_witness :
    (exampleState ℝ).updates = 0 ∧
    (run (exampleState ℝ) { value := 5, index := 0 }
      [(1, 6, true), (0, 5, false)]).1.statistics = [] ∧
    (run (exampleState ℝ) { value := 5, index := 0 }
      ([(1, 6, true), (0, 5, false)] ++ [(1, 7, true)])).1.statistics ≠ [] := by
  have h := statistics_warm_up (exampleState ℝ) { value := 5, index := 0 } rfl
  exact ⟨rfl, h.1 [(1, 6, true), (0, 5, false)] (by decide),
    (h.2 (by decide) [(1, 6, true), (0, 5, false)] (1, 7, true) rfl).2⟩

end AdaptiveReversibleJumpProposal

namespace NodeGraph

/-- A node that is not dirty is in the tracked relation to itself. -/
theorem tracked_self {K : Type} (n0 : Node K) (hclean : n0.dirty = false) :
    Tracked n0 n0 :=
  ⟨rfl, Or.inl ⟨hclean, rfl, rfl⟩⟩

/-- Touching keeps a node in the tracked relation and makes it dirty. -/
theorem touchNode_tracked {K : Type} (n0 n : Node K) (idx : Option Nat)
    (h : Tracked n0 n) : Tracked n0 (touchNode n idx) := by
  obtain ⟨ht, h | h⟩ := h
  · refine ⟨ht, Or.inr ⟨rfl, ?_⟩⟩
    simp only [touchNode, h.1]
    exact h.2.1
  · refine ⟨ht, Or.inr ⟨rfl, ?_⟩⟩
    simp only [touchNode, h.1, if_true]
    exact h.2

/-- Recomputing the cache keeps a node in the tracked relation. -/
theorem refreshNode_tracked {K : Type} (n0 n : Node K) (c : K)
    (h : Tracked n0 n) : Tracked n0 (refreshNode n c) := by
  obtain ⟨ht, h | h⟩ := h
  · unfold refreshNode
    rw [if_neg (by rw [h.1]; decide)]
    exact ⟨ht, Or.inl h⟩
  · unfold refreshNode
    rw [if_pos h.1]
    exact ⟨ht, Or.inr h⟩

/-- Assigning a value keeps a node in the tracked relation. -/
theorem setValueNode_tracked {K : Type} (n0 n : Node K) (x : K)
    (h : Tracked n0 n) : Tracked n0 (setValueNode n x) := by
  obtain ⟨ht, h | h⟩ := h
  · exact ⟨ht, Or.inl h⟩
  · exact ⟨ht, Or.inr h⟩

/-- A node in the tracked relation to a clean node `n0` is rolled back by `restoreNode`
to the kind, cache, dirty flag and touched indices of `n0`; its value stays as it is. -/
theorem restoreNode_tracked {K : Type} (n0 n : Node K)
    (hclean : n0.dirty = false ∧ n0.touched_elements = ∅) (h : Tracked n0 n) :
    (restoreNode n).type = n0.type ∧ (restoreNode n).cached = n0.cached ∧
      (restoreNode n).dirty = n0.dirty ∧
      (restoreNode n).touched_elements = n0.touched_elements ∧
      (restoreNode n).value = n.value := by
  obtain ⟨ht, h | h⟩ := h
  · unfold restoreNode
    rw [if_neg (by rw [h.1]; decide)]
    exact ⟨ht, h.2.1, by rw [h.1, hclean.1], h.2.2, rfl⟩
  · unfold restoreNode
    rw [if_pos h.1]
    exact ⟨ht, h.2, hclean.1.symm, hclean.2.symm, rfl⟩

/-- One operation on a node of the set `A` keeps every node of `A` in the tracked
relation to the state `g` and leaves the other nodes alone. -/
theorem applyOp_tracked {K : Type} (g s : State K) (A : List NodeId) (op : Op K)
    (hop : op.target ∈ A)
    (hdesc : s.descendants = g.descendants)
    (hout : ∀ m, m ∉ A → s.node m = g.node m)
    (hin : ∀ m ∈ A, Tracked (g.node m) (s.node m)) :
    (applyOp s op).descendants = g.descendants ∧
    (∀ m, m ∉ A → (applyOp s op).node m = g.node m) ∧
    (∀ m ∈ A, Tracked (g.node m) ((applyOp s op).node m)) := by
  cases op with
  | touch t idx =>
    have ht : t ∈ A := hop
    refine ⟨hdesc, fun m hm => ?_, fun m hm => ?_⟩
    · have hne : m ≠ t := fun h => hm (h ▸ ht)
      simp only [applyOp, touch, Function.update_noteq hne]
      exact hout m hm
    · by_cases hmt : m = t
      · subst hmt
        simp only [applyOp, touch, Function.update_same]
        exact touchNode_tracked _ _ idx (hin m hm)
      · simp only [applyOp, touch, Function.update_noteq hmt]
        exact hin m hm
  | refresh t c =>
    have ht : t ∈ A := hop
    refine ⟨hdesc, fun m hm => ?_, fun m hm => ?_⟩
    · have hne : m ≠ t := fun h => hm (h ▸ ht)
      simp only [applyOp, refresh, Function.update_noteq hne]
      exact hout m hm
    · by_cases hmt : m = t
      · subst hmt
        simp only [applyOp, refresh, Function.update_same]
        exact refreshNode_tracked _ _ c (hin m hm)
      · simp only [applyOp, refresh, Function.update_noteq hmt]
        exact hin m hm
  | setValue t x =>
    have ht : t ∈ A := hop
    refine ⟨hdesc, fun m hm => ?_, fun m hm => ?_⟩
    · have hne : m ≠ t := fun h => hm (h ▸ ht)
      simp only [applyOp, setValue, Function.update_noteq hne]
      exact hout m hm
    · by_cases hmt : m = t
      · subst hmt
        simp only [applyOp, setValue, Function.update_same]
        exact setValueNode_tracked _ _ x (hin m hm)
      · simp only [applyOp, setValue, Function.update_noteq hmt]
        exact hin m hm

/-- A sequence of operations on nodes of the set `A` keeps every node of `A` in the
tracked relation to the state `g` and leaves the other nodes alone. -/
theorem foldl_applyOp_tracked {K : Type} (g : State K) (A : List NodeId) (ops : List (Op K))
    (s : State K)
    (hops : ∀ op ∈ ops, op.target ∈ A)
    (hdesc : s.descendants = g.descendants)
    (hout : ∀ m, m ∉ A → s.node m = g.node m)
    (hin : ∀ m ∈ A, Tracked (g.node m) (s.node m)) :
    (ops.foldl applyOp s).descendants = g.descendants ∧
    (∀ m, m ∉ A → (ops.foldl applyOp s).node m = g.node m) ∧
    (∀ m ∈ A, Tracked (g.node m) ((ops.foldl applyOp s).node m)) := by
  induction ops generalizing s with
  | nil => exact ⟨hdesc, hout, hin⟩
  | cons op ops ih =>
    rw [List.foldl_cons]
    obtain ⟨h1, h2, h3⟩ := applyOp_tracked g s A op
      (hops op (List.mem_cons_self _ _)) hdesc hout hin
    exact ih (applyOp s op) (fun o ho => hops o (List.mem_cons_of_mem _ ho)) h1 h2 h3

/-- One operation changes the value of a node only when it is a `setValue` on it. -/
theorem applyOp_value {K : Type} (s : State K) (op : Op K) (m : NodeId)
    (h : ∀ x, op ≠ Op.setValue m x) :
    ((applyOp s op).node m).value = (s.node m).value := by
  cases op with
  | touch t idx =>
    by_cases hmt : m = t
    · subst hmt
      simp only [applyOp, touch, Function.update_same, touchNode]
    · simp only [applyOp, touch, Function.update_noteq hmt]
  | refresh t c =>
    by_cases hmt : m = t
    · subst hmt
      simp only [applyOp, refresh, Function.update_same, refreshNode]
      split <;> rfl
    · simp only [applyOp, refresh, Function.update_noteq hmt]
  | setValue t x =>
    have hmt : m ≠ t := fun e => h x (by rw [e])
    simp only [applyOp, setValue, Function.update_noteq hmt]

/-- A sequence of operations without a `setValue` on a node leaves its value alone. -/
theorem foldl_applyOp_value {K : Type} (ops : List (Op K)) (s : State K) (m : NodeId)
    (h : ∀ op ∈ ops, ∀ x, op ≠ Op.setValue m x) :
    ((ops.foldl applyOp s).node m).value = (s.node m).value := by
  induction ops generalizing s with
  | nil => rfl
  | cons op ops ih =>
    rw [List.foldl_cons, ih (applyOp s op) (fun o ho => h o (List.mem_cons_of_mem _ ho)),
      applyOp_value s op m (h op (List.mem_cons_self _ _))]

/-- The loop of `restore` over a list of nodes rolls back exactly the nodes of the list. -/
theorem foldl_restore_node {K : Type} (l : List NodeId) (s : State K) (m : NodeId) :
    (l.foldl (fun s m => { s with node := Function.update s.node m (restoreNode (s.node m)) })
      s).node m = (if m ∈ l then restoreNode (s.node m) else s.node m) ∧
    (l.foldl (fun s m => { s with node := Function.update s.node m (restoreNode (s.node m)) })
      s).descendants = s.descendants := by
  induction l generalizing s with
  | nil => simp
  | cons a as ih =>
    rw [List.foldl_cons]
    obtain ⟨h1, h2⟩ := ih { s with node := Function.update s.node a (restoreNode (s.node a)) }
    refine ⟨?_, h2⟩
    rw [h1]
    have hidem : restoreNode (restoreNode (s.node m)) = restoreNode (s.node m) := by
      unfold restoreNode
      by_cases hd : (s.node m).dirty = true
      · simp [hd]
      · simp [hd]
    by_cases hma : m = a
    · subst hma
      simp only [Function.update_same, List.mem_cons, true_or, if_true, hidem]
      split <;> rfl
    · simp only [Function.update_noteq hma, List.mem_cons, hma, false_or]

/-- C23, as the model has it.  For a graph whose node `n` and its descendants are clean
(not dirty, nothing touched), a `restore(n)` issued after `touch(n)` and any sequence of
further touches, cache recomputations and `setValue` calls on `n` and its descendants,
with no `keep` in between, leaves every node with the kind, the cached value or
log-probability, the dirty flag and the touched-index set it had immediately before the
touch.  `restore` does not change a node value: every node keeps the value it has when
`restore` is issued, which is its value before the touch when no `setValue` on that node
came in between. -/
theorem restore_after_touch (g : State ℝ) (n : NodeId) (idx : Option Nat)
    (ops : List (Op ℝ))
    (hclean : ∀ m ∈ n :: g.descendants n,
      (g.node m).dirty = false ∧ (g.node m).touched_elements = ∅)
    (hops : ∀ op ∈ ops, op.target ∈ n :: g.descendants n) :
    (restore (ops.foldl applyOp (touch g n idx)) n).descendants = g.descendants ∧
    ∀ m,
      ((restore (ops.foldl applyOp (touch g n idx)) n).node m).type = (g.node m).type ∧
      ((restore (ops.foldl applyOp (touch g n idx)) n).node m).cached = (g.node m).cached ∧
      ((restore (ops.foldl applyOp (touch g n idx)) n).node m).dirty = (g.node m).dirty ∧
      ((restore (ops.foldl applyOp (touch g n idx)) n).node m).touched_elements
        = (g.node m).touched_elements ∧
      ((restore (ops.foldl applyOp (touch g n idx)) n).node m).value
        = ((ops.foldl applyOp (touch g n idx)).node m).value ∧
      ((∀ op ∈ ops, ∀ x, op ≠ Op.setValue m x) →
        ((restore (ops.foldl applyOp (touch g n idx)) n).node m).value
          = (g.node m).value) := by
  have hn : n ∈ n :: g.descendants n := List.mem_cons_self _ _
  obtain ⟨h1, h2, h3⟩ := foldl_applyOp_tracked g (n :: g.descendants n) ops (touch g n idx)
    hops rfl
    (fun m hm => by
      have hne : m ≠ n := fun h => hm (h ▸ hn)
      simp only [touch, Function.update_noteq hne])
    (fun m hm => by
      by_cases hmn : m = n
      · subst hmn
        simp only [touch, Function.update_same]
        exact touchNode_tracked _ _ idx (tracked_self _ (hclean m hm).1)
      · simp only [touch, Function.update_noteq hmn]
        exact tracked_self _ (hclean m hm).1)
  have htouch : ∀ m, ((touch g n idx).node m).value = (g.node m).value := by
    intro m
    by_cases hmn : m = n
    · subst hmn
      simp only [touch, Function.update_same, touchNode]
    · simp only [touch, Function.update_noteq hmn]
  have hval : ∀ m,
      ((restore (ops.foldl applyOp (touch g n idx)) n).node m).value
        = ((ops.foldl applyOp (touch g n idx)).node m).value := by
    intro m
    unfold restore
    rw [(foldl_restore_node _ _ m).1]
    split
    · unfold restoreNode
      split <;> rfl
    · rfl
  refine ⟨?_, fun m => ?_⟩
  · unfold restore
    rw [(foldl_restore_node _ _ n).2, h1]
  · have hrest : ((restore (ops.foldl applyOp (touch g n idx)) n).node m)
        = (if m ∈ n :: g.descendants n then
            restoreNode ((ops.foldl applyOp (touch g n idx)).node m)
           else (ops.foldl applyOp (touch g n idx)).node m) := by
      unfold restore
      rw [h1]
      exact (foldl_restore_node _ _ m).1
    have hvalm : (∀ op ∈ ops, ∀ x, op ≠ Op.setValue m x) →
        ((restore (ops.foldl applyOp (touch g n idx)) n).node m).value
          = (g.node m).value := by
      intro hno
      rw [hval m, foldl_applyOp_value ops _ m hno, htouch m]
    by_cases hm : m ∈ n :: g.descendants n
    · obtain ⟨r1, r2, r3, r4, -⟩ := restoreNode_tracked _ _ (hclean m hm) (h3 m hm)
      rw [hrest, if_pos hm]
      refine ⟨r1, r2, r3, r4, ?_, ?_⟩
      · rw [← hval m, hrest, if_pos hm]
      · intro hno
        rw [← hvalm hno, hrest, if_pos hm]
    · have hsame := h2 m hm
      rw [hrest, if_neg hm]
      exact ⟨by rw [hsame], by rw [hsame], by rw [hsame], by rw [hsame], rfl,
        fun _ => by rw [hsame]⟩

/-- Evaluation of C23 as amended on a clean graph in which nodes 1 and 2 descend from
node 0: after `touch(0)` with index 3, a touch of node 1, a `setValue` of 8 on node 1,
recomputations on nodes 1 and 0 and a second touch of node 0, `restore(0)` leaves node 0
with its cached value 2, not dirty, with nothing touched and with its value 1, and leaves
node 1 with its cached value 2 and the value 8 that was assigned. -/
theorem restore_after_touch_witness :
    ((restore (([Op.touch 1 none, Op.setValue 1 8, Op.refresh 1 7, Op.refresh 0 9,
        Op.touch 0 (some 4)] : List (Op ℝ)).foldl applyOp
          (touch (exampleState ℝ) 0 (some 3))) 0).node 0).cached = 2 ∧
    ((restore (([Op.touch 1 none, Op.setValue 1 8, Op.refresh 1 7, Op.refresh 0 9,
        Op.touch 0 (some 4)] : List (Op ℝ)).foldl applyOp
          (touch (exampleState ℝ) 0 (some 3))) 0).node 0).dirty = false ∧
    ((restore (([Op.touch 1 none, Op.setValue 1 8, Op.refresh 1 7, Op.refresh 0 9,
        Op.touch 0 (some 4)] : List (Op ℝ)).foldl applyOp
          (touch (exampleState ℝ) 0 (some 3))) 0).node 0).touched_elements = ∅ ∧
    ((restore (([Op.touch 1 none, Op.setValue 1 8, Op.refresh 1 7, Op.refresh 0 9,
        Op.touch 0 (some 4)] : List (Op ℝ)).foldl applyOp
          (touch (exampleState ℝ) 0 (some 3))) 0).node 0).value = 1 ∧
    ((restore (([Op.touch 1 none, Op.setValue 1 8, Op.refresh 1 7, Op.refresh 0 9,
        Op.touch 0 (some 4)] : List (Op ℝ)).foldl applyOp
          (touch (exampleState ℝ) 0 (some 3))) 0).node 1).cached = 2 ∧
    ((restore (([Op.touch 1 none, Op.setValue 1 8, Op.refresh 1 7, Op.refresh 0 9,
        Op.touch 0 (some 4)] : List (Op ℝ)).foldl applyOp
          (touch (exampleState ℝ) 0 (some 3))) 0).node 1).value = 8 := by
  obtain ⟨-, h⟩ := restore_after_touch (exampleState ℝ) 0 (some 3)
    [Op.touch 1 none, Op.setValue 1 8, Op.refresh 1 7, Op.refresh 0 9, Op.touch 0 (some 4)]
    (fun _ _ => ⟨rfl, rfl⟩)
    (by
      intro op hop
      simp only [List.mem_cons, List.mem_singleton, List.not_mem_nil, or_false] at hop
      rcases hop with rfl | rfl | rfl | rfl | rfl <;> simp [Op.target, exampleState])
  obtain ⟨-, c0, d0, t0, -, v0⟩ := h 0
  obtain ⟨-, c1, -, -, v1, -⟩ := h 1
  refine ⟨c0, d0, t0, ?_, c1, ?_⟩
  · refine v0 ?_
    intro op hop x
    simp only [List.mem_cons, List.mem_singleton, List.not_mem_nil, or_false] at hop
    rcases hop with rfl | rfl | rfl | rfl | rfl <;> simp
  · rw [v1]
    simp [applyOp, touch, refresh, setValue, touchNode, refreshNode, setValueNode,
      exampleState, Function.update]

/-- C23 as stated fails in two ways.  On a graph whose node 0 is dirty with index 1
touched, `touch(0)` followed by `restore(0)` leaves node 0 not dirty, with nothing touched
and with the stored cache, which is not the state immediately before the touch.  On a
clean graph, `touch(0)`, a `setValue` of 9 on node 0 and `restore(0)` leave node 0 with
the value 9, not with the value 1 it had before the touch. -/
theorem restore_after_touch_not_identical :
    ((restore (touch (exampleDirtyState ℝ) 0 none) 0).node 0).observable
      = (DagNodeType.STOCHASTIC, 1, 0, false, ∅) ∧
    ((exampleDirtyState ℝ).node 0).observable = (DagNodeType.STOCHASTIC, 1, 2, true, {1}) ∧
    ((restore (touch (exampleDirtyState ℝ) 0 none) 0).node 0).observable
      ≠ ((exampleDirtyState ℝ).node 0).observable ∧
    ((restore (applyOp (touch (exampleState ℝ) 0 none) (Op.setValue 0 9)) 0).node 0).value
      = 9 ∧
    ((exampleState ℝ).node 0).value = 1 ∧
    ((restore (applyOp (touch (exampleState ℝ) 0 none) (Op.setValue 0 9)) 0).node 0).observable
      ≠ ((exampleState ℝ).node 0).observable := by
  have e1 : ((restore (touch (exampleDirtyState ℝ) 0 none) 0).node 0).observable
      = (DagNodeType.STOCHASTIC, 1, 0, false, ∅) := by
    simp [restore, touch, touchNode, restoreNode, exampleDirtyState, Node.observable,
      Function.update]
  have e2 : ((exampleDirtyState ℝ).node 0).observable
      = (DagNodeType.STOCHASTIC, 1, 2, true, {1}) := by
    simp [exampleDirtyState, Node.observable]
  have e3 : ((restore (applyOp (touch (exampleState ℝ) 0 none) (Op.setValue 0 9)) 0).node
      0).value = 9 := by
    simp [restore, applyOp, setValue, setValueNode, touch, touchNode, restoreNode,
      exampleState, Function.update]
  have e4 : ((exampleState ℝ).node 0).value = 1 := rfl
  refine ⟨e1, e2, ?_, e3, e4, ?_⟩
  · rw [e1, e2]
    intro h
    have := congrArg (fun t => t.2.2.2.1) h
    simp at this
  · intro h
    have := congrArg (fun t => t.2.1) h
    simp only [Node.observable] at this
    rw [e3, e4] at this
    norm_num at this

end NodeGraph

namespace RateMatrix_revPoMoTwo2N

/-- C31. For positive `mu[0]`, `mu[1]`, `N` and harmonic number `H = digamma(N) -
digamma(1)`, `getStationaryFrequencies` returns a vector of three frequencies, each of
them positive, whose sum is 1. -/
theorem getStationaryFrequencies_positive_sum_one {E : Type} (digamma : ℝ → ℝ)
    (self : RateMatrix_revPoMoTwo2N ℝ E) (mu0 mu1 : ℝ)
    (h0 : self.mu[0]? = some mu0) (h1 : self.mu[1]? = some mu1)
    (hmu0 : 0 < mu0) (hmu1 : 0 < mu1) (hN : 0 < self.N)
    (hH : 0 < digamma self.N - digamma 1) :
    ∃ freqs, getStationaryFrequencies digamma self = some freqs ∧ freqs.length = 3 ∧
      (∀ i : Fin 3, 0 < freqs.getD i.val 0) ∧ (∀ x ∈ freqs, 0 < x) ∧ freqs.sum = 1 := by
  have hnc : 0 < mu0 + mu1 + 2 * mu0 * mu1 * self.N * (digamma self.N - digamma 1) := by
    positivity
  refine ⟨_, getStationaryFrequencies_eq digamma self mu0 mu1 h0 h1, rfl, ?_, ?_, ?_⟩
  · intro i
    fin_cases i
    · simp only [Fin.zero_eta, Fin.val_zero, List.getD_cons_zero]
      positivity
    · simp only [Fin.mk_one, Fin.val_one, List.getD_cons_succ, List.getD_cons_zero]
      positivity
    · simp only [Fin.reduceFinMk, Fin.val_two, List.getD_cons_succ, List.getD_cons_zero]
      positivity
  · intro x hx
    simp only [List.mem_cons, List.mem_singleton, List.not_mem_nil, or_false] at hx
    rcases hx with rfl | rfl | rfl <;> positivity
  · simp only [List.sum_cons, List.sum_nil, add_zero]
    generalize digamma self.N - digamma 1 = H at hH hnc
    generalize self.N = n at hN hnc
    field_simp
    ring

/-- Evaluation of C31 on the default rate matrix (`N = 2`, `mu = (0.01, 0.01)`), with the
harmonic number `H = 1` of `N - 1 = 1`. -/
theorem getStationaryFrequencies_positive_sum_one_witness :
    ∃ freqs, getStationaryFrequencies (fun x : ℝ => x) (exampleRateMatrix ℝ) = some freqs ∧
      freqs.length = 3 ∧ (∀ i : Fin 3, 0 < freqs.getD i.val 0) ∧ (∀ x ∈ freqs, 0 < x) ∧
      freqs.sum = 1 :=
  getStationaryFrequencies_positive_sum_one (fun x : ℝ => x) (exampleRateMatrix ℝ)
    (1 / 100) (1 / 100) rfl rfl (by norm_num) (by norm_num)
    (by simp only [exampleRateMatrix]; norm_num)
    (by simp only [exampleRateMatrix]; norm_num)

/-- C32. For positive `mu[0]`, `mu[1]`, `N` and harmonic number `H = digamma(N) -
digamma(1)`, `computeOffDiagonal` and `getStationaryFrequencies` return, and with `q` the
matrix set up by `computeOffDiagonal` and `pi` the stationary frequencies, every pair of
distinct states `i`, `j` satisfies detailed balance: `pi_i * q_ij = pi_j * q_ji`. -/
theorem computeOffDiagonal_reversible {E : Type} (digamma : ℝ → ℝ)
    (self : RateMatrix_revPoMoTwo2N ℝ E) (mu0 mu1 : ℝ)
    (h0 : self.mu[0]? = some mu0) (h1 : self.mu[1]? = some mu1)
    (hmu0 : 0 < mu0) (hmu1 : 0 < mu1) (hN : 0 < self.N)
    (hH : 0 < digamma self.N - digamma 1) :
    ∃ rm freqs, computeOffDiagonal digamma self = some rm ∧
      getStationaryFrequencies digamma self = some freqs ∧
      freqs.length = 3 ∧
      ∀ i j : Fin 3, i ≠ j →
        freqs.getD i.val 0 * rm.the_rate_matrix i j =
          freqs.getD j.val 0 * rm.the_rate_matrix j i := by
  have hv : 0 < 4 * mu0 * mu1 * self.N * (digamma self.N - digamma 1) := by positivity
  have hnc : 0 < mu0 + mu1 + 2 * mu0 * mu1 * self.N * (digamma self.N - digamma 1) := by
    positivity
  obtain ⟨rm, hrm, q02, q12, q20, q21, -, q01, q10, -, -, -, -, -⟩ :=
    computeOffDiagonal_entries digamma self mu0 mu1 h0 h1
  refine ⟨rm, _, hrm, getStationaryFrequencies_eq digamma self mu0 mu1 h0 h1, rfl, ?_⟩
  generalize digamma self.N - digamma 1 = H at hH hv hnc q02 q12 q20 q21
  generalize self.N = n at hN hv hnc q02 q12 q20 q21
  have b01 : (0 : ℝ) * rm.the_rate_matrix 0 1 = 0 * rm.the_rate_matrix 1 0 := by
    rw [zero_mul, zero_mul]
  intro i j hij
  fin_cases i <;> fin_cases j
  · exact absurd rfl hij
  · simp only [Fin.zero_eta, Fin.mk_one, Fin.val_zero, Fin.val_one, List.getD_cons_zero,
      List.getD_cons_succ]
    rw [q01, q10, mul_zero, mul_zero]
  · simp only [Fin.zero_eta, Fin.reduceFinMk, Fin.val_zero, Fin.val_two, List.getD_cons_zero,
      List.getD_cons_succ]
    rw [q02, q20]
    field_simp
    ring
  · simp only [Fin.zero_eta, Fin.mk_one, Fin.val_zero, Fin.val_one, List.getD_cons_zero,
      List.getD_cons_succ]
    rw [q01, q10, mul_zero, mul_zero]
  · exact absurd rfl hij
  · simp only [Fin.mk_one, Fin.reduceFinMk, Fin.val_one, Fin.val_two, List.getD_cons_zero,
      List.getD_cons_succ]
    rw [q12, q21]
    field_simp
    ring
  · simp only [Fin.zero_eta, Fin.reduceFinMk, Fin.val_zero, Fin.val_two, List.getD_cons_zero,
      List.getD_cons_succ]
    rw [q02, q20]
    field_simp
    ring
  · simp only [Fin.mk_one, Fin.reduceFinMk, Fin.val_one, Fin.val_two, List.getD_cons_zero,
      List.getD_cons_succ]
    rw [q12, q21]
    field_simp
    ring
  · exact absurd rfl hij

/-- Evaluation of C32 on the default rate matrix (`N = 2`, `mu = (0.01, 0.01)`), with the
harmonic number `H = 1` of `N - 1 = 1`. -/
theorem computeOffDiagonal_reversible_witness :
    ∃ rm freqs, computeOffDiagonal (fun x : ℝ => x) (exampleRateMatrix ℝ) = some rm ∧
      getStationaryFrequencies (fun x : ℝ => x) (exampleRateMatrix ℝ) = some freqs ∧
      freqs.length = 3 ∧
      ∀ i j : Fin 3, i ≠ j →
        freqs.getD i.val 0 * rm.the_rate_matrix i j =
          freqs.getD j.val 0 * rm.the_rate_matrix j i :=
  computeOffDiagonal_reversible (fun x : ℝ => x) (exampleRateMatrix ℝ) (1 / 100) (1 / 100)
    rfl rfl (by norm_num) (by norm_num) (by simp only [exampleRateMatrix]; norm_num)
    (by simp only [exampleRateMatrix]; norm_num)

end RateMatrix_revPoMoTwo2N

namespace AlleleFrequencySimulator

/-- The loop of `isVariable` finds an entry that differs from the reference. -/
theorem isVariableLoop_iff (ref : Int) (l : List Int) :
    isVariableLoop ref l = true ↔ ∃ x ∈ l, x ≠ ref := by
  induction l with
  | nil => simp [isVariableLoop]
  | cons a rest ih =>
    unfold isVariableLoop
    by_cases h : ref = a
    · rw [if_neg (not_not.mpr h), ih]
      constructor
      · rintro ⟨x, hx, hne⟩
        exact ⟨x, List.mem_cons_of_mem _ hx, hne⟩
      · rintro ⟨x, hx, hne⟩
        rcases List.mem_cons.mp hx with rfl | hx
        · exact absurd h.symm hne
        · exact ⟨x, hx, hne⟩
    · rw [if_pos h]
      exact ⟨fun _ => ⟨a, List.mem_cons_self _ _, fun e => h e.symm⟩, fun _ => rfl⟩

/-- C34. On a non-empty site pattern `isVariable` returns, and it returns true if and only
if some entry of the pattern differs from the first entry, which is the case if and only
if the entries of the pattern are not all equal. -/
theorem isVariable_iff (site_pattern : List Int) (hne : site_pattern ≠ []) :
    ∃ b ref, isVariable site_pattern = some b ∧ site_pattern[0]? = some ref ∧
      (b = true ↔ ∃ (i : Nat) (x : Int), site_pattern[i]? = some x ∧ x ≠ ref) ∧
      (b = true ↔ ¬ ∀ x ∈ site_pattern, ∀ y ∈ site_pattern, x = y) := by
  cases site_pattern with
  | nil => exact absurd rfl hne
  | cons ref rest =>
    refine ⟨isVariableLoop ref rest, ref, ?_, List.getElem?_cons_zero, ?_, ?_⟩
    · simp only [isVariable, List.getElem?_cons_zero, List.drop_succ_cons, List.drop_zero]
    · rw [isVariableLoop_iff]
      constructor
      · rintro ⟨x, hx, hxne⟩
        obtain ⟨i, hi⟩ := List.getElem?_of_mem hx
        exact ⟨i + 1, x, by rw [List.getElem?_cons_succ]; exact hi, hxne⟩
      · rintro ⟨i, x, hi, hxne⟩
        cases i with
        | zero =>
          rw [List.getElem?_cons_zero] at hi
          exact absurd (Option.some.inj hi).symm hxne
        | succ i =>
          rw [List.getElem?_cons_succ] at hi
          exact ⟨x, List.getElem?_mem hi, hxne⟩
    · rw [isVariableLoop_iff]
      constructor
      · rintro ⟨x, hx, hxne⟩ hall
        exact hxne (hall x (List.mem_cons_of_mem _ hx) ref (List.mem_cons_self _ _))
      · intro hnot
        by_contra hno
        apply hnot
        have hall : ∀ x ∈ ref :: rest, x = ref := by
          intro x hx
          rcases List.mem_cons.mp hx with rfl | hx
          · rfl
          · by_contra hxne
            exact hno ⟨x, hx, hxne⟩
        intro x hx y hy
        rw [hall x hx, hall y hy]

/-- Evaluation of C34 on the site pattern `(2, 2, 3)`. -/
theorem isVariable_iff_witness :
    ∃ b ref, isVariable [2, 2, 3] = some b ∧ ([2, 2, 3] : List Int)[0]? = some ref ∧
      (b = true ↔ ∃ (i : Nat) (x : Int), ([2, 2, 3] : List Int)[i]? = some x ∧ x ≠ ref) ∧
      (b = true ↔ ¬ ∀ x ∈ ([2, 2, 3] : List Int), ∀ y ∈ ([2, 2, 3] : List Int), x = y) :=
  isVariable_iff [2, 2, 3] (by decide)


/-- The conversion to `long` of an integer population size less one. -/
theorem toLong_intCast_sub_one {K : Type} [LinearOrderedField K] [FloorRing K] (N : Int)
    (hN : 1 ≤ N) : toLong ((N : K) - 1) = N - 1 := by
  have e : (N : K) - 1 = ((N - 1 : Int) : K) := by push_cast; ring
  have h0 : (0 : K) ≤ ((N - 1 : Int) : K) := by
    exact_mod_cast (by omega : (0 : Int) ≤ N - 1)
  unfold toLong
  rw [e, if_pos h0, Int.floor_intCast]

/-- One pass through the loop body keeps the state between 0 and an integer population
size and moves it by at most one. -/
theorem simulateAlongBranchStep_range {K : Type} [LinearOrderedField K] [FloorRing K]
    (d : RandomDraws K) (N : Int) (gt bl r0 r1 : K) (st : BranchState K) (hN : 1 ≤ N)
    (h0 : 0 ≤ st.current_state) (h1 : st.current_state ≤ N) :
    0 ≤ (simulateAlongBranchStep d (N : K) gt bl r0 r1 st).current_state ∧
    (simulateAlongBranchStep d (N : K) gt bl r0 r1 st).current_state ≤ N ∧
    |(simulateAlongBranchStep d (N : K) gt bl r0 r1 st).current_state - st.current_state|
      ≤ 1 := by
  have habs0 : |st.current_state - st.current_state| ≤ 1 := by
    rw [sub_self, abs_zero]; exact zero_le_one
  unfold simulateAlongBranchStep
  by_cases hpoly : 0 < st.current_state ∧ (st.current_state : K) < (N : K)
  · have hlt : st.current_state < N := by exact_mod_cast hpoly.2
    rw [if_pos hpoly]
    dsimp only
    split
    · split
      · refine ⟨by dsimp only; omega, by dsimp only; omega, ?_⟩
        dsimp only
        rw [add_sub_cancel_left, abs_one]
      · exact ⟨h0, h1, habs0⟩
    · split
      · refine ⟨by dsimp only; omega, by dsimp only; omega, ?_⟩
        dsimp only
        rw [sub_sub_cancel_left, abs_neg, abs_one]
      · exact ⟨h0, h1, habs0⟩
  · rw [if_neg hpoly]
    by_cases hz : st.current_state = 0
    · rw [if_pos hz]
      dsimp only
      split
      · refine ⟨by dsimp only; omega, by dsimp only; omega, ?_⟩
        dsimp only
        rw [hz, sub_zero, abs_one]
      · exact ⟨h0, h1, habs0⟩
    · rw [if_neg hz]
      by_cases hfix : (st.current_state : K) = (N : K)
      · have hsN : st.current_state = N := by exact_mod_cast hfix
        rw [if_pos hfix]
        dsimp only
        split
        · dsimp only
          rw [toLong_intCast_sub_one N hN, hsN]
          refine ⟨by omega, by omega, ?_⟩
          rw [sub_sub_cancel_left, abs_neg, abs_one]
        · exact ⟨h0, h1, habs0⟩
      · rw [if_neg hfix]
        exact ⟨h0, h1, habs0⟩

/-- Whatever the fuel, the loop hands back a state in the range it was started in. -/
theorem simulateAlongBranchLoop_range {K : Type} [LinearOrderedField K] [FloorRing K]
    (d : RandomDraws K) (N : Int) (gt bl r0 r1 : K) (hN : 1 ≤ N) (fuel : Nat) :
    ∀ st st0 : BranchState K, 0 ≤ st.current_state → st.current_state ≤ N →
      simulateAlongBranchLoop d (N : K) gt bl r0 r1 fuel st = some st0 →
      0 ≤ st0.current_state ∧ st0.current_state ≤ N := by
  induction fuel with
  | zero =>
    intro st st0 _ _ h
    simp only [simulateAlongBranchLoop] at h
    cases h
  | succ fuel ih =>
    intro st st0 h0 h1 h
    simp only [simulateAlongBranchLoop] at h
    by_cases hc : st.current_time < bl
    · rw [if_pos hc] at h
      obtain ⟨s0, s1, -⟩ := simulateAlongBranchStep_range d N gt bl r0 r1 st hN h0 h1
      exact ih _ st0 s0 s1 h
    · rw [if_neg hc] at h
      cases h
      exact ⟨h0, h1⟩

/-- One pass through the loop body advances the time by at least one generation, when
the generation time is positive and the geometric waiting times are not negative. -/
theorem simulateAlongBranchStep_time {K : Type} [LinearOrderedField K] [FloorRing K]
    (d : RandomDraws K) (N gt bl r0 r1 : K) (st : BranchState K) (hgt : 0 < gt)
    (hgeo : ∀ x i, 0 ≤ d.geometric x i) :
    st.current_time + gt ≤ (simulateAlongBranchStep d N gt bl r0 r1 st).current_time := by
  have hw : ∀ x i, st.current_time + gt ≤
      st.current_time + gt + ((d.geometric x i : Int) : K) * gt := by
    intro x i
    have : (0 : K) ≤ ((d.geometric x i : Int) : K) := by exact_mod_cast hgeo x i
    have := mul_nonneg this hgt.le
    linarith
  unfold simulateAlongBranchStep
  dsimp only
  split
  · split
    · split <;> exact le_refl _
    · split <;> exact le_refl _
  · split
    · split <;> exact hw _ _
    · split
      · split <;> exact hw _ _
      · exact le_refl _

/-- Enough fuel: the loop returns once the fuel covers the generations left on the
branch. -/
theorem simulateAlongBranchLoop_returns {K : Type} [LinearOrderedField K] [FloorRing K]
    (d : RandomDraws K) (N gt bl r0 r1 : K) (hgt : 0 < gt)
    (hgeo : ∀ x i, 0 ≤ d.geometric x i) (fuel : Nat) :
    ∀ st : BranchState K, bl ≤ st.current_time + (fuel : K) * gt →
      ∃ st0, simulateAlongBranchLoop d N gt bl r0 r1 (fuel + 1) st = some st0 := by
  induction fuel with
  | zero =>
    intro st h
    rw [Nat.cast_zero, zero_mul, add_zero] at h
    exact ⟨st, by simp only [simulateAlongBranchLoop]; rw [if_neg (not_lt.mpr h)]⟩
  | succ fuel ih =>
    intro st h
    by_cases hc : st.current_time < bl
    · have ht := simulateAlongBranchStep_time d N gt bl r0 r1 st hgt hgeo
      have h2 : bl ≤ (simulateAlongBranchStep d N gt bl r0 r1 st).current_time +
          (fuel : K) * gt := by
        rw [Nat.cast_succ, add_mul, one_mul] at h
        linarith
      obtain ⟨st0, hst0⟩ := ih _ h2
      refine ⟨st0, ?_⟩
      rw [simulateAlongBranchLoop, if_pos hc]
      exact hst0
    · exact ⟨st, by rw [simulateAlongBranchLoop, if_neg hc]⟩

/-- C33. For an integer population size `N >= 1`, a start state between 0 and `N`, any
branch length and any draws: every pass through the loop body of `simulateAlongBranch`
that starts from a state between 0 and `N` ends in a state between 0 and `N` at most one
away from it; whatever the fuel, a state that `simulateAlongBranch` returns lies between
0 and `N`; and with a positive generation time and geometric waiting times that are not
negative, `simulateAlongBranch` returns once the fuel is large enough. -/
theorem simulateAlongBranch_range (sim : AlleleFrequencySimulator ℝ) (d : RandomDraws ℝ)
    (N root_start_state : Int) (branch_length : ℝ) (rng : Nat) (m0 m1 : ℝ)
    (hm0 : sim.mutation_rates[0]? = some m0) (hm1 : sim.mutation_rates[1]? = some m1)
    (hN : 1 ≤ N) (h0 : 0 ≤ root_start_state) (h1 : root_start_state ≤ N) :
    (∀ (gt r0 r1 : ℝ) (st : BranchState ℝ), 0 ≤ st.current_state → st.current_state ≤ N →
      0 ≤ (simulateAlongBranchStep d (N : ℝ) gt branch_length r0 r1 st).current_state ∧
      (simulateAlongBranchStep d (N : ℝ) gt branch_length r0 r1 st).current_state ≤ N ∧
      |(simulateAlongBranchStep d (N : ℝ) gt branch_length r0 r1 st).current_state
        - st.current_state| ≤ 1) ∧
    (∀ fuel s r,
      simulateAlongBranch sim d fuel (N : ℝ) root_start_state branch_length rng = some (s, r) →
      0 ≤ s ∧ s ≤ N) ∧
    (0 < sim.generation_time → (∀ x i, 0 ≤ d.geometric x i) →
      ∃ fuel0, ∀ fuel, fuel0 ≤ fuel → ∃ s r,
        simulateAlongBranch sim d fuel (N : ℝ) root_start_state branch_length rng
          = some (s, r) ∧ 0 ≤ s ∧ s ≤ N) := by
  have hrange : ∀ fuel s r,
      simulateAlongBranch sim d fuel (N : ℝ) root_start_state branch_length rng = some (s, r) →
      0 ≤ s ∧ s ≤ N := by
    intro fuel s r h
    simp only [simulateAlongBranch, hm0, hm1, Option.map_eq_some'] at h
    obtain ⟨st0, hst0, hs⟩ := h
    have := simulateAlongBranchLoop_range d N _ branch_length _ _ hN fuel _ st0 h0 h1 hst0
    rw [← (Prod.mk.inj hs).1]
    exact this
  refine ⟨?_, hrange, ?_⟩
  · intro gt r0 r1 st hs0 hs1
    exact simulateAlongBranchStep_range d N gt branch_length r0 r1 st hN hs0 hs1
  · intro hg hgeo
    have hNpos : (0 : ℝ) < (N : ℝ) := by exact_mod_cast (by omega : (0 : Int) < N)
    have hgt : 0 < (if sim.moran_generations then sim.generation_time / (N : ℝ)
        else sim.generation_time) := by
      split
      · exact div_pos hg hNpos
      · exact hg
    obtain ⟨n, hn⟩ := exists_nat_ge (branch_length /
      (if sim.moran_generations then sim.generation_time / (N : ℝ) else sim.generation_time))
    rw [div_le_iff₀ hgt] at hn
    refine ⟨n + 1, ?_⟩
    intro fuel hfuel
    obtain ⟨k, rfl⟩ : ∃ k, fuel = k + 1 := ⟨fuel - 1, by omega⟩
    have hk : branch_length ≤ (0 : ℝ) + (k : ℝ) *
        (if sim.moran_generations then sim.generation_time / (N : ℝ)
          else sim.generation_time) := by
      rw [zero_add]
      refine le_trans hn (mul_le_mul_of_nonneg_right ?_ hgt.le)
      exact_mod_cast (by omega : n ≤ k)
    obtain ⟨st0, hst0⟩ := simulateAlongBranchLoop_returns d (N : ℝ) _ branch_length
      (m0 / sim.generation_time) (m1 / sim.generation_time) hgt hgeo k
      { current_time := 0, current_state := root_start_state, rng := rng } hk
    have hres : simulateAlongBranch sim d (k + 1) (N : ℝ) root_start_state branch_length rng
        = some (st0.current_state, st0.rng) := by
      simp only [simulateAlongBranch, hm0, hm1, hst0, Option.map_some']
    exact ⟨_, _, hres, hrange _ _ _ hres⟩

/-- Evaluation of C33 on the example simulator with population size 2, start state 1,
branch length 3 and the constant draws. -/
theorem simulateAlongBranch_range_witness :
    (∀ (gt r0 r1 : ℝ) (st : BranchState ℝ), 0 ≤ st.current_state →
      st.current_state ≤ (2 : Int) →
      0 ≤ (simulateAlongBranchStep (exampleDraws ℝ) ((2 : Int) : ℝ) gt 3 r0 r1
        st).current_state ∧
      (simulateAlongBranchStep (exampleDraws ℝ) ((2 : Int) : ℝ) gt 3 r0 r1
        st).current_state ≤ (2 : Int) ∧
      |(simulateAlongBranchStep (exampleDraws ℝ) ((2 : Int) : ℝ) gt 3 r0 r1
        st).current_state - st.current_state| ≤ 1) ∧
    (∀ fuel s r,
      simulateAlongBranch (exampleSimulator ℝ) (exampleDraws ℝ) fuel ((2 : Int) : ℝ) 1 3 0
        = some (s, r) →
      0 ≤ s ∧ s ≤ (2 : Int)) ∧
    (0 < (exampleSimulator ℝ).generation_time →
      (∀ x i, 0 ≤ (exampleDraws ℝ).geometric x i) →
      ∃ fuel0, ∀ fuel, fuel0 ≤ fuel → ∃ s r,
        simulateAlongBranch (exampleSimulator ℝ) (exampleDraws ℝ) fuel ((2 : Int) : ℝ) 1 3 0
          = some (s, r) ∧ 0 ≤ s ∧ s ≤ (2 : Int)) :=
  simulateAlongBranch_range (exampleSimulator ℝ) (exampleDraws ℝ) 2 1 3 0 (1 / 100)
    (1 / 100) rfl rfl (by decide) (by decide) (by decide)

end AlleleFrequencySimulator

namespace CoalescentSFSSimulator

/-- Consecutive entries of an ascending list. -/
theorem sorted_getElem?_succ {K : Type} [LinearOrderedField K] (l : List K)
    (hs : l.Sorted (fun a b => a ≤ b)) (i : Nat) (a b : K) (ha : l[i]? = some a)
    (hb : l[i + 1]? = some b) : a ≤ b := by
  obtain ⟨hi, rfl⟩ := List.getElem?_eq_some.mp ha
  obtain ⟨hj, rfl⟩ := List.getElem?_eq_some.mp hb
  exact (List.pairwise_iff_getElem.mp hs) i (i + 1) hi hj (Nat.lt_succ_self i)

/-- The first loop of `simulateCoalescentTime` returns with fuel for the change points
left, at an interval that has no change point or whose change point is not before
`current_age`. -/
theorem findInterval_spec {K : Type} [LinearOrderedField K] (sim : CoalescentSFSSimulator K)
    (current_age : K) (fuel : Nat) :
    ∀ i, i ≤ sim.change_points.length → sim.change_points.length + 1 ≤ fuel + i →
      ∃ k, findInterval sim current_age fuel i = some k ∧ k ≤ sim.change_points.length ∧
        ∀ c, sim.change_points[k]? = some c → current_age ≤ c := by
  induction fuel with
  | zero =>
    intro i hi hf
    omega
  | succ fuel ih =>
    intro i hi hf
    rw [findInterval]
    cases hc : sim.change_points[i]? with
    | none =>
      refine ⟨i, rfl, hi, ?_⟩
      intro c h
      rw [hc] at h
      cases h
    | some c =>
      have hlt : i < sim.change_points.length := (List.getElem?_eq_some.mp hc).1
      by_cases hgt : current_age > c
      · simp only [hgt, if_true]
        exact ih (i + 1) hlt (by omega)
      · simp only [hgt, if_false]
        refine ⟨i, rfl, hi, ?_⟩
        intro c2 h
        rw [hc] at h
        cases h
        exact not_lt.mp hgt

/-- The `do ... while` loop of `simulateCoalescentTime`, started at an interval whose
change point, if there is one, is not before the time reached: it returns with fuel for
the intervals left, makes one draw for each interval it visits, and returns a time that is
not before the time it was started at. -/
theorem coalescentTimeLoop_spec {K : Type} [LinearOrderedField K]
    (sim : CoalescentSFSSimulator K) (d : RandomDraws K) (num_active : Nat)
    (hsorted : sim.change_points.Sorted (fun a b => a ≤ b))
    (hsizes : sim.change_points.length + 1 ≤ sim.population_sizes.length)
    (hdraws : ∀ x i, 0 ≤ d.exponential x i) (fuel : Nat) :
    ∀ (i : Nat) (t : K) (rng : Nat), i ≤ sim.change_points.length →
      sim.change_points.length + 1 ≤ fuel + i →
      (∀ c, sim.change_points[i]? = some c → t ≤ c) →
      ∃ t1 rng1, coalescentTimeLoop sim d num_active fuel i t rng = some (t1, rng1) ∧
        t ≤ t1 ∧ rng < rng1 ∧ rng1 + i ≤ rng + sim.change_points.length + 1 := by
  induction fuel with
  | zero =>
    intro i t rng hi hf
    omega
  | succ fuel ih =>
    intro i t rng hi hf ht
    have hps : i < sim.population_sizes.length := by omega
    rw [coalescentTimeLoop, List.getElem?_eq_getElem hps]
    dsimp only
    have hu := hdraws
      (((num_active * ((num_active + (2 ^ 64 - 1)) % 2 ^ 64) % 2 ^ 64 : Nat) : K) / 2 /
        (sim.population_sizes[i] * sim.ploidy_factor)) rng
    by_cases hlast : i = sim.change_points.length
    · rw [if_pos hlast]
      exact ⟨_, _, rfl, le_add_of_nonneg_right hu, Nat.lt_succ_self _, by omega⟩
    · rw [if_neg hlast]
      have hlt : i < sim.change_points.length := by omega
      have hc : sim.change_points[i]? = some sim.change_points[i] :=
        List.getElem?_eq_getElem hlt
      rw [hc]
      dsimp only
      by_cases hvalid : t + d.exponential
          (((num_active * ((num_active + (2 ^ 64 - 1)) % 2 ^ 64) % 2 ^ 64 : Nat) : K) / 2 /
            (sim.population_sizes[i] * sim.ploidy_factor)) rng < sim.change_points[i]
      · rw [if_pos hvalid]
        exact ⟨_, _, rfl, le_add_of_nonneg_right hu, Nat.lt_succ_self _, by omega⟩
      · rw [if_neg hvalid]
        obtain ⟨t1, rng1, h1, ht1, hr1, hr2⟩ := ih (i + 1) sim.change_points[i] (rng + 1)
          hlt (by omega)
          (fun c hc2 => sorted_getElem?_succ sim.change_points hsorted i _ c hc hc2)
        exact ⟨t1, rng1, h1, le_trans (ht _ hc) ht1, by omega, by omega⟩

/-- C35. For change points in ascending order, at least one more population size than
change points (the constructor is handed exactly one more) and exponential waiting times
that are not negative, `simulateCoalescentTime` returns whenever the fuel covers the
change points, so no vector is read out of range; it makes at least one and at most
(number of change points + 1) draws, and the time it returns is not before
`current_age`. -/
theorem simulateCoalescentTime_spec (sim : CoalescentSFSSimulator ℝ) (d : RandomDraws ℝ)
    (fuel : Nat) (current_age : ℝ) (num_active rng : Nat)
    (hsorted : sim.change_points.Sorted (fun a b => a ≤ b))
    (hsizes : sim.population_sizes.length = sim.change_points.length + 1)
    (hdraws : ∀ x i, 0 ≤ d.exponential x i)
    (hfuel : sim.change_points.length + 1 ≤ fuel) :
    ∃ t rng1, simulateCoalescentTime sim d fuel current_age num_active rng = some (t, rng1) ∧
      rng < rng1 ∧ rng1 ≤ rng + (sim.change_points.length + 1) ∧ current_age ≤ t := by
  obtain ⟨k, hk, hkl, hkc⟩ := findInterval_spec sim current_age fuel 0 (Nat.zero_le _)
    (by omega)
  obtain ⟨t, rng1, h, ht, hr1, hr2⟩ := coalescentTimeLoop_spec sim d num_active hsorted
    (by omega) hdraws fuel k current_age rng hkl (by omega) hkc
  refine ⟨t, rng1, ?_, hr1, by omega, ht⟩
  simp only [simulateCoalescentTime, hk]
  exact h

/-- Evaluation of C35 on the example simulator (population sizes `(1, 2)`, change point
1) with the constant draws, from the age `1 / 2` with three active lineages. -/
theorem simulateCoalescentTime_spec_witness :
    ∃ t rng1, simulateCoalescentTime (exampleSimulator ℝ) (exampleDraws ℝ) 2 (1 / 2) 3 0
        = some (t, rng1) ∧
      0 < rng1 ∧ rng1 ≤ 0 + ((exampleSimulator ℝ).change_points.length + 1) ∧
      (1 / 2 : ℝ) ≤ t :=
  simulateCoalescentTime_spec (exampleSimulator ℝ) (exampleDraws ℝ) 2 (1 / 2) 3 0
    (by simp [exampleSimulator]) rfl
    (by intro x i; simp only [exampleDraws]; exact zero_le_one) (le_refl _)


/-- The state handed to a child is 0 or 1 when the state of the parent is. -/
theorem childState_range (s : Int) (k : Nat) (hs : s = 0 ∨ s = 1) :
    childState s k = 0 ∨ childState s k = 1 := by
  unfold childState
  split
  · right
    split <;> rfl
  · exact hs

/-- Writing 0 or 1 into a tip leaves the tips that hold 0 or 1 so, and makes the written
tip one of them. -/
theorem getElem?_set_range (ts : List Int) (p : Nat) (s : Int) (hp : p < ts.length)
    (hs : s = 0 ∨ s = 1) (t : Nat)
    (h : (ts[t]? = some 0 ∨ ts[t]? = some 1) ∨ t = p) :
    (ts.set p s)[t]? = some 0 ∨ (ts.set p s)[t]? = some 1 := by
  by_cases htp : p = t
  · subst htp
    rw [List.getElem?_set_self hp]
    rcases hs with rfl | rfl
    · exact Or.inl rfl
    · exact Or.inr rfl
  · rw [List.getElem?_set_ne htp]
    rcases h with h | h
    · exact h
    · exact absurd h.symm htp

/-- `simulateMutations` on a genealogy in which every inner node has its two children
before it: with fuel for the nodes up to the one it is called on and a state 0 or 1, it
returns, keeps the number of tips, leaves every tip that holds 0 or 1 holding 0 or 1, and
every tip below the node holds 0 or 1 afterwards. -/
theorem simulateMutations_spec {K : Type} [LinearOrderedField K]
    (sim : CoalescentSFSSimulator K) (d : RandomDraws K) (children : List (Nat × Nat))
    (ages : List K) (n : Nat)
    (hwf : ∀ p, n ≤ p → p < ages.length → ∃ l r, children[p]? = some (l, r) ∧ l < p ∧ r < p)
    (fuel : Nat) :
    ∀ (p : Nat) (s : Int) (ts : List Int) (rng : Nat), ts.length = n → p < ages.length →
      p < fuel → (s = 0 ∨ s = 1) →
      ∃ ts1 m rng1, simulateMutations sim d children ages fuel p s ts rng
          = some (ts1, m, rng1) ∧ ts1.length = n ∧
        ∀ t, ((ts[t]? = some 0 ∨ ts[t]? = some 1) ∨ Below children n p t) →
          (ts1[t]? = some 0 ∨ ts1[t]? = some 1) := by
  induction fuel with
  | zero =>
    intro p s ts rng _ _ hf
    omega
  | succ fuel ih =>
    intro p s ts rng hts hp hf hs
    rw [simulateMutations]
    by_cases htip : p < ts.length
    · rw [if_pos htip]
      refine ⟨_, _, _, rfl, by rw [List.length_set, hts], ?_⟩
      intro t ht
      refine getElem?_set_range ts p s htip hs t ?_
      rcases ht with ht | ht
      · exact Or.inl ht
      · right
        cases ht with
        | tip _ => rfl
        | left _ l r _ hnp _ _ => omega
        | right _ l r _ hnp _ _ => omega
    · rw [if_neg htip]
      have hnp : n ≤ p := by omega
      obtain ⟨l, r, hc, hl, hr⟩ := hwf p hnp hp
      have hagep : ages[p]? = some ages[p] := List.getElem?_eq_getElem hp
      have hla : l < ages.length := by omega
      have hra : r < ages.length := by omega
      have hagel : ages[l]? = some ages[l] := List.getElem?_eq_getElem hla
      have hager : ages[r]? = some ages[r] := List.getElem?_eq_getElem hra
      obtain ⟨ts1, m1, rng1, h1, hlen1, hgood1⟩ := ih l
        (childState s (d.poisson (sim.mutation_rate * (ages[p] - ages[l])) rng))
        ts (rng + 1) hts hla (by omega) (childState_range _ _ hs)
      obtain ⟨ts2, m2, rng2, h2, hlen2, hgood2⟩ := ih r
        (childState s (d.poisson (sim.mutation_rate * (ages[p] - ages[r])) rng1))
        ts1 (rng1 + 1) hlen1 hra (by omega) (childState_range _ _ hs)
      simp only [hc, hagep, hagel, hager, h1, h2]
      refine ⟨_, _, _, rfl, hlen2, ?_⟩
      intro t ht
      rcases ht with ht | ht
      · exact hgood2 t (Or.inl (hgood1 t (Or.inl ht)))
      · cases ht with
        | tip _ htn => omega
        | left _ l2 r2 _ _ hc2 hb =>
          rw [hc] at hc2
          obtain ⟨rfl, rfl⟩ := Prod.mk.inj (Option.some.inj hc2)
          exact hgood2 t (Or.inl (hgood1 t (Or.inr hb)))
        | right _ l2 r2 _ _ hc2 hb =>
          rw [hc] at hc2
          obtain ⟨rfl, rfl⟩ := Prod.mk.inj (Option.some.inj hc2)
          exact hgood2 t (Or.inr hb)


/-- The `do ... while` loop of `simulateCoalescentTime` returns when there is a population
size for every interval and the fuel covers the intervals left. -/
theorem coalescentTimeLoop_returns {K : Type} [LinearOrderedField K]
    (sim : CoalescentSFSSimulator K) (d : RandomDraws K) (num_active : Nat)
    (hsizes : sim.change_points.length + 1 ≤ sim.population_sizes.length) (fuel : Nat) :
    ∀ (i : Nat) (t : K) (rng : Nat), i ≤ sim.change_points.length →
      sim.change_points.length + 1 ≤ fuel + i →
      ∃ t1 rng1, coalescentTimeLoop sim d num_active fuel i t rng = some (t1, rng1) := by
  induction fuel with
  | zero =>
    intro i t rng hi hf
    omega
  | succ fuel ih =>
    intro i t rng hi hf
    have hps : i < sim.population_sizes.length := by omega
    rw [coalescentTimeLoop, List.getElem?_eq_getElem hps]
    dsimp only
    by_cases hlast : i = sim.change_points.length
    · rw [if_pos hlast]
      exact ⟨_, _, rfl⟩
    · rw [if_neg hlast]
      have hlt : i < sim.change_points.length := by omega
      rw [List.getElem?_eq_getElem hlt]
      dsimp only
      split
      · exact ⟨_, _, rfl⟩
      · exact ih (i + 1) _ (rng + 1) hlt (by omega)

/-- `simulateCoalescentTime` returns when there is a population size for every interval
and the fuel covers the change points. -/
theorem simulateCoalescentTime_returns {K : Type} [LinearOrderedField K]
    (sim : CoalescentSFSSimulator K) (d : RandomDraws K) (fuel : Nat) (current_age : K)
    (num_active rng : Nat)
    (hsizes : sim.change_points.length + 1 ≤ sim.population_sizes.length)
    (hfuel : sim.change_points.length + 1 ≤ fuel) :
    ∃ t rng1, simulateCoalescentTime sim d fuel current_age num_active rng
      = some (t, rng1) := by
  obtain ⟨k, hk, hkl, -⟩ := findInterval_spec sim current_age fuel 0 (Nat.zero_le _)
    (by omega)
  obtain ⟨t, rng1, h⟩ := coalescentTimeLoop_returns sim d num_active hsizes fuel k
    current_age rng hkl (by omega)
  refine ⟨t, rng1, ?_⟩
  simp only [simulateCoalescentTime, hk]
  exact h

/-- A uniform draw in `[0, 1)` times a count converts to an index below the count. -/
theorem toSizeT_lt {K : Type} [LinearOrderedField K] [FloorRing K] (u : K) (m : Nat)
    (hu0 : 0 ≤ u) (hu1 : u < 1) (hm : 0 < m) (hm2 : m < 2 ^ 64) :
    ∃ i, toSizeT (u * (m : K)) = some i ∧ i < m := by
  have hmK : (0 : K) < (m : K) := by exact_mod_cast hm
  have h0 : 0 ≤ u * (m : K) := mul_nonneg hu0 hmK.le
  have h1 : u * (m : K) < (m : K) := by
    have := mul_lt_mul_of_pos_right hu1 hmK
    rwa [one_mul] at this
  have h2 : (m : K) < 2 ^ 64 := by exact_mod_cast hm2
  have hf0 : 0 ≤ ⌊u * (m : K)⌋ := Int.floor_nonneg.mpr h0
  have hf1 : ⌊u * (m : K)⌋ < (m : Int) := Int.floor_lt.mpr (by exact_mod_cast h1)
  refine ⟨Int.toNat ⌊u * (m : K)⌋, ?_, by omega⟩
  unfold toSizeT
  rw [if_pos ⟨by linarith, by linarith⟩]

/-- Writing the children of a new node leaves the descent from the nodes before it as it
is. -/
theorem below_set (children : List (Nat × Nat)) (n np : Nat) (x : Nat × Nat)
    (hwf : ∀ p, n ≤ p → p < np → ∃ l r, children[p]? = some (l, r) ∧ l < p ∧ r < p)
    (a t : Nat) (h : Below children n a t) :
    a < np → Below (children.set np x) n a t := by
  induction h with
  | tip t ht =>
    intro _
    exact Below.tip t ht
  | left p l r t hp hc _ ih =>
    intro hlt
    obtain ⟨l2, r2, hc2, hl2, -⟩ := hwf p hp hlt
    rw [hc] at hc2
    obtain ⟨rfl, rfl⟩ := Prod.mk.inj (Option.some.inj hc2)
    refine Below.left p l r t hp ?_ (ih (by omega))
    rw [List.getElem?_set_ne (by omega)]
    exact hc
  | right p l r t hp hc _ ih =>
    intro hlt
    obtain ⟨l2, r2, hc2, -, hr2⟩ := hwf p hp hlt
    rw [hc] at hc2
    obtain ⟨rfl, rfl⟩ := Prod.mk.inj (Option.some.inj hc2)
    refine Below.right p l r t hp ?_ (ih (by omega))
    rw [List.getElem?_set_ne (by omega)]
    exact hc

/-- Inserting the elements of a list one after the other gives the elements inserted so
far, in some order. -/
theorem foldl_insert_perm (insert : List Nat → Nat → List Nat)
    (hins : ∀ l x, (insert l x).Perm (x :: l)) (l : List Nat) :
    ∀ init, (l.foldl insert init).Perm (init ++ l) := by
  induction l with
  | nil =>
    intro init
    rw [List.foldl_nil, List.append_nil]
  | cons x rest ih =>
    intro init
    rw [List.foldl_cons]
    refine (ih (insert init x)).trans ?_
    refine ((hins init x).append_right rest).trans ?_
    exact List.perm_middle.symm

/-- One pass through the body of the coalescent loop with at least two active lineages:
it returns, keeps the invariant with one lineage less, and leaves the tip states and the
spectrum as they are. -/
theorem coalesce_spec {K : Type} [LinearOrderedField K] [FloorRing K]
    (sim : CoalescentSFSSimulator K) (d : RandomDraws K)
    (insert : List Nat → Nat → List Nat) (fuel n num_active : Nat) (st : Locals K)
    (hsizes : sim.change_points.length + 1 ≤ sim.population_sizes.length)
    (hfuel : sim.change_points.length + 1 ≤ fuel)
    (hunif : ∀ i, 0 ≤ d.uniform01 i ∧ d.uniform01 i < 1)
    (hins : ∀ l x, (insert l x).Perm (x :: l))
    (hn : n < 2 ^ 64) (h2 : 2 ≤ num_active) (hinv : Coalescing n num_active st) :
    ∃ st1, coalesce sim d insert fuel num_active st = some st1 ∧
      Coalescing n (num_active - 1) st1 ∧ st1.tip_state = st.tip_state ∧
      st1.sfs = st.sfs := by
  obtain ⟨hsized, -, hmade, htotal, hlength, hbound, -, hparent, hcover⟩ := hinv
  obtain ⟨tc, rng1, htime⟩ := simulateCoalescentTime_returns sim d fuel st.current_time
    num_active st.rng hsizes hfuel
  obtain ⟨li, hli, hlilt⟩ := toSizeT_lt (d.uniform01 rng1) num_active (hunif rng1).1
    (hunif rng1).2 (by omega) (by omega)
  have hli2 : li < st.active_lineages.length := by omega
  obtain ⟨left, hleft⟩ : ∃ x, st.active_lineages[li]? = some x :=
    ⟨_, List.getElem?_eq_getElem hli2⟩
  obtain ⟨ri, hri, hrilt⟩ := toSizeT_lt (d.uniform01 (rng1 + 1)) (num_active - 1)
    (hunif (rng1 + 1)).1 (hunif (rng1 + 1)).2 (by omega) (by omega)
  have hlen1 : (st.active_lineages.eraseIdx li).length = num_active - 1 := by
    rw [List.length_eraseIdx, if_pos hli2, hlength]
  have hri2 : ri < (st.active_lineages.eraseIdx li).length := by omega
  obtain ⟨right, hright⟩ : ∃ x, (st.active_lineages.eraseIdx li)[ri]? = some x :=
    ⟨_, List.getElem?_eq_getElem hri2⟩
  have hlen2 : ((st.active_lineages.eraseIdx li).eraseIdx ri).length = num_active - 2 := by
    rw [List.length_eraseIdx, if_pos hri2, hlen1]
    omega
  have hleftmem : left ∈ st.active_lineages := List.getElem?_mem hleft
  have hrightmem : right ∈ st.active_lineages :=
    List.mem_of_mem_eraseIdx (List.getElem?_mem hright)
  have hleftlt : left < st.next_parent := hbound left hleftmem
  have hrightlt : right < st.next_parent := hbound right hrightmem
  have hnp : st.next_parent < 2 * n - 1 := by omega
  have hcond : left < st.parents.length ∧ right < st.parents.length ∧
      st.next_parent < st.children.length ∧ st.next_parent < st.ages.length := by
    rw [hsized.parents, hsized.children, hsized.ages]
    exact ⟨by omega, by omega, hnp, hnp⟩
  have hmem2 : ∀ a, a ∈ insert ((st.active_lineages.eraseIdx li).eraseIdx ri) st.next_parent ↔
      a = st.next_parent ∨ a ∈ (st.active_lineages.eraseIdx li).eraseIdx ri := by
    intro a
    rw [(hins _ _).mem_iff, List.mem_cons]
  have hnew : (st.children.set st.next_parent (left, right))[st.next_parent]?
      = some (left, right) := by
    rw [List.getElem?_set_self (by rw [hsized.children]; exact hnp)]
  refine ⟨{ st with
      parents := (st.parents.set left st.next_parent).set right st.next_parent
      children := st.children.set st.next_parent (left, right)
      ages := st.ages.set st.next_parent tc
      active_lineages :=
        insert ((st.active_lineages.eraseIdx li).eraseIdx ri) st.next_parent
      next_parent := st.next_parent + 1
      current_time := tc
      rng := rng1 + 2 },
    by simp only [coalesce, htime, hli, hleft, hri, hright, if_pos hcond], ?_, rfl, rfl⟩
  refine ⟨⟨hsized.sfs, ?_, ?_, ?_, hsized.tip_state⟩, by omega, ?_, ?_, ?_, ?_, ?_, ?_, ?_⟩
  · dsimp only
    rw [List.length_set, hsized.ages]
  · dsimp only
    rw [List.length_set, List.length_set, hsized.parents]
  · dsimp only
    rw [List.length_set, hsized.children]
  · dsimp only
    omega
  · dsimp only
    omega
  · dsimp only
    rw [(hins _ _).length_eq, List.length_cons, hlen2]
    omega
  · dsimp only
    intro a ha
    rcases (hmem2 a).mp ha with rfl | ha
    · exact Nat.lt_succ_self _
    · exact Nat.lt_succ_of_lt
        (hbound a (List.mem_of_mem_eraseIdx (List.mem_of_mem_eraseIdx ha)))
  · dsimp only
    exact ⟨st.next_parent, (hmem2 _).mpr (Or.inl rfl), rfl⟩
  · dsimp only
    intro p hp1 hp2
    by_cases hpe : p = st.next_parent
    · subst hpe
      exact ⟨left, right, hnew, hleftlt, hrightlt⟩
    · rw [List.getElem?_set_ne (fun e => hpe e.symm)]
      exact hparent p hp1 (by omega)
  · dsimp only
    intro t ht
    obtain ⟨a, ha, hb⟩ := hcover t ht
    have hb2 := below_set st.children n st.next_parent (left, right) hparent a t hb
      (hbound a ha)
    obtain ⟨i, hi⟩ := List.mem_iff_getElem?.mp ha
    by_cases hil : i = li
    · subst hil
      rw [hleft] at hi
      cases hi
      exact ⟨st.next_parent, (hmem2 _).mpr (Or.inl rfl),
        Below.left st.next_parent left right t hmade hnew hb2⟩
    · have ha1 : a ∈ st.active_lineages.eraseIdx li :=
        List.mem_eraseIdx_iff_getElem?.mpr ⟨i, hil, hi⟩
      obtain ⟨j, hj⟩ := List.mem_iff_getElem?.mp ha1
      by_cases hjr : j = ri
      · subst hjr
        rw [hright] at hj
        cases hj
        exact ⟨st.next_parent, (hmem2 _).mpr (Or.inl rfl),
          Below.right st.next_parent left right t hmade hnew hb2⟩
      · exact ⟨a, (hmem2 _).mpr (Or.inr (List.mem_eraseIdx_iff_getElem?.mpr ⟨j, hjr, hj⟩)),
          hb2⟩

/-- The coalescent loop: started with the invariant it returns with the invariant for one
active lineage, and leaves the tip states and the spectrum as they are. -/
theorem coalesceLoop_spec {K : Type} [LinearOrderedField K] [FloorRing K]
    (sim : CoalescentSFSSimulator K) (d : RandomDraws K)
    (insert : List Nat → Nat → List Nat) (fuel n : Nat)
    (hsizes : sim.change_points.length + 1 ≤ sim.population_sizes.length)
    (hfuel : sim.change_points.length + 1 ≤ fuel)
    (hunif : ∀ i, 0 ≤ d.uniform01 i ∧ d.uniform01 i < 1)
    (hins : ∀ l x, (insert l x).Perm (x :: l))
    (hn : n < 2 ^ 64) (num_active : Nat) :
    ∀ st : Locals K, Coalescing n num_active st →
      ∃ st1, coalesceLoop sim d insert fuel num_active st = some st1 ∧
        Coalescing n 1 st1 ∧ st1.tip_state = st.tip_state ∧ st1.sfs = st.sfs := by
  induction num_active with
  | zero =>
    intro st hinv
    exact absurd hinv.active (by omega)
  | succ k ih =>
    intro st hinv
    rw [coalesceLoop]
    by_cases hk : k + 1 > 1
    · rw [if_pos hk]
      obtain ⟨st1, h1, hinv1, ht1, hs1⟩ := coalesce_spec sim d insert fuel n (k + 1) st hsizes
        hfuel hunif hins hn (by omega) hinv
      simp only [h1]
      obtain ⟨st2, h2, hinv2, ht2, hs2⟩ := ih st1 hinv1
      exact ⟨st2, h2, hinv2, ht2.trans ht1, hs2.trans hs1⟩
    · rw [if_neg hk]
      have hk0 : k + 1 = 1 := by omega
      rw [hk0] at hinv
      exact ⟨st, rfl, hinv, rfl, rfl⟩


/-- The sum of tip states that are 0 or 1 is the plain sum of the first `m` of them, and at
most `m`. -/
theorem observedState_spec (ts : List Int) (n : Nat) (hn : n < 2 ^ 64) (hlen : ts.length = n)
    (hgood : ∀ t, t < n → ts[t]? = some 0 ∨ ts[t]? = some 1) (m : Nat) :
    m ≤ n → ∃ k, observedState ts m = some k ∧ k ≤ m ∧ (k : Int) = (ts.take m).sum := by
  induction m with
  | zero =>
    intro _
    exact ⟨0, rfl, le_refl _, by rw [List.take_zero, List.sum_nil, Nat.cast_zero]⟩
  | succ m ih =>
    intro hm
    obtain ⟨k, hk, hkm, hsum⟩ := ih (by omega)
    have key : ∀ s : Int, ts[m]? = some s → (s = 0 ∨ s = 1) →
        ∃ k2, observedState ts (m + 1) = some k2 ∧ k2 ≤ m + 1 ∧
          (k2 : Int) = (ts.take (m + 1)).sum := by
      intro s hs hs01
      have h0 : (0 : Int) ≤ (k : Int) + s := by omega
      have h1 : (k : Int) + s < 2 ^ 64 := by omega
      refine ⟨(((k : Int) + s) % 2 ^ 64).toNat, ?_, ?_, ?_⟩
      · simp only [observedState, hk, hs]
      · rw [Int.emod_eq_of_lt h0 h1]
        omega
      · rw [Int.emod_eq_of_lt h0 h1, Int.toNat_of_nonneg h0, List.take_succ, List.sum_append,
          hs, ← hsum]
        simp only [Option.toList_some, List.sum_cons, List.sum_nil, add_zero]
    rcases hgood m (by omega) with hs | hs
    · exact key 0 hs (Or.inl rfl)
    · exact key 1 hs (Or.inr rfl)

/-- Incrementing one cell of a vector raises the sum of its entries by one. -/
theorem sum_set_succ (l : List Int) :
    ∀ (k : Nat) (c : Int), l[k]? = some c → (l.set k (c + 1)).sum = l.sum + 1 := by
  induction l with
  | nil =>
    intro k c h
    simp only [List.getElem?_nil] at h
    cases h
  | cons a rest ih =>
    intro k c h
    cases k with
    | zero =>
      rw [List.getElem?_cons_zero] at h
      cases h
      rw [List.set_cons_zero, List.sum_cons, List.sum_cons]
      ring
    | succ k =>
      rw [List.getElem?_cons_succ] at h
      rw [List.set_cons_succ, List.sum_cons, List.sum_cons, ih k c h]
      ring

/-- One replicate of `simulateSFS`, started with vectors of the sizes for the sample size
`n`: it returns, keeps the sizes, leaves every tip with the state 0 or 1, and increments
the one cell of the spectrum whose index is the sum of the tip states. -/
theorem simulateReplicate_spec {K : Type} [LinearOrderedField K] [FloorRing K]
    (sim : CoalescentSFSSimulator K) (d : RandomDraws K)
    (insert : List Nat → Nat → List Nat) (fuel n : Nat)
    (hsizes : sim.change_points.length + 1 ≤ sim.population_sizes.length)
    (hfuel : sim.change_points.length + 1 ≤ fuel) (hfuel2 : 2 * n - 1 ≤ fuel)
    (hunif : ∀ i, 0 ≤ d.uniform01 i ∧ d.uniform01 i < 1)
    (hins : ∀ l x, (insert l x).Perm (x :: l))
    (hn1 : 1 ≤ n) (hn : n < 2 ^ 64) (st : Locals K) (hst : Sized n st) :
    ∃ st1, simulateReplicate sim d insert fuel n st = some st1 ∧ Sized n st1 ∧
      (∀ t, t < n → st1.tip_state[t]? = some 0 ∨ st1.tip_state[t]? = some 1) ∧
      ∃ k c, k ≤ n ∧ (k : Int) = st1.tip_state.sum ∧ st.sfs[k]? = some c ∧
        st1.sfs = st.sfs.set k (c + 1) := by
  have hperm := foldl_insert_perm insert hins (List.range n) []
  rw [List.nil_append] at hperm
  have hstart : Coalescing n n
      { st with
        active_lineages := (List.range n).foldl insert []
        current_time := 0
        next_parent := n } := by
    refine ⟨⟨hst.sfs, hst.ages, hst.parents, hst.children, hst.tip_state⟩, hn1, le_refl _,
      by dsimp only; omega, ?_, ?_, ?_, ?_, ?_⟩
    · dsimp only
      rw [hperm.length_eq, List.length_range]
    · dsimp only
      intro a ha
      exact List.mem_range.mp (hperm.mem_iff.mp ha)
    · dsimp only
      exact ⟨n - 1, hperm.mem_iff.mpr (List.mem_range.mpr (by omega)), by omega⟩
    · dsimp only
      intro p hp1 hp2
      omega
    · dsimp only
      intro t ht
      exact ⟨t, hperm.mem_iff.mpr (List.mem_range.mpr ht), Below.tip t ht⟩
  obtain ⟨st1, h1, hinv, htip, hsfs⟩ := coalesceLoop_spec sim d insert fuel n hsizes hfuel
    hunif hins hn n _ hstart
  dsimp only at htip hsfs
  obtain ⟨hsized, -, -, htotal, hlength, -, hlast, hparent, hcover⟩ := hinv
  obtain ⟨root, hactive⟩ := List.length_eq_one.mp hlength
  have hroot : root = 2 * n - 2 := by
    obtain ⟨a, ha, ha1⟩ := hlast
    rw [hactive, List.mem_singleton] at ha
    omega
  have hagelen : st1.ages.length = st1.next_parent := by
    rw [hsized.ages]
    omega
  obtain ⟨ts, m, rng2, h2, hlen2, hgood2⟩ := simulateMutations_spec sim d st1.children
    st1.ages n (fun p hp1 hp2 => hparent p hp1 (by omega)) fuel (2 * n - 2) 0 st1.tip_state
    st1.rng hsized.tip_state (by omega) (by omega) (Or.inl rfl)
  have hgood : ∀ t, t < n → ts[t]? = some 0 ∨ ts[t]? = some 1 := by
    intro t ht
    obtain ⟨a, ha, hb⟩ := hcover t ht
    rw [hactive, List.mem_singleton] at ha
    rw [ha, hroot] at hb
    exact hgood2 t (Or.inr hb)
  obtain ⟨k, hk, hkn, hksum⟩ := observedState_spec ts n hn hlen2 hgood n (le_refl _)
  rw [List.take_of_length_le (by omega)] at hksum
  have hkc : k < st.sfs.length := by
    rw [hst.sfs]
    omega
  refine ⟨{ st1 with tip_state := ts, rng := rng2, sfs := st1.sfs.set k (st.sfs[k] + 1) },
    ?_, ⟨?_, hsized.ages, hsized.parents, hsized.children, hlen2⟩, hgood, k, st.sfs[k], hkn,
    hksum, List.getElem?_eq_getElem hkc, ?_⟩
  · have hkc2 : st1.sfs[k]? = some st.sfs[k] := by
      rw [hsfs]
      exact List.getElem?_eq_getElem hkc
    simp only [simulateReplicate, h1, h2, hk, hkc2]
  · dsimp only
    rw [List.length_set, hsized.sfs]
  · dsimp only
    rw [hsfs]

/-- The loop over the replicates, started with vectors of the sizes for the sample size
`n`: it returns, and the sum of the spectrum has grown by the number of replicates. -/
theorem replicateLoop_spec {K : Type} [LinearOrderedField K] [FloorRing K]
    (sim : CoalescentSFSSimulator K) (d : RandomDraws K)
    (insert : List Nat → Nat → List Nat) (fuel n : Nat)
    (hsizes : sim.change_points.length + 1 ≤ sim.population_sizes.length)
    (hfuel : sim.change_points.length + 1 ≤ fuel) (hfuel2 : 2 * n - 1 ≤ fuel)
    (hunif : ∀ i, 0 ≤ d.uniform01 i ∧ d.uniform01 i < 1)
    (hins : ∀ l x, (insert l x).Perm (x :: l))
    (hn1 : 1 ≤ n) (hn : n < 2 ^ 64) (reps : Nat) :
    ∀ st : Locals K, Sized n st →
      ∃ st1, replicateLoop sim d insert fuel n reps st = some st1 ∧ Sized n st1 ∧
        st1.sfs.sum = st.sfs.sum + (reps : Int) := by
  induction reps with
  | zero =>
    intro st hst
    exact ⟨st, rfl, hst, by rw [Nat.cast_zero, add_zero]⟩
  | succ reps ih =>
    intro st hst
    obtain ⟨st1, h1, hst1, -, k, c, -, -, hc, hset⟩ := simulateReplicate_spec sim d insert
      fuel n hsizes hfuel hfuel2 hunif hins hn1 hn st hst
    obtain ⟨st2, h2, hst2, hsum⟩ := ih st1 hst1
    refine ⟨st2, ?_, hst2, ?_⟩
    · rw [replicateLoop]
      simp only [h1]
      exact h2
    · rw [hsum, hset, sum_set_succ st.sfs k c hc]
      push_cast
      ring

/-- C36. In the build without `RB_MPI`, for a sample size of at least 1 and a number of
replicates of at least 0 (both of them `long`), a population size for every interval,
uniform draws in `[0, 1)` and fuel for the change points and for the nodes of the
genealogy: every replicate of `simulateSFS`, started with vectors of the sizes that
`simulateSFS` gives them, returns, leaves every tip with the state 0 or 1, and increments
exactly one cell of the spectrum, whose index is the sum of the tip states and lies
between 0 and `sample_size`; and `simulateSFS` returns a vector of `sample_size + 1`
entries whose sum is `reps`. -/
theorem simulateSFS_spec (sim : CoalescentSFSSimulator ℝ) (d : RandomDraws ℝ)
    (insert : List Nat → Nat → List Nat) (fuel : Nat) (sample_size reps : Int) (rng : Nat)
    (hn1 : 1 ≤ sample_size) (hn2 : sample_size < 2 ^ 63)
    (hr1 : 0 ≤ reps) (hr2 : reps < 2 ^ 63)
    (hsizes : sim.change_points.length + 1 ≤ sim.population_sizes.length)
    (hunif : ∀ i, 0 ≤ d.uniform01 i ∧ d.uniform01 i < 1)
    (hins : ∀ l x, (insert l x).Perm (x :: l))
    (hfuel : sim.change_points.length + 1 ≤ fuel)
    (hfuel2 : 2 * sample_size.toNat - 1 ≤ fuel) :
    (∀ st : Locals ℝ, Sized sample_size.toNat st →
      ∃ st1, simulateReplicate sim d insert fuel sample_size.toNat st = some st1 ∧
        Sized sample_size.toNat st1 ∧
        (∀ t, t < sample_size.toNat →
          st1.tip_state[t]? = some 0 ∨ st1.tip_state[t]? = some 1) ∧
        ∃ k c, k ≤ sample_size.toNat ∧ (k : Int) = st1.tip_state.sum ∧
          st.sfs[k]? = some c ∧ st1.sfs = st.sfs.set k (c + 1)) ∧
    ∃ sfs, simulateSFS sim d insert fuel sample_size reps rng = some sfs ∧
      (sfs.length : Int) = sample_size + 1 ∧ sfs.sum = reps := by
  have hn1N : 1 ≤ sample_size.toNat := by omega
  have hnN : sample_size.toNat < 2 ^ 64 := by omega
  refine ⟨fun st hst => simulateReplicate_spec sim d insert fuel sample_size.toNat hsizes
    hfuel hfuel2 hunif hins hn1N hnN st hst, ?_⟩
  have hinit : Sized sample_size.toNat (initialLocals sample_size.toNat rng : Locals ℝ) :=
    ⟨List.length_replicate _ _, List.length_replicate _ _, List.length_replicate _ _,
      List.length_replicate _ _, List.length_replicate _ _⟩
  obtain ⟨st1, h1, hst1, hsum⟩ := replicateLoop_spec sim d insert fuel sample_size.toNat
    hsizes hfuel hfuel2 hunif hins hn1N hnN (reps % 2 ^ 64).toNat _ hinit
  refine ⟨st1.sfs, ?_, ?_, ?_⟩
  · unfold simulateSFS
    rw [if_neg (by omega), h1, Option.map_some']
  · rw [hst1.sfs]
    omega
  · rw [hsum]
    have h0 : (initialLocals sample_size.toNat rng : Locals ℝ).sfs.sum = 0 := by
      simp only [initialLocals, List.sum_replicate, smul_zero]
    rw [h0, zero_add, Int.emod_eq_of_lt hr1 (by omega), Int.toNat_of_nonneg hr1]

/-- Evaluation of C36 on the example simulator with the constant draws, a set that puts
a new element first, a sample of 3 and 5 replicates. -/
theorem simulateSFS_spec_witness :
    (∀ st : Locals ℝ, Sized (3 : Int).toNat st →
      ∃ st1, simulateReplicate (exampleSimulator ℝ) (exampleDraws ℝ) (fun l x => x :: l) 5
          (3 : Int).toNat st = some st1 ∧
        Sized (3 : Int).toNat st1 ∧
        (∀ t, t < (3 : Int).toNat →
          st1.tip_state[t]? = some 0 ∨ st1.tip_state[t]? = some 1) ∧
        ∃ k c, k ≤ (3 : Int).toNat ∧ (k : Int) = st1.tip_state.sum ∧
          st.sfs[k]? = some c ∧ st1.sfs = st.sfs.set k (c + 1)) ∧
    ∃ sfs, simulateSFS (exampleSimulator ℝ) (exampleDraws ℝ) (fun l x => x :: l) 5 3 5 0
        = some sfs ∧
      (sfs.length : Int) = 3 + 1 ∧ sfs.sum = 5 :=
  simulateSFS_spec (exampleSimulator ℝ) (exampleDraws ℝ) (fun l x => x :: l) 5 3 5 0
    (by decide) (by decide) (by decide) (by decide) (by decide)
    (by intro i; simp only [exampleDraws]; constructor <;> norm_num)
    (fun l x => List.Perm.refl (x :: l)) (by decide) (by decide)

end CoalescentSFSSimulator

namespace SingleElementScaleSimplexSingleScalarProposal

/-! `doProposal` in binary64 -/

/-- C3. `doProposal` evaluated in binary64 on the simplex `[1e-99, 1.0]`, whose
coordinates are not negative and sum to the `double` 1.0, with index 1 chosen and the
draw `u = 0`.  With `lambda = 80` the call succeeds and commits the vector `[inf, inf]`.
With `lambda = 74` it succeeds and commits `[9.0e-84, 0.7686]`, whose coordinates sum to
`0.7686`, which is below 1. -/
theorem doProposalDouble_commits_no_simplex :
    Double.add (Double.round false 1 (10 ^ 99)) (Double.ofNat 1) = Double.ofNat 1 ∧
    (doProposalDouble expSample logSample (exampleProposalDouble (Double.ofNat 80) false)
        (exampleGraphDouble tinyAndOne) (Double.round false 1 2) (Double.ofNat 0)).map
      (fun o => (o.proposal.failed, o.graph.simplexValue 0))
      = some (false, [Double.inf false, Double.inf false]) ∧
    (doProposalDouble expSample logSample (exampleProposalDouble (Double.ofNat 74) false)
        (exampleGraphDouble tinyAndOne) (Double.round false 1 2) (Double.ofNat 0)).map
      (fun o => (o.proposal.failed, o.graph.simplexValue 0))
      = some (false, [Double.finite false 4925250774549310 746,
          Double.finite false 6922830684512341 1021]) ∧
    Double.add (Double.finite false 4925250774549310 746)
        (Double.finite false 6922830684512341 1021)
      = Double.finite false 6922830684512341 1021 ∧
    Double.lt (Double.finite false 6922830684512341 1021) (Double.ofNat 1) = true := by
  decide!

/-- C5. `doProposal` evaluated in binary64 on the simplex `[1e-99, 1.0]` with the scalar
`5.0` bound, `lambda = 80`, index 1 chosen and the draw `u = 0`: the call succeeds, sets
the scalar to `5.0 * 0 = 0` and the simplex to `[inf, inf]`, so that the product of the
new scalar with the new coordinate 0 is a NaN, while the product of the old scalar with
the old coordinate 0 is `5e-99`. -/
theorem doProposalDouble_scalar_product_lost :
    (doProposalDouble expSample logSample (exampleProposalDouble (Double.ofNat 80) true)
        (exampleGraphDouble tinyAndOne) (Double.round false 1 2) (Double.ofNat 0)).map
      (fun o => (o.proposal.failed, o.graph.doubleValue 7, o.graph.simplexValue 0,
        (o.graph.simplexValue 0).map (Double.mul (o.graph.doubleValue 7))))
      = some (false, Double.finite false 0 0, [Double.inf false, Double.inf false],
          [Double.nan, Double.nan]) ∧
    tinyAndOne.map (Double.mul (Double.ofNat 5))
      = [Double.finite false 6156563468186638 695, Double.ofNat 5] := by
  decide!

/-- C7. `doProposal` evaluated in binary64 with `lambda = 80`, index 1 chosen and the draw
`u = 0`.  On the simplex `[1e-99, 1.0]`, where no renormalised coordinate is below
`1e-100`, the call leaves `failed = false` and returns `+inf` without a scalar and a NaN
with the scalar `5.0` bound, neither of them a finite value.  On the simplex `[0, 1.0]`
with the scalar bound, where the renormalised coordinate 0 is 0 and so below `1e-100`,
the call leaves `failed = false` and commits `[NaN, inf]`. -/
theorem doProposalDouble_not_failed_not_finite :
    (doProposalDouble expSample logSample (exampleProposalDouble (Double.ofNat 80) false)
        (exampleGraphDouble tinyAndOne) (Double.round false 1 2) (Double.ofNat 0)).map
      (fun o => (o.proposal.failed, o.ret)) = some (false, Double.inf false) ∧
    (doProposalDouble expSample logSample (exampleProposalDouble (Double.ofNat 80) true)
        (exampleGraphDouble tinyAndOne) (Double.round false 1 2) (Double.ofNat 0)).map
      (fun o => (o.proposal.failed, o.ret)) = some (false, Double.nan) ∧
    (doProposalDouble expSample logSample (exampleProposalDouble (Double.ofNat 80) true)
        (exampleGraphDouble [Double.ofNat 0, Double.ofNat 1]) (Double.round false 1 2)
        (Double.ofNat 0)).map
      (fun o => (o.proposal.failed, o.graph.simplexValue 0, o.ret))
      = some (false, [Double.nan, Double.inf false], Double.nan) := by
  decide!

/-- C29. The renormalising sum that `doProposal` computes in binary64 for the coordinate
value `x_i = 1.0` with `lambda = 80` and the draw `u = 0`: the scaling factor is
`exp(-40)`, about `4.25e-18`, the difference `value_new - value_current` rounds to `-1.0`
and `simplex_sum_new` is exactly 0.  On the simplex `[1e-99, 1.0]` `doProposal` then
divides both coordinates by 0, which gives `[inf, inf]`, multiplies the bound scalar by 0
and takes the logarithm of 0, which makes the returned value a NaN. -/
theorem doProposalDouble_sum_zero :
    Double.mul (Double.ofNat 80) (Double.sub (Double.ofNat 0) (Double.round false 1 2))
      = Double.neg (Double.ofNat 40) ∧
    Double.sub (Double.mul (Double.ofNat 1) (expSample (Double.neg (Double.ofNat 40))))
        (Double.ofNat 1)
      = Double.neg (Double.ofNat 1) ∧
    simplexSumNew (Double.mul (Double.ofNat 1) (expSample (Double.neg (Double.ofNat 40))))
        (Double.ofNat 1)
      = Double.finite false 0 0 ∧
    (doProposalDouble expSample logSample (exampleProposalDouble (Double.ofNat 80) true)
        (exampleGraphDouble tinyAndOne) (Double.round false 1 2) (Double.ofNat 0)).map
      (fun o => (o.graph.simplexValue 0, o.graph.doubleValue 7, o.ret))
      = some ([Double.inf false, Double.inf false], Double.finite false 0 0,
          Double.nan) := by
  decide!

end SingleElementScaleSimplexSingleScalarProposal

end RevBayesCore
